import Mathlib

/-!
# nakevaleng: record codec and skip-list memtable

A shallow embedding of `core/record/record.go` (the durable record encoding) together with the
Go standard-library routines it calls (`hash/crc32`, `encoding/binary`, `io.ReadFull`), and of
the skip-list index described in section 4.2 of the specification.

Conventions of the embedding:

* a Go `byte` is a `Nat` below `256`, a `[]byte` is a `List Nat`; slices are values (no aliasing
  between two slices is modelled);
* `uint32`, `uint64`, `uint8` are `Nat` with the range stated where it matters, `int64` is `Int`;
* a `*bufio.Reader` is the list of bytes not yet consumed; a `*bufio.Writer` is the list of bytes
  written so far;
* `time.Now().Unix()` is a parameter `now` of the constructors;
* a Go `panic` is a constructor of the result type.
-/

namespace Nakevaleng

/-! ## `hash/crc32` (generic implementation) -/

/-- The constant `crc32.IEEE`, the reflected IEEE polynomial. -/
def IEEE : Nat := 0xedb88320

/-- One iteration of the inner loop of `simplePopulateTable`:
`if crc&1 == 1 { crc = (crc >> 1) ^ poly } else { crc >>= 1 }`. -/
def tableStep (poly crc : Nat) : Nat :=
  if crc &&& 1 = 1 then (crc >>> 1) ^^^ poly else crc >>> 1

/-- Entry `i` of the table built by `simplePopulateTable(poly, t)`: eight iterations of the
inner loop started at `uint32(i)`. -/
def simpleTable (poly i : Nat) : Nat :=
  tableStep poly (tableStep poly (tableStep poly (tableStep poly
    (tableStep poly (tableStep poly (tableStep poly (tableStep poly i)))))))

/-- The body of the loop of `simpleUpdate`: `crc = tab[byte(crc)^v] ^ (crc >> 8)`. -/
def updateByte (poly crc v : Nat) : Nat :=
  simpleTable poly ((crc % 256) ^^^ v) ^^^ (crc >>> 8)

/-- The loop of `simpleUpdate` over the bytes of `p`. -/
def updateLoop (poly : Nat) : Nat → List Nat → Nat
  | crc, [] => crc
  | crc, v :: p => updateLoop poly (updateByte poly crc v) p

/-- The function `simpleUpdate(crc, tab, p)`: `crc = ^crc`, the loop, `return ^crc`, on `uint32`. -/
def simpleUpdate (poly crc : Nat) (p : List Nat) : Nat :=
  updateLoop poly (crc ^^^ 0xffffffff) p ^^^ 0xffffffff

/-- The function `crc32.ChecksumIEEE(data)`, that is `Update(0, IEEETable, data)`. -/
def ChecksumIEEE (data : List Nat) : Nat :=
  simpleUpdate IEEE 0 data

/-! ## `encoding/binary`, little endian -/

/-- The function `binary.LittleEndian.PutUint32`: `b[0] = byte(v)`, `b[1] = byte(v >> 8)`, ... -/
def putUint32 (v : Nat) : List Nat :=
  [v % 256, (v >>> 8) % 256, (v >>> 16) % 256, (v >>> 24) % 256]

/-- The function `binary.LittleEndian.PutUint64`. -/
def putUint64 (v : Nat) : List Nat :=
  [v % 256, (v >>> 8) % 256, (v >>> 16) % 256, (v >>> 24) % 256,
   (v >>> 32) % 256, (v >>> 40) % 256, (v >>> 48) % 256, (v >>> 56) % 256]

/-- The function `binary.LittleEndian.Uint32`: `uint32(b[0]) | uint32(b[1])<<8 | uint32(b[2])<<16 |
uint32(b[3])<<24`. It is only ever applied to a buffer of four bytes. -/
def getUint32 : List Nat → Nat
  | [b0, b1, b2, b3] => b0 ||| (b1 <<< 8) ||| (b2 <<< 16) ||| (b3 <<< 24)
  | _ => 0

/-- The function `binary.LittleEndian.Uint64`. It is only ever applied to a buffer of eight
bytes. -/
def getUint64 : List Nat → Nat
  | [b0, b1, b2, b3, b4, b5, b6, b7] =>
      b0 ||| (b1 <<< 8) ||| (b2 <<< 16) ||| (b3 <<< 24) |||
      (b4 <<< 32) ||| (b5 <<< 40) ||| (b6 <<< 48) ||| (b7 <<< 56)
  | _ => 0

/-- The conversion `uint64(v)` of an `int64` (two's complement). -/
def int64ToUint64 (v : Int) : Nat := (v % 2 ^ 64).toNat

/-- The conversion `int64(u)` of a `uint64` (two's complement). -/
def uint64ToInt64 (u : Nat) : Int := if u < 2 ^ 63 then (u : Int) else (u : Int) - 2 ^ 64

/-! ## `io.ReadFull` on a buffered reader -/

/-- The two errors `io.ReadFull` returns on a stream that ends early. -/
inductive IOError
  | EOF
  | ErrUnexpectedEOF
  deriving DecidableEq, Repr

/-- The result of `io.ReadFull`: the buffer when it was filled, or the error. -/
inductive ReadResult
  | ok (bs : List Nat)
  | err (e : IOError)
  deriving DecidableEq, Repr

/-- The call `io.ReadFull(r, buf)` with `len(buf) = n`, returning the result and the reader
afterwards. A buffer of length zero is filled without touching the reader (`ReadAtLeast` with `min = 0`
does not enter its loop); a stream with no byte left gives `io.EOF`; a stream that ends before
`n` bytes gives `io.ErrUnexpectedEOF`, its bytes being consumed. -/
def readFull (r : List Nat) (n : Nat) : ReadResult × List Nat :=
  if n = 0 then (.ok [], r)
  else if n ≤ r.length then (.ok (r.take n), r.drop n)
  else if r.length = 0 then (.err .EOF, [])
  else (.err .ErrUnexpectedEOF, [])

/-- The call `binary.Read(reader, binary.LittleEndian, &x)` for `x` of type `uint32`: the
error (if any), the value of `x` afterwards (unchanged on error) and the reader afterwards. -/
def readUint32 (r : List Nat) (data : Nat) : Option IOError × Nat × List Nat :=
  match readFull r 4 with
  | (.ok bs, r') => (none, getUint32 bs, r')
  | (.err e, r') => (some e, data, r')

/-- The call of `binary.Read` into an `int64`. -/
def readInt64 (r : List Nat) (data : Int) : Option IOError × Int × List Nat :=
  match readFull r 8 with
  | (.ok bs, r') => (none, uint64ToInt64 (getUint64 bs), r')
  | (.err e, r') => (some e, data, r')

/-- The call of `binary.Read` into a `uint8`. -/
def readUint8 (r : List Nat) (data : Nat) : Option IOError × Nat × List Nat :=
  match readFull r 1 with
  | (.ok bs, r') => (none, bs.headD 0, r')
  | (.err e, r') => (some e, data, r')

/-- The call of `binary.Read` into a `uint64`. -/
def readUint64 (r : List Nat) (data : Nat) : Option IOError × Nat × List Nat :=
  match readFull r 8 with
  | (.ok bs, r') => (none, getUint64 bs, r')
  | (.err e, r') => (some e, data, r')

/-- The call of `binary.Read` into a `*[]byte`: the size is the current length of the slice; on
error the slice keeps its content. -/
def readBytes (r : List Nat) (data : List Nat) : Option IOError × List Nat × List Nat :=
  match readFull r data.length with
  | (.ok bs, r') => (none, bs, r')
  | (.err e, r') => (some e, data, r')

/-! ## `core/record` -/

/-- The constant `RECORD_STATUS_DEFAULT`. -/
def RECORD_STATUS_DEFAULT : Nat := 0 <<< 0

/-- The constant `RECORD_TOMBSTONE_REMOVED`, bit 0 of the status. -/
def RECORD_TOMBSTONE_REMOVED : Nat := 1 <<< 0

/-- The struct `Record`. -/
structure Record where
  Crc : Nat
  Timestamp : Int
  Status : Nat
  TypeInfo : Nat
  KeySize : Nat
  ValueSize : Nat
  Key : List Nat
  Value : List Nat
  deriving DecidableEq, Repr

/-- A Go slice of bytes: the backing array it points into (its index in the memory), the offset
of its first element in that array, its length and its capacity. -/
structure Slice where
  array : Nat
  off : Nat
  len : Nat
  cap : Nat
  deriving DecidableEq, Repr

/-- The bytes the slice holds; the memory is the list of the backing arrays. -/
def Slice.bytes (s : Slice) (m : List (List Nat)) : List Nat :=
  ((m.getD s.array []).drop s.off).take s.len

/-- The slice expression `s[lo:hi]` for `lo ≤ hi ≤ cap(s)`: same array, length `hi - lo`,
capacity `cap(s) - lo`. -/
def Slice.slice (s : Slice) (lo hi : Nat) : Slice :=
  { array := s.array, off := s.off + lo, len := hi - lo, cap := s.cap - lo }

/-- The slice lies in the memory: its array exists and holds the whole capacity. -/
def Slice.Within (s : Slice) (m : List (List Nat)) : Prop :=
  s.array < m.length ∧ s.len ≤ s.cap ∧ s.off + s.cap ≤ (m.getD s.array []).length

instance (s : Slice) (m : List (List Nat)) : Decidable (s.Within m) := by
  unfold Slice.Within; infer_instance

/-- The array with the bytes `xs` copied to the indices from `i` on. -/
def store (a : List Nat) (i : Nat) (xs : List Nat) : List Nat :=
  a.take i ++ xs ++ a.drop (i + xs.length)

/-- The builtin `append(s, xs...)`, with `xs` the bytes of the second slice when the call is
made. When `len(s) + len(xs)` fits the capacity of `s` the bytes are copied into the backing
array of `s` behind its last element, and the result is `s` with the greater length; every slice
that looks at those indices of the array sees the new bytes. Otherwise a new array receives the
bytes of `s` followed by `xs` (its capacity, at least its length, is taken as its length) and no
existing array changes. The result is the new slice and the memory after the call. -/
def append (m : List (List Nat)) (s : Slice) (xs : List Nat) : Slice × List (List Nat) :=
  if s.len + xs.length ≤ s.cap then
    ({ s with len := s.len + xs.length },
      m.set s.array (store (m.getD s.array []) (s.off + s.len) xs))
  else
    ({ array := m.length, off := 0, len := s.len + xs.length, cap := s.len + xs.length },
      m ++ [s.bytes m ++ xs])

/-- The struct `Record` as the program holds it: `Key` and `Value` are slices, and the bytes
they hold are those of the memory at the time they are read. -/
structure SliceRecord where
  Crc : Nat
  Timestamp : Int
  Status : Nat
  TypeInfo : Nat
  KeySize : Nat
  ValueSize : Nat
  Key : Slice
  Value : Slice
  deriving DecidableEq, Repr

/-- The record read in the memory: the fields, with the bytes `Key` and `Value` hold there. -/
def SliceRecord.load (r : SliceRecord) (m : List (List Nat)) : Record :=
  { Crc := r.Crc
    Timestamp := r.Timestamp
    Status := r.Status
    TypeInfo := r.TypeInfo
    KeySize := r.KeySize
    ValueSize := r.ValueSize
    Key := r.Key.bytes m
    Value := r.Value.bytes m }

/-- The record a call has returned, read in the memory the call has left. -/
def loaded (p : SliceRecord × List (List Nat)) : Record := p.1.load p.2

/-- The function `New(key, val)` on two slices of the memory `m`; `now` is the value of
`time.Now().Unix()`. The argument of `crc32.ChecksumIEEE` is `append(key[:], val[:]...)`, and
`key[:]` is `key` itself, spare capacity included: the call of `append` can write into the array
of `key`. The result is the record, holding the two slices, and the memory after the call. -/
def InMemory.New (m : List (List Nat)) (key val : Slice) (now : Int) :
    SliceRecord × List (List Nat) :=
  let data := append m key (val.bytes m)
  ({ Crc := ChecksumIEEE (data.1.bytes data.2)
     Timestamp := now
     Status := RECORD_STATUS_DEFAULT
     TypeInfo := 0
     KeySize := key.len
     ValueSize := val.len
     Key := key
     Value := val }, data.2)

/-- The function `NewTyped(key, val, typeinfo)` on two slices of the memory `m`. -/
def InMemory.NewTyped (m : List (List Nat)) (key val : Slice) (typeinfo : Nat) (now : Int) :
    SliceRecord × List (List Nat) :=
  let r := InMemory.New m key val now
  ({ r.1 with TypeInfo := typeinfo }, r.2)

/-- The function `New(key, val)` on two byte strings that are held apart: `key` and `val` are
the only arrays of the memory, each slice covers its whole array, and the result is the record
`InMemory.New` returns there, read in the memory it leaves. -/
def New (key val : List Nat) (now : Int) : Record :=
  loaded (InMemory.New [key, val] ⟨0, 0, key.length, key.length⟩
    ⟨1, 0, val.length, val.length⟩ now)

/-- The function `NewTyped(key, val, typeinfo)` on two byte strings that are held apart. -/
def NewTyped (key val : List Nat) (typeinfo : Nat) (now : Int) : Record :=
  let r := New key val now
  { r with TypeInfo := typeinfo }

/-- The conversion `[]byte(s)`: the UTF-8 bytes of the string. -/
def stringBytes (s : String) : List Nat :=
  s.data.flatMap (fun c => (String.utf8EncodeChar c).map UInt8.toNat)

/-- The function `NewFromString(key, val)`: each conversion `[]byte(s)` allocates an array of
its own, so `New` receives two byte strings that are held apart. -/
def NewFromString (key val : String) (now : Int) : Record :=
  New (stringBytes key) (stringBytes val) now

/-- The function `Clone(rec)`. -/
def Clone (rec : Record) (now : Int) : Record :=
  { Crc := rec.Crc
    Timestamp := now
    Status := rec.Status
    TypeInfo := rec.TypeInfo
    KeySize := rec.KeySize
    ValueSize := rec.ValueSize
    Key := rec.Key
    Value := rec.Value }

/-- The function `NewEmpty()`: `New` on two slices of length zero, to which `append` adds no
byte. -/
def NewEmpty (now : Int) : Record := New [] [] now

/-- The method `IsDeleted()`. -/
def Record.IsDeleted (this : Record) : Bool :=
  (this.Status &&& RECORD_TOMBSTONE_REMOVED) != 0

/-- The method `CalcCRC()` on a record of the memory `m`. As in `New`, the argument of
`crc32.ChecksumIEEE` is `append(this.Key[:], this.Value[:]...)`, which can write into the array
of `Key`. The result is the record and the memory after the call. -/
def InMemory.CalcCRC (m : List (List Nat)) (this : SliceRecord) :
    SliceRecord × List (List Nat) :=
  let data := append m this.Key (this.Value.bytes m)
  ({ this with Crc := ChecksumIEEE (data.1.bytes data.2) }, data.2)

/-- The call `binary.Write(writer, binary.LittleEndian, x)` for `x` of type `uint32`; the
writer is the list of bytes written so far and the write appends to it. -/
def writeUint32 (w : List Nat) (v : Nat) : List Nat := w ++ putUint32 v

/-- The call of `binary.Write` for an `int64`. -/
def writeInt64 (w : List Nat) (v : Int) : List Nat := w ++ putUint64 (int64ToUint64 v)

/-- The call of `binary.Write` for a `uint8`. -/
def writeUint8 (w : List Nat) (v : Nat) : List Nat := w ++ [v % 256]

/-- The call of `binary.Write` for a `uint64`. -/
def writeUint64 (w : List Nat) (v : Nat) : List Nat := w ++ putUint64 v

/-- The call of `binary.Write` for a `[]byte` (of any length, zero included). -/
def writeBytes (w : List Nat) (v : List Nat) : List Nat := w ++ v

/-- The method `serialize(writer)`: eight `binary.Write` calls in field order. The writer is an
in-memory stream, on which no write fails. -/
def Record.serialize (this : Record) (writer : List Nat) : List Nat :=
  let writer := writeUint32 writer this.Crc
  let writer := writeInt64 writer this.Timestamp
  let writer := writeUint8 writer this.Status
  let writer := writeUint8 writer this.TypeInfo
  let writer := writeUint64 writer this.KeySize
  let writer := writeUint64 writer this.ValueSize
  let writer := writeBytes writer this.Key
  writeBytes writer this.Value

/-- The method `Serialize(fname)`: open the file for appending (creating it when missing),
`serialize` through a buffered writer, flush and close. The file is the list of its bytes, a
missing file being the empty list; opening and writing do not fail. -/
def Record.Serialize (this : Record) (file : List Nat) : List Nat :=
  this.serialize file

/-- The largest size `make([]byte, n)` accepts before the runtime panics with
`makeslice: len out of range` (the constant `maxAlloc` of the 64-bit runtime). -/
def maxAlloc : Nat := 2 ^ 48

/-- How a call of `Deserialize` ends. -/
inductive Outcome
  /-- the call returns; the record and the reader are as given -/
  | returned (this : Record) (reader : List Nat)
  /-- `panic(err.Error())`: the error of the last `binary.Read` was not nil -/
  | panicRead (e : IOError)
  /-- `panic("")` after printing "Bad Record checksum" -/
  | panicChecksum
  /-- the runtime panic of `make` on a length out of range -/
  | panicMakeslice
  deriving DecidableEq, Repr

/-- The method `Deserialize(reader)`. Each `binary.Read` gives a triple: its error, the field
afterwards (the old content of the target when the read failed) and the reader afterwards. Every
call assigns to the same variable `err`, so the value tested by `if err != nil` is that of the
last call, the read of `Value`. The two `make` calls sit between the reads of the sizes and the
reads of key and value. Both slices are new and `make` gives `Key` no spare capacity, so the
`append(this.Key[:], this.Value[:]...)` of the checksum test writes into no existing array: its
result holds the bytes of `Key` followed by those of `Value`, and both slices keep theirs. -/
def Record.Deserialize (this : Record) (reader : List Nat) : Outcome :=
  match readUint32 reader this.Crc with
  | (_, crc, reader) =>
  match readInt64 reader this.Timestamp with
  | (_, timestamp, reader) =>
  match readUint8 reader this.Status with
  | (_, status, reader) =>
  match readUint8 reader this.TypeInfo with
  | (_, typeInfo, reader) =>
  match readUint64 reader this.KeySize with
  | (_, keySize, reader) =>
  match readUint64 reader this.ValueSize with
  | (_, valueSize, reader) =>
  if maxAlloc < keySize ∨ maxAlloc < valueSize then .panicMakeslice
  else
    match readBytes reader (List.replicate keySize 0) with
    | (_, key, reader) =>
    match readBytes reader (List.replicate valueSize 0) with
    | (some err, _, _) => .panicRead err
    | (none, value, reader) =>
      if ChecksumIEEE (key ++ value) ≠ crc then .panicChecksum
      else .returned
        { Crc := crc, Timestamp := timestamp, Status := status, TypeInfo := typeInfo,
          KeySize := keySize, ValueSize := valueSize, Key := key, Value := value } reader

/-! ## Ranges of the Go types and validity of a record -/

/-- Every element of the list is a byte. -/
def IsBytes (l : List Nat) : Prop := ∀ b ∈ l, b < 256

instance (l : List Nat) : Decidable (IsBytes l) := by
  unfold IsBytes; infer_instance

/-- The value is an `int64`. -/
def IsInt64 (v : Int) : Prop := -2 ^ 63 ≤ v ∧ v < 2 ^ 63

instance (v : Int) : Decidable (IsInt64 v) := by
  unfold IsInt64; infer_instance

/-- Every field of the record lies in the range of its Go type, and the two slices have a length
that `make` can allocate. -/
def Record.Typed (r : Record) : Prop :=
  r.Crc < 2 ^ 32 ∧ IsInt64 r.Timestamp ∧ r.Status < 256 ∧ r.TypeInfo < 256 ∧
  r.KeySize < 2 ^ 64 ∧ r.ValueSize < 2 ^ 64 ∧ IsBytes r.Key ∧ IsBytes r.Value ∧
  r.Key.length ≤ maxAlloc ∧ r.Value.length ≤ maxAlloc

instance (r : Record) : Decidable r.Typed := by
  unfold Record.Typed; infer_instance

/-- The record invariant of the specification: the checksum covers key and value, and the two
size fields are the lengths of key and value. -/
def Record.Valid (r : Record) : Prop :=
  r.Crc = ChecksumIEEE (r.Key ++ r.Value) ∧ r.KeySize = r.Key.length ∧
  r.ValueSize = r.Value.length

instance (r : Record) : Decidable r.Valid := by
  unfold Record.Valid; infer_instance

/-- The fixed-width part of the encoding: the six header fields, 30 bytes. -/
def Record.header (r : Record) : List Nat :=
  putUint32 r.Crc ++ putUint64 (int64ToUint64 r.Timestamp) ++ [r.Status % 256] ++
  [r.TypeInfo % 256] ++ putUint64 r.KeySize ++ putUint64 r.ValueSize

/-- The bytes `serialize` writes for the record: what it appends to an empty output. -/
def Record.encode (r : Record) : List Nat := r.serialize []

/-- The memory after `line := []byte("Key01=Val01")`: the one array of `line`. -/
def lineMemory : List (List Nat) := [stringBytes "Key01=Val01"]

/-- The slice `line` in `lineMemory`: the whole array, eleven bytes. -/
def line : Slice := ⟨0, 0, 11, 11⟩

/-- The memory after `buf := []byte{1, 2, 3, 4}`: the one array of `buf`. -/
def bufMemory : List (List Nat) := [[1, 2, 3, 4]]

/-- The slice `buf` in `bufMemory`: the whole array, four bytes. -/
def buf : Slice := ⟨0, 0, 4, 4⟩

/-- The records the four constructors return on byte strings that are held apart and that a Go
slice can hold, with `TypeInfo` or `Status` possibly assigned afterwards. -/
inductive Built : Record → Prop
  | new (key val : List Nat) (now : Int) (hk : IsBytes key) (hv : IsBytes val)
      (hkl : key.length ≤ maxAlloc) (hvl : val.length ≤ maxAlloc) (hn : IsInt64 now) :
      Built (New key val now)
  | newTyped (key val : List Nat) (typeinfo : Nat) (now : Int) (hk : IsBytes key)
      (hv : IsBytes val) (hkl : key.length ≤ maxAlloc) (hvl : val.length ≤ maxAlloc)
      (ht : typeinfo < 256) (hn : IsInt64 now) : Built (NewTyped key val typeinfo now)
  | newFromString (key val : String) (now : Int) (hkl : (stringBytes key).length ≤ maxAlloc)
      (hvl : (stringBytes val).length ≤ maxAlloc) (hn : IsInt64 now) :
      Built (NewFromString key val now)
  | newEmpty (now : Int) (hn : IsInt64 now) : Built (NewEmpty now)
  | setTypeInfo (r : Record) (typeinfo : Nat) (hr : Built r) (ht : typeinfo < 256) :
      Built { r with TypeInfo := typeinfo }
  | setStatus (r : Record) (status : Nat) (hr : Built r) (hs : status < 256) :
      Built { r with Status := status }

/-- The stream with bit `bit` of the byte at offset `i` inverted (`s[i] ^= 1 << bit`). -/
def flipBit : List Nat → Nat → Nat → List Nat
  | [], _, _ => []
  | b :: s, 0, bit => (b ^^^ (1 <<< bit)) :: s
  | b :: s, i + 1, bit => b :: flipBit s i bit

/-- The `n` little-endian bytes of `x` as the layout table of the specification describes them:
byte `i` is digit `i` of `x` in base 256. -/
def leBytes (n x : Nat) : List Nat := (List.range n).map (fun i => x / 256 ^ i % 256)

/-- The unsigned 64-bit number with the bit pattern of the signed `v` (two's complement). -/
def twosComplement64 (v : Int) : Nat := if 0 ≤ v then v.toNat else (v + 2 ^ 64).toNat

/-- The durable byte layout of section 6 of the specification: the fields in fixed order, with
fixed-width little-endian integers, no separator and no delimiter. -/
def Record.wireLayout (r : Record) : List Nat :=
  leBytes 4 r.Crc ++ leBytes 8 (twosComplement64 r.Timestamp) ++ [r.Status] ++ [r.TypeInfo] ++
  leBytes 8 r.KeySize ++ leBytes 8 r.ValueSize ++ r.Key ++ r.Value

/-- The values of `err` after each of the eight `binary.Read` calls of `Deserialize`, in order
(the calls as in `Record.Deserialize`, when both `make` calls are within range). -/
def Record.readErrors (this : Record) (reader : List Nat) : List (Option IOError) :=
  match readUint32 reader this.Crc with
  | (e1, _, reader) =>
  match readInt64 reader this.Timestamp with
  | (e2, _, reader) =>
  match readUint8 reader this.Status with
  | (e3, _, reader) =>
  match readUint8 reader this.TypeInfo with
  | (e4, _, reader) =>
  match readUint64 reader this.KeySize with
  | (e5, keySize, reader) =>
  match readUint64 reader this.ValueSize with
  | (e6, valueSize, reader) =>
  match readBytes reader (List.replicate keySize 0) with
  | (e7, _, reader) =>
  match readBytes reader (List.replicate valueSize 0) with
  | (e8, _, _) => [e1, e2, e3, e4, e5, e6, e7, e8]

/-- The encoding with the bytes 4..13 (timestamp, status, type tag) overwritten by the encodings
of other values. -/
def overwriteMetadata (enc : List Nat) (ts : Int) (st ty : Nat) : List Nat :=
  enc.take 4 ++ leBytes 8 (twosComplement64 ts) ++ [st] ++ [ty] ++ enc.drop 14

/-- The encoding with the bytes 14..29 (the two size fields) overwritten by the encodings of
other sizes. -/
def rewriteSizes (enc : List Nat) (keySize valueSize : Nat) : List Nat :=
  enc.take 14 ++ leBytes 8 keySize ++ leBytes 8 valueSize ++ enc.drop 30

/-! ## Skip list -/

/-- Modelled from the spec: the byte-wise lexicographic comparison of two keys used by
`core/skiplist` (not among the sources), the empty key sorting first; `bytesLess a b` is
`a < b`. -/
def bytesLess : List Nat → List Nat → Bool
  | [], [] => false
  | [], _ :: _ => true
  | _ :: _, [] => false
  | x :: a, y :: b => if x < y then true else if y < x then false else bytesLess a b

/-- Modelled from the spec: a node of `core/skiplist` (not among the sources): one record and
one forward reference per level the node participates in. A reference is absent (`none`) or
the index of a node in the store of the list. -/
structure SkiplistNode where
  Data : Record
  Next : List (Option Nat)
  deriving DecidableEq, Repr

/-- Modelled from the spec: the skip list of `core/skiplist` (not among the sources): the
maximum level count fixed at construction, the current effective level, the forward
references of the header (one per configured level), and the store of nodes, addressed by
stable indices as section 9 of the specification proposes. -/
structure Skiplist where
  LevelMax : Nat
  Level : Nat
  Header : List (Option Nat)
  Nodes : List SkiplistNode
  deriving DecidableEq, Repr

/-- Modelled from the spec: a place a descent can stand on, the header or a node
(`core/skiplist` is not among the sources). -/
inductive Place
  | header
  | node (i : Nat)
  deriving DecidableEq, Repr

namespace Skiplist

/-- Modelled from the spec: `New(maxLevel)` of `core/skiplist` (not among the sources): a
header with `maxLevel` forward references, all absent, and the effective level zero. -/
def New (maxLevel : Nat) : Skiplist :=
  { LevelMax := maxLevel, Level := 0, Header := List.replicate maxLevel none, Nodes := [] }

/-- Modelled from the spec: the forward reference of a place at a level (`core/skiplist` is
not among the sources); a level the place does not have gives an absent reference. -/
def next (sl : Skiplist) (p : Place) (lvl : Nat) : Option Nat :=
  match p with
  | .header => (sl.Header[lvl]?).join
  | .node i =>
    match sl.Nodes[i]? with
    | some n => (n.Next[lvl]?).join
    | none => none

/-- Modelled from the spec: assignment to the forward reference of a place at a level
(`core/skiplist` is not among the sources). -/
def setNext (sl : Skiplist) (p : Place) (lvl : Nat) (ref : Option Nat) : Skiplist :=
  match p with
  | .header => { sl with Header := sl.Header.set lvl ref }
  | .node i =>
    match sl.Nodes[i]? with
    | some n => { sl with Nodes := sl.Nodes.set i { n with Next := n.Next.set lvl ref } }
    | none => sl

/-- Modelled from the spec: one level of the shared descent routine of `core/skiplist` (not
among the sources): "repeatedly advance the forward reference at the current level while the
next node's key is strictly less than the target key". Each evaluation of the loop condition
uses one unit of fuel; `none` means the fuel ran out. -/
def advance (sl : Skiplist) (key : List Nat) (lvl : Nat) : Nat → Place → Option Place
  | 0, _ => none
  | fuel + 1, cur =>
    match sl.next cur lvl with
    | none => some cur
    | some j =>
      match sl.Nodes[j]? with
      | none => some cur
      | some n =>
        if bytesLess n.Data.Key key then advance sl key lvl fuel (.node j) else some cur

/-- Modelled from the spec: the shared descent routine of `core/skiplist` (not among the
sources) over the levels `n - 1, ..., 0`, starting at `cur`: at each level advance, "record
the current node as the predecessor at this level and drop to the next lower level". The
result lists the predecessors, that of level 0 first. -/
def descendFrom (sl : Skiplist) (key : List Nat) : Nat → Place → List Place → Option (List Place)
  | 0, _, update => some update
  | lvl + 1, cur, update =>
    match advance sl key lvl (sl.Nodes.length + 1) cur with
    | none => none
    | some p => descendFrom sl key lvl p (p :: update)

/-- Modelled from the spec: the descent "starting at the Header and the current highest
populated level" (`core/skiplist` is not among the sources): the levels `Level, ..., 0`. -/
def descend (sl : Skiplist) (key : List Nat) : Option (List Place) :=
  descendFrom sl key (sl.Level + 1) .header []

/-- Modelled from the spec: the predecessor recorded for a level; "any levels above the old
effective level default to Header-only references" (`core/skiplist` is not among the
sources). -/
def predAt (update : List Place) (lvl : Nat) : Place := update.getD lvl .header

/-- Modelled from the spec: the level-0 successor of the level-0 predecessor, when it bears
exactly the key (`core/skiplist` is not among the sources). -/
def successorWithKey (sl : Skiplist) (update : List Place) (key : List Nat) :
    Option (Nat × SkiplistNode) :=
  match sl.next (predAt update 0) 0 with
  | none => none
  | some j =>
    match sl.Nodes[j]? with
    | none => none
    | some n => if n.Data.Key = key then some (j, n) else none

/-- Modelled from the spec: the level of a new node of `core/skiplist` (not among the
sources), "independent geometric randomization (success probability 1/2 per additional level
beyond 0), capped at maxLevel"; `coins` are the outcomes of the successive draws. -/
def randomLevel (maxLevel : Nat) (coins : List Bool) : Nat :=
  min maxLevel (1 + (coins.takeWhile id).length)

/-- Modelled from the spec: the splice of the new node `j` at one level, "using the
predecessors recorded during descent" (`core/skiplist` is not among the sources): the new node
takes over the forward reference of the predecessor, which then refers to the new node. -/
def spliceLevel (update : List Place) (j : Nat) (sl : Skiplist) (lvl : Nat) : Skiplist :=
  let p := predAt update lvl
  (sl.setNext (.node j) lvl (sl.next p lvl)).setNext p lvl (some j)

/-- Modelled from the spec: the replacement of the record of node `j`, whose content is `n`,
"in place" (`core/skiplist` is not among the sources): the forward references stay. -/
def setData (sl : Skiplist) (j : Nat) (n : SkiplistNode) (rec : Record) : Skiplist :=
  { sl with Nodes := sl.Nodes.set j { n with Data := rec } }

/-- Modelled from the spec: the allocation of "a node with `L` forward references holding
`record`" at the next index of the store, "raising the list's current effective level if `L`
exceeds it" (`core/skiplist` is not among the sources). -/
def withNode (sl : Skiplist) (rec : Record) (L : Nat) : Skiplist :=
  { sl with
    Nodes := sl.Nodes ++ [{ Data := rec, Next := List.replicate L none }]
    Level := if sl.Level < L then L else sl.Level }

/-- Modelled from the spec: `Write(record)` of `core/skiplist` (not among the sources): run the
descent; replace the record of the level-0 successor when it has the key; otherwise draw the
level `L`, allocate the node and splice it into the levels `0..L-1`. `none` means the descent
ran out of fuel. -/
def Write (sl : Skiplist) (rec : Record) (coins : List Bool) : Option Skiplist :=
  match sl.descend rec.Key with
  | none => none
  | some update =>
    match successorWithKey sl update rec.Key with
    | some (j, n) => some (sl.setData j n rec)
    | none =>
      let L := randomLevel sl.LevelMax coins
      let j := sl.Nodes.length
      some ((List.range L).foldl (spliceLevel update j) (sl.withNode rec L))

/-- Modelled from the spec: `Find(key, exactOnly)` of `core/skiplist` (not among the sources):
run the descent and return the level-0 node bearing exactly the key, or not-found. The inner
`none` is the not-found result, the outer `none` means the descent ran out of fuel. Only the
exact mode is specified; the flag is not looked at. -/
def Find (sl : Skiplist) (key : List Nat) (_exactOnly : Bool) : Option (Option SkiplistNode) :=
  match sl.descend key with
  | none => none
  | some update => some ((successorWithKey sl update key).map Prod.snd)

/-- Modelled from the spec: the record with the tombstone bit set (`core/skiplist` is not among
the sources). -/
def tombstoned (r : Record) : Record :=
  { r with Status := r.Status ||| RECORD_TOMBSTONE_REMOVED }

/-- Modelled from the spec: `Remove(key)` of `core/skiplist` (not among the sources): run the
descent; set the tombstone bit of the record of the level-0 node with exactly the key, if there
is one; otherwise do nothing. `none` means the descent ran out of fuel. -/
def Remove (sl : Skiplist) (key : List Nat) : Option Skiplist :=
  match sl.descend key with
  | none => none
  | some update =>
    match successorWithKey sl update key with
    | some (j, n) => some (sl.setData j n (tombstoned n.Data))
    | none => some sl

/-- Modelled from the spec: `Clear()` of `core/skiplist` (not among the sources): "reset every
Header forward reference to absent and reset the current effective level to zero, dropping all
node ownership". -/
def Clear (sl : Skiplist) : Skiplist :=
  { sl with Header := List.replicate sl.Header.length none, Level := 0, Nodes := [] }

/-- The ordered traversal of `main`: `n := Header.Next[0]; for n != nil { ...; n = n.Next[0] }`,
collecting the nodes visited. Each node visited uses one unit of fuel; `none` means the fuel
ran out. -/
def traverseFrom (sl : Skiplist) : Nat → Option Nat → Option (List SkiplistNode)
  | _, none => some []
  | 0, some _ => none
  | fuel + 1, some j =>
    match sl.Nodes[j]? with
    | none => some []
    | some n => (traverseFrom sl fuel (n.Next[0]?).join).map (n :: ·)

/-- The ordered traversal from the header, with fuel for every node of the store. -/
def traverse (sl : Skiplist) : Option (List SkiplistNode) :=
  traverseFrom sl sl.Nodes.length (sl.next .header 0)

end Skiplist

/-- A call on the skip list: `Write` with the outcomes of its random draws, `Remove`, `Clear`. -/
inductive Op
  | write (rec : Record) (coins : List Bool)
  | remove (key : List Nat)
  | clear
  deriving DecidableEq, Repr

/-- The effect of one call on the list. -/
def Skiplist.step (sl : Skiplist) : Op → Option Skiplist
  | .write rec coins => sl.Write rec coins
  | .remove key => sl.Remove key
  | .clear => some sl.Clear

/-- The effect of a sequence of calls, first call first. -/
def Skiplist.run (sl : Skiplist) : List Op → Option Skiplist
  | [] => some sl
  | op :: ops =>
    match sl.step op with
    | none => none
    | some sl' => sl'.run ops

/-! ## The abstract view of a skip list -/

namespace Skiplist

/-- The number of levels node `j` participates in (zero when there is no such node). -/
def height (sl : Skiplist) (j : Nat) : Nat :=
  match sl.Nodes[j]? with
  | some n => n.Next.length
  | none => 0

/-- The key of node `j`. -/
def keyAt (sl : Skiplist) (j : Nat) : List Nat :=
  match sl.Nodes[j]? with
  | some n => n.Data.Key
  | none => []

/-- The number of forward references of a place. -/
def placeHeight (sl : Skiplist) : Place → Nat
  | .header => sl.Header.length
  | .node j => sl.height j

/-- The forward references at level `lvl`, followed from `cur`, visit exactly the nodes of
`post` that have this level, in the order of `post`, and end with the reference `e`. -/
def Chain (sl : Skiplist) (lvl : Nat) : Place → List Nat → Option Nat → Prop
  | cur, [], e => sl.next cur lvl = e
  | cur, j :: post, e =>
    if lvl < sl.height j then sl.next cur lvl = some j ∧ Chain sl lvl (.node j) post e
    else Chain sl lvl cur post e

/-- The last place among `cur` and the nodes of `l` that has level `lvl`. -/
def lastAbove (sl : Skiplist) (lvl : Nat) : Place → List Nat → Place
  | cur, [] => cur
  | cur, j :: l => lastAbove sl lvl (if lvl < sl.height j then .node j else cur) l

/-- The nodes with the indices of `order`. -/
def nodesOf (sl : Skiplist) (order : List Nat) : List SkiplistNode :=
  order.filterMap (fun j => sl.Nodes[j]?)

/-- The records of the nodes with the indices of `order`. -/
def recordsOf (sl : Skiplist) (order : List Nat) : List Record :=
  (sl.nodesOf order).map (fun n => n.Data)

/-- A list constructed with no level at all: the header has no forward reference. -/
def Flat (sl : Skiplist) : Prop := sl.Header = [] ∧ sl.LevelMax = 0

/-- The representation invariant: `order` lists the indices of the nodes of the store in the
order of the level-0 references; keys increase strictly along it; every node has between one
and `LevelMax` levels, not more than the effective level; at every level the references from
the header visit the nodes of that level in this order; and `LevelMax` is at least one. -/
structure Repr (sl : Skiplist) (order : List Nat) : Prop where
  header_length : sl.Header.length = sl.LevelMax
  bound : ∀ j ∈ order, j < sl.Nodes.length
  length_le : order.length ≤ sl.Nodes.length
  sorted : order.Pairwise (fun a b => bytesLess (sl.keyAt a) (sl.keyAt b) = true)
  height_pos : ∀ j ∈ order, 1 ≤ sl.height j
  height_le : ∀ j ∈ order, sl.height j ≤ sl.LevelMax ∧ sl.height j ≤ sl.Level
  levelMax_pos : 1 ≤ sl.LevelMax
  chain : ∀ lvl, Chain sl lvl .header order none

/-- The data of a descent: the list satisfies the invariant, and its order splits at the key. -/
structure Split (sl : Skiplist) (key : List Nat) (lo hi : List Nat) : Prop where
  repr : Repr sl (lo ++ hi)
  below : ∀ x ∈ lo, bytesLess (sl.keyAt x) key = true
  above : ∀ x ∈ hi, bytesLess (sl.keyAt x) key = false

end Skiplist

/-- The records of a sorted list after a write: the record replaces the one with its key, or is
inserted at its place in the order of the keys. -/
def writeRecord (rec : Record) : List Record → List Record
  | [] => [rec]
  | r :: l =>
    if bytesLess r.Key rec.Key then r :: writeRecord rec l
    else if r.Key = rec.Key then rec :: l
    else rec :: r :: l

/-- The records of a list after a removal: the record with the key gets the tombstone bit. -/
def removeRecord (key : List Nat) (l : List Record) : List Record :=
  l.map (fun r => if r.Key = key then Skiplist.tombstoned r else r)

/-- The records a sequence of calls leaves, in the order of their keys, from the records
`l`. -/
def recordsAfter : List Record → List Op → List Record
  | l, [] => l
  | l, .write rec _ :: ops => recordsAfter (writeRecord rec l) ops
  | l, .remove key :: ops => recordsAfter (removeRecord key l) ops
  | _, .clear :: ops => recordsAfter [] ops

/-- What the history of calls says about a key: the record of the most recent `Write` with
this key since the last `Clear`, with the tombstone bit set when a `Remove` of the key came
after it; `none` when there was no such `Write`. The list holds the calls, last call first. -/
def lastWritten (key : List Nat) : List Op → Option Record
  | [] => none
  | .write rec _ :: past => if rec.Key = key then some rec else lastWritten key past
  | .remove k :: past =>
    if k = key then (lastWritten key past).map Skiplist.tombstoned else lastWritten key past
  | .clear :: _ => none

/-- The calls of the sequence are `Write` and `Remove` only. -/
def noClear (ops : List Op) : Prop := ∀ op ∈ ops, op ≠ Op.clear

instance (ops : List Op) : Decidable (noClear ops) := by
  unfold noClear; infer_instance

/-- The calls of `main` on its list of three levels, up to the removal of `Key07`: four writes
in unsorted order, the write of the record found for `Key04` with a new type tag, and two
removals of keys that were never written. The random draws are fixed. -/
def mainCalls : List Op :=
  [Op.write { NewFromString "Key01" "Val01" 7 with TypeInfo := 1 } [true, true],
   Op.write (NewFromString "Key03" "Val02" 7) [],
   Op.write (NewFromString "Key04" "Val04" 7) [true],
   Op.write { NewFromString "Key02" "Val05" 7 with TypeInfo := 2 } [true, false],
   Op.write { NewFromString "Key04" "Val04" 7 with TypeInfo := 3 } [],
   Op.remove (stringBytes "Key05"),
   Op.remove (stringBytes "Key07")]

/-- The keys the `Write` calls of the sequence were given. -/
def writtenKeys : List Op → List (List Nat)
  | [] => []
  | .write rec _ :: ops => rec.Key :: writtenKeys ops
  | _ :: ops => writtenKeys ops

/-! ## Lemmas on the little-endian encoding -/

theorem lor_shiftLeft_eq_add (a b k : Nat) (h : a < 2 ^ k) : a ||| (b <<< k) = a + b * 2 ^ k := by
  rw [Nat.shiftLeft_eq, Nat.mul_comm b, Nat.lor_comm, ← Nat.mul_add_lt_is_or h, Nat.add_comm]

theorem getUint32_eq (b0 b1 b2 b3 : Nat) (h0 : b0 < 256) (h1 : b1 < 256) (h2 : b2 < 256) :
    getUint32 [b0, b1, b2, b3] = b0 + b1 * 2 ^ 8 + b2 * 2 ^ 16 + b3 * 2 ^ 24 := by
  show b0 ||| (b1 <<< 8) ||| (b2 <<< 16) ||| (b3 <<< 24) = _
  rw [lor_shiftLeft_eq_add b0 b1 8 (by omega), lor_shiftLeft_eq_add _ b2 16 (by omega),
    lor_shiftLeft_eq_add _ b3 24 (by omega)]

theorem getUint64_eq (b0 b1 b2 b3 b4 b5 b6 b7 : Nat) (h0 : b0 < 256) (h1 : b1 < 256)
    (h2 : b2 < 256) (h3 : b3 < 256) (h4 : b4 < 256) (h5 : b5 < 256) (h6 : b6 < 256) :
    getUint64 [b0, b1, b2, b3, b4, b5, b6, b7] =
      b0 + b1 * 2 ^ 8 + b2 * 2 ^ 16 + b3 * 2 ^ 24 + b4 * 2 ^ 32 + b5 * 2 ^ 40 + b6 * 2 ^ 48 +
        b7 * 2 ^ 56 := by
  show b0 ||| (b1 <<< 8) ||| (b2 <<< 16) ||| (b3 <<< 24) ||| (b4 <<< 32) ||| (b5 <<< 40) |||
    (b6 <<< 48) ||| (b7 <<< 56) = _
  rw [lor_shiftLeft_eq_add b0 b1 8 (by omega), lor_shiftLeft_eq_add _ b2 16 (by omega),
    lor_shiftLeft_eq_add _ b3 24 (by omega), lor_shiftLeft_eq_add _ b4 32 (by omega),
    lor_shiftLeft_eq_add _ b5 40 (by omega), lor_shiftLeft_eq_add _ b6 48 (by omega),
    lor_shiftLeft_eq_add _ b7 56 (by omega)]

theorem getUint32_putUint32 (v : Nat) (h : v < 2 ^ 32) : getUint32 (putUint32 v) = v := by
  unfold putUint32
  rw [getUint32_eq _ _ _ _ (Nat.mod_lt _ (by norm_num)) (Nat.mod_lt _ (by norm_num))
    (Nat.mod_lt _ (by norm_num))]
  simp only [Nat.shiftRight_eq_div_pow]
  omega

theorem getUint64_putUint64 (v : Nat) (h : v < 2 ^ 64) : getUint64 (putUint64 v) = v := by
  unfold putUint64
  rw [getUint64_eq _ _ _ _ _ _ _ _ (Nat.mod_lt _ (by norm_num)) (Nat.mod_lt _ (by norm_num))
    (Nat.mod_lt _ (by norm_num)) (Nat.mod_lt _ (by norm_num)) (Nat.mod_lt _ (by norm_num))
    (Nat.mod_lt _ (by norm_num)) (Nat.mod_lt _ (by norm_num))]
  simp only [Nat.shiftRight_eq_div_pow]
  omega

theorem int64ToUint64_lt (v : Int) : int64ToUint64 v < 2 ^ 64 := by
  unfold int64ToUint64
  omega

theorem uint64ToInt64_int64ToUint64 (v : Int) (h : IsInt64 v) :
    uint64ToInt64 (int64ToUint64 v) = v := by
  unfold IsInt64 at h
  unfold uint64ToInt64 int64ToUint64
  split <;> omega

theorem putUint32_length (v : Nat) : (putUint32 v).length = 4 := rfl

theorem putUint64_length (v : Nat) : (putUint64 v).length = 8 := rfl

theorem Record.header_length (r : Record) : r.header.length = 30 := by
  simp [Record.header, putUint32_length, putUint64_length]

/-! ## Reading back what was written -/

theorem readFull_append (bs rest : List Nat) :
    readFull (bs ++ rest) bs.length = (.ok bs, rest) := by
  unfold readFull
  by_cases h : bs.length = 0
  · have : bs = [] := List.length_eq_zero.mp h
    subst this
    simp
  · simp [h]

theorem readUint32_put (v : Nat) (h : v < 2 ^ 32) (rest : List Nat) (data : Nat) :
    readUint32 (putUint32 v ++ rest) data = (none, v, rest) := by
  have := readFull_append (putUint32 v) rest
  rw [putUint32_length] at this
  simp [readUint32, this, getUint32_putUint32 v h]

theorem readUint64_put (v : Nat) (h : v < 2 ^ 64) (rest : List Nat) (data : Nat) :
    readUint64 (putUint64 v ++ rest) data = (none, v, rest) := by
  have := readFull_append (putUint64 v) rest
  rw [putUint64_length] at this
  simp [readUint64, this, getUint64_putUint64 v h]

theorem readInt64_put (v : Int) (h : IsInt64 v) (rest : List Nat) (data : Int) :
    readInt64 (putUint64 (int64ToUint64 v) ++ rest) data = (none, v, rest) := by
  have := readFull_append (putUint64 (int64ToUint64 v)) rest
  rw [putUint64_length] at this
  simp [readInt64, this, getUint64_putUint64 _ (int64ToUint64_lt v),
    uint64ToInt64_int64ToUint64 v h]

theorem readUint8_put (v : Nat) (h : v < 256) (rest : List Nat) (data : Nat) :
    readUint8 ([v % 256] ++ rest) data = (none, v, rest) := by
  have := readFull_append [v % 256] rest
  simp only [List.length_singleton] at this
  simp only [readUint8, this]
  simp [Nat.mod_eq_of_lt h]

theorem readBytes_append (bs rest data : List Nat) (h : data.length = bs.length) :
    readBytes (bs ++ rest) data = (none, bs, rest) := by
  simp [readBytes, h, readFull_append]

theorem Record.serialize_eq (r : Record) (w : List Nat) :
    r.serialize w = w ++ (r.header ++ r.Key ++ r.Value) := by
  simp [Record.serialize, Record.header, writeUint32, writeInt64, writeUint8, writeUint64,
    writeBytes, List.append_assoc]

theorem Record.encode_eq (r : Record) : r.encode = r.header ++ r.Key ++ r.Value := by
  simp [Record.encode, Record.serialize_eq]

theorem Record.encode_length (r : Record) :
    r.encode.length = 30 + r.Key.length + r.Value.length := by
  simp [Record.encode_eq, Record.header_length]
  omega

theorem maxAlloc_lt : maxAlloc < 2 ^ 64 := by unfold maxAlloc; norm_num

seal readUint32 readInt64 readUint8 readUint64 readBytes in
/-- The outcome of `Deserialize` from the results of its eight reads, when both `make` calls
are within range: only the error of the last read is looked at. -/
theorem Deserialize_of_reads {this : Record} {reader r1 r2 r3 r4 r5 r6 r7 r8 : List Nat}
    {e1 e2 e3 e4 e5 e6 e7 e8 : Option IOError} {c st ty ks vs : Nat} {ts : Int}
    {k v : List Nat}
    (h1 : readUint32 reader this.Crc = (e1, c, r1))
    (h2 : readInt64 r1 this.Timestamp = (e2, ts, r2))
    (h3 : readUint8 r2 this.Status = (e3, st, r3))
    (h4 : readUint8 r3 this.TypeInfo = (e4, ty, r4))
    (h5 : readUint64 r4 this.KeySize = (e5, ks, r5))
    (h6 : readUint64 r5 this.ValueSize = (e6, vs, r6))
    (hks : ks ≤ maxAlloc) (hvs : vs ≤ maxAlloc)
    (h7 : readBytes r6 (List.replicate ks 0) = (e7, k, r7))
    (h8 : readBytes r7 (List.replicate vs 0) = (e8, v, r8)) :
    this.Deserialize reader =
      match e8 with
      | some err => .panicRead err
      | none =>
        if ChecksumIEEE (k ++ v) ≠ c then .panicChecksum
        else .returned
          { Crc := c, Timestamp := ts, Status := st, TypeInfo := ty, KeySize := ks,
            ValueSize := vs, Key := k, Value := v } r8 := by
  have hnot : ¬ (maxAlloc < ks ∨ maxAlloc < vs) := by
    rw [not_or]; exact ⟨Nat.not_lt.mpr hks, Nat.not_lt.mpr hvs⟩
  unfold Record.Deserialize
  simp only [h1, h2, h3, h4, h5, h6, hnot, if_false, h7, h8]
  cases e8 <;> rfl

/-- Decoding a stream that starts with the header of `h` followed by `h.KeySize` key bytes and
`h.ValueSize` value bytes: all eight reads succeed and the outcome is decided by the checksum. -/
theorem Deserialize_frame (h target : Record) (key value rest : List Nat)
    (hcrc : h.Crc < 2 ^ 32) (hts : IsInt64 h.Timestamp) (hst : h.Status < 256)
    (hty : h.TypeInfo < 256) (hks : h.KeySize ≤ maxAlloc) (hvs : h.ValueSize ≤ maxAlloc)
    (hk : key.length = h.KeySize) (hv : value.length = h.ValueSize) :
    target.Deserialize (h.header ++ key ++ value ++ rest) =
      if ChecksumIEEE (key ++ value) ≠ h.Crc then .panicChecksum
      else .returned { h with Key := key, Value := value } rest := by
  have hks64 : h.KeySize < 2 ^ 64 := Nat.lt_of_le_of_lt hks maxAlloc_lt
  have hvs64 : h.ValueSize < 2 ^ 64 := Nat.lt_of_le_of_lt hvs maxAlloc_lt
  have hs : h.header ++ key ++ value ++ rest =
      putUint32 h.Crc ++ (putUint64 (int64ToUint64 h.Timestamp) ++ ([h.Status % 256] ++
        ([h.TypeInfo % 256] ++ (putUint64 h.KeySize ++ (putUint64 h.ValueSize ++
          (key ++ (value ++ rest))))))) := by
    simp only [Record.header, List.append_assoc]
  rw [hs]
  exact Deserialize_of_reads (readUint32_put _ hcrc _ _) (readInt64_put _ hts _ _)
    (readUint8_put _ hst _ _) (readUint8_put _ hty _ _) (readUint64_put _ hks64 _ _)
    (readUint64_put _ hvs64 _ _) hks hvs
    (readBytes_append key _ _ (by simp [hk])) (readBytes_append value _ _ (by simp [hv]))

/-- Decoding the encoding of a valid record gives the record back and leaves untouched what
follows the encoding in the stream. -/
theorem Deserialize_encode (r target : Record) (rest : List Nat) (ht : r.Typed)
    (hv : r.Valid) : target.Deserialize (r.encode ++ rest) = .returned r rest := by
  obtain ⟨h1, h2, h3, h4, -, -, -, -, h9, h10⟩ := ht
  obtain ⟨v1, v2, v3⟩ := hv
  rw [Record.encode_eq, Deserialize_frame r target r.Key r.Value rest h1 h2 h3 h4
    (by omega) (by omega) v2.symm v3.symm]
  simp [← v1]

/-! ## Lemmas on the checksum -/

theorem shiftRight_xor (a b k : Nat) : (a ^^^ b) >>> k = (a >>> k) ^^^ (b >>> k) := by
  apply Nat.eq_of_testBit_eq
  intro i
  simp [Nat.testBit_shiftRight, Nat.testBit_xor]

theorem xor_xor_cancel (x y p : Nat) : (x ^^^ p) ^^^ (y ^^^ p) = x ^^^ y := by
  apply Nat.eq_of_testBit_eq
  intro i
  simp only [Nat.testBit_xor]
  cases x.testBit i <;> cases y.testBit i <;> cases p.testBit i <;> rfl

theorem xor_right_swap (x y p : Nat) : x ^^^ (y ^^^ p) = (x ^^^ p) ^^^ y := by
  apply Nat.eq_of_testBit_eq
  intro i
  simp only [Nat.testBit_xor]
  cases x.testBit i <;> cases y.testBit i <;> cases p.testBit i <;> rfl

/-- The inner loop of the table construction is linear for bitwise exclusive or. -/
theorem tableStep_xor (poly a b : Nat) :
    tableStep poly (a ^^^ b) = tableStep poly a ^^^ tableStep poly b := by
  unfold tableStep
  simp only [Nat.and_one_is_mod, shiftRight_xor]
  have hab : (a ^^^ b) % 2 = (a + b) % 2 := Nat.xor_mod_two_eq
  rcases Nat.mod_two_eq_zero_or_one a with ha | ha <;>
    rcases Nat.mod_two_eq_zero_or_one b with hb | hb
  · have h : (a ^^^ b) % 2 = 0 := by omega
    simp [ha, hb, h]
  · have h : (a ^^^ b) % 2 = 1 := by omega
    simp [ha, hb, h, Nat.xor_assoc]
  · have h : (a ^^^ b) % 2 = 1 := by omega
    simp only [ha, hb, h, if_true]
    simp only [Nat.zero_ne_one, if_false]
    rw [Nat.xor_assoc]
    exact xor_right_swap _ _ _
  · have h : (a ^^^ b) % 2 = 0 := by omega
    simp only [ha, hb, h, if_true]
    simp only [Nat.zero_ne_one, if_false]
    exact (xor_xor_cancel _ _ _).symm

theorem simpleTable_xor (poly a b : Nat) :
    simpleTable poly (a ^^^ b) = simpleTable poly a ^^^ simpleTable poly b := by
  unfold simpleTable
  simp only [tableStep_xor]

set_option maxRecDepth 100000 in
theorem simpleTable_lt : ∀ x < 256, simpleTable IEEE x < 2 ^ 32 := by decide

set_option maxRecDepth 100000 in
theorem simpleTable_top : ∀ x < 256, simpleTable IEEE x >>> 24 = 0 → x = 0 := by decide

theorem xor_byte_lt {a b : Nat} (ha : a < 256) (hb : b < 256) : a ^^^ b < 256 :=
  Nat.xor_lt_two_pow (n := 8) ha hb

/-- The top byte of a table entry determines the index. -/
theorem simpleTable_top_inj {x y : Nat} (hx : x < 256) (hy : y < 256)
    (h : simpleTable IEEE x >>> 24 = simpleTable IEEE y >>> 24) : x = y := by
  have h1 : simpleTable IEEE (x ^^^ y) >>> 24 = 0 := by
    rw [simpleTable_xor, shiftRight_xor, h, Nat.xor_self]
  exact Nat.xor_eq_zero.mp (simpleTable_top _ (xor_byte_lt hx hy) h1)

theorem updateByte_lt {crc v : Nat} (hc : crc < 2 ^ 32) (hv : v < 256) :
    updateByte IEEE crc v < 2 ^ 32 := by
  unfold updateByte
  apply Nat.xor_lt_two_pow
  · exact simpleTable_lt _ (xor_byte_lt (Nat.mod_lt _ (by norm_num)) hv)
  · rw [Nat.shiftRight_eq_div_pow]; omega

/-- Two different checksum states stay different after the same byte. -/
theorem updateByte_inj_crc {c c' v : Nat} (hc : c < 2 ^ 32) (hc' : c' < 2 ^ 32) (hv : v < 256)
    (h : updateByte IEEE c v = updateByte IEEE c' v) : c = c' := by
  unfold updateByte at h
  have hx : (c % 256) ^^^ v < 256 := xor_byte_lt (Nat.mod_lt _ (by norm_num)) hv
  have hx' : (c' % 256) ^^^ v < 256 := xor_byte_lt (Nat.mod_lt _ (by norm_num)) hv
  have hz : c >>> 8 >>> 24 = 0 := by
    simp only [Nat.shiftRight_eq_div_pow]; omega
  have hz' : c' >>> 8 >>> 24 = 0 := by
    simp only [Nat.shiftRight_eq_div_pow]; omega
  have h24 := congrArg (· >>> 24) h
  simp only [shiftRight_xor, hz, hz', Nat.xor_zero] at h24
  have hlow : (c % 256) ^^^ v = (c' % 256) ^^^ v := simpleTable_top_inj hx hx' h24
  have hmod : c % 256 = c' % 256 := Nat.xor_left_injective hlow
  rw [hlow] at h
  have hhigh : c >>> 8 = c' >>> 8 := Nat.xor_right_injective h
  simp only [Nat.shiftRight_eq_div_pow] at hhigh
  omega

/-- The same checksum state gives different states after two different bytes. -/
theorem updateByte_inj_byte {c v v' : Nat} (hv : v < 256) (hv' : v' < 256)
    (h : updateByte IEEE c v = updateByte IEEE c v') : v = v' := by
  unfold updateByte at h
  have hx : (c % 256) ^^^ v < 256 := xor_byte_lt (Nat.mod_lt _ (by norm_num)) hv
  have hx' : (c % 256) ^^^ v' < 256 := xor_byte_lt (Nat.mod_lt _ (by norm_num)) hv'
  have ht : simpleTable IEEE ((c % 256) ^^^ v) = simpleTable IEEE ((c % 256) ^^^ v') :=
    Nat.xor_left_injective h
  have := simpleTable_top_inj hx hx' (by rw [ht])
  exact Nat.xor_right_injective this

theorem updateLoop_lt {p : List Nat} (hp : IsBytes p) :
    ∀ {crc : Nat}, crc < 2 ^ 32 → updateLoop IEEE crc p < 2 ^ 32 := by
  induction p with
  | nil => intro crc h; exact h
  | cons v p ih =>
    intro crc h
    exact ih (fun b hb => hp b (List.mem_cons_of_mem _ hb))
      (updateByte_lt h (hp v (List.mem_cons_self _ _)))

theorem updateLoop_append (poly crc : Nat) (p q : List Nat) :
    updateLoop poly crc (p ++ q) = updateLoop poly (updateLoop poly crc p) q := by
  induction p generalizing crc with
  | nil => rfl
  | cons v p ih => exact ih _

theorem updateLoop_inj {p : List Nat} (hp : IsBytes p) :
    ∀ {c c' : Nat}, c < 2 ^ 32 → c' < 2 ^ 32 →
      updateLoop IEEE c p = updateLoop IEEE c' p → c = c' := by
  induction p with
  | nil => intro c c' _ _ h; exact h
  | cons v p ih =>
    intro c c' hc hc' h
    have hv := hp v (List.mem_cons_self _ _)
    exact updateByte_inj_crc hc hc' hv
      (ih (fun b hb => hp b (List.mem_cons_of_mem _ hb)) (updateByte_lt hc hv)
        (updateByte_lt hc' hv) h)

theorem ChecksumIEEE_lt {p : List Nat} (hp : IsBytes p) : ChecksumIEEE p < 2 ^ 32 := by
  unfold ChecksumIEEE simpleUpdate
  exact Nat.xor_lt_two_pow (n := 32) (updateLoop_lt hp (by norm_num)) (by norm_num)

/-- Changing exactly one byte of the data changes the checksum. -/
theorem ChecksumIEEE_change_byte (pre post : List Nat) (b b' : Nat) (hpre : IsBytes pre)
    (hpost : IsBytes post) (hb : b < 256) (hb' : b' < 256) (hne : b ≠ b') :
    ChecksumIEEE (pre ++ b :: post) ≠ ChecksumIEEE (pre ++ b' :: post) := by
  intro h
  unfold ChecksumIEEE simpleUpdate at h
  have h1 := Nat.xor_left_injective h
  rw [updateLoop_append, updateLoop_append] at h1
  have hc : updateLoop IEEE (0 ^^^ 0xffffffff) pre < 2 ^ 32 := updateLoop_lt hpre (by norm_num)
  have h2 := updateLoop_inj hpost (updateByte_lt hc hb) (updateByte_lt hc hb') h1
  exact hne (updateByte_inj_byte hb hb' h2)

/-! ## Lemmas on single-bit corruption -/

theorem flipBit_length (s : List Nat) (i bit : Nat) : (flipBit s i bit).length = s.length := by
  induction s generalizing i with
  | nil => rfl
  | cons b s ih =>
    cases i with
    | zero => rfl
    | succ i => simp [flipBit, ih]

theorem flipBit_append_right (p q : List Nat) (i bit : Nat) (h : p.length ≤ i) :
    flipBit (p ++ q) i bit = p ++ flipBit q (i - p.length) bit := by
  induction p generalizing i with
  | nil => simp
  | cons b p ih =>
    cases i with
    | zero => simp at h
    | succ i =>
      simp only [List.length_cons, Nat.add_le_add_iff_right] at h
      simp [flipBit, ih i h]

theorem flipBit_split (p : List Nat) (i bit : Nat) (h : i < p.length) :
    ∃ pre b post, p = pre ++ b :: post ∧ flipBit p i bit = pre ++ (b ^^^ (1 <<< bit)) :: post := by
  induction p generalizing i with
  | nil => simp at h
  | cons b p ih =>
    cases i with
    | zero => exact ⟨[], b, p, rfl, rfl⟩
    | succ i =>
      simp only [List.length_cons, Nat.add_lt_add_iff_right] at h
      obtain ⟨pre, c, post, h1, h2⟩ := ih i h
      exact ⟨b :: pre, c, post, by simp [h1], by simp [flipBit, h2]⟩

theorem flip_byte_lt {b bit : Nat} (hb : b < 256) (hbit : bit < 8) : b ^^^ (1 <<< bit) < 256 := by
  apply Nat.xor_lt_two_pow (n := 8) hb
  rw [Nat.shiftLeft_eq, Nat.one_mul]
  exact Nat.pow_lt_pow_right (by norm_num) hbit

theorem flip_byte_ne (b bit : Nat) : b ≠ b ^^^ (1 <<< bit) := by
  intro h
  have h0 : b ^^^ 0 = b ^^^ (1 <<< bit) := by simpa using h
  have := Nat.xor_right_injective h0
  rw [Nat.shiftLeft_eq, Nat.one_mul] at this
  have hpos : 0 < 2 ^ bit := Nat.two_pow_pos bit
  omega

/-- Inverting one bit of the data changes the checksum. -/
theorem ChecksumIEEE_flipBit (p : List Nat) (i bit : Nat) (hp : IsBytes p) (hi : i < p.length)
    (hbit : bit < 8) : ChecksumIEEE (flipBit p i bit) ≠ ChecksumIEEE p := by
  obtain ⟨pre, b, post, h1, h2⟩ := flipBit_split p i bit hi
  rw [h2]
  have hb : b < 256 := hp b (by rw [h1]; simp)
  have hpre : IsBytes pre := fun x hx => hp x (by rw [h1]; simp [hx])
  have hpost : IsBytes post := fun x hx => hp x (by rw [h1]; simp [hx])
  have := ChecksumIEEE_change_byte pre post b _ hpre hpost hb (flip_byte_lt hb hbit)
    (flip_byte_ne b bit)
  rw [h1]
  exact fun h => this h.symm

theorem isBytes_append {p q : List Nat} (hp : IsBytes p) (hq : IsBytes q) : IsBytes (p ++ q) := by
  intro b hb
  rcases List.mem_append.mp hb with h | h
  · exact hp b h
  · exact hq b h

theorem Deserialize_flipBit (r target : Record) (i bit : Nat) (ht : r.Typed) (hv : r.Valid)
    (hi : 30 ≤ i) (hlen : i < r.encode.length) (hbit : bit < 8) :
    target.Deserialize (flipBit r.encode i bit) = .panicChecksum := by
  obtain ⟨h1, h2, h3, h4, -, -, h7, h8, h9, h10⟩ := ht
  obtain ⟨v1, v2, v3⟩ := hv
  rw [Record.encode_length] at hlen
  have henc : r.encode = r.header ++ (r.Key ++ r.Value) := by
    rw [Record.encode_eq, List.append_assoc]
  have hkv : i - 30 < (r.Key ++ r.Value).length := by
    rw [List.length_append]; omega
  rw [henc, flipBit_append_right _ _ _ _ (by rw [Record.header_length]; exact hi),
    Record.header_length]
  have hcrc := ChecksumIEEE_flipBit (r.Key ++ r.Value) (i - 30) bit (isBytes_append h7 h8) hkv hbit
  generalize hkv' : flipBit (r.Key ++ r.Value) (i - 30) bit = kv at hcrc
  have hlkv : kv.length = r.Key.length + r.Value.length := by
    rw [← hkv', flipBit_length, List.length_append]
  have hsplit : r.header ++ kv = r.header ++ kv.take r.Key.length ++ kv.drop r.Key.length ++ [] := by
    simp
  rw [hsplit, Deserialize_frame r target _ _ [] h1 h2 h3 h4 (by omega) (by omega)
    (by rw [List.length_take]; omega) (by rw [List.length_drop]; omega)]
  rw [List.take_append_drop, v1, if_pos hcrc]

/-! ## Lemmas on slices and `append` -/

theorem getD_set_same {m : List (List Nat)} {i : Nat} (h : i < m.length) (v : List Nat) :
    (m.set i v).getD i [] = v := by
  simp [List.getD_eq_getElem?_getD, h]

theorem getD_set_other {m : List (List Nat)} {i j : Nat} (h : i ≠ j) (v : List Nat) :
    (m.set i v).getD j [] = m.getD j [] := by
  simp [List.getD_eq_getElem?_getD, List.getElem?_set_ne h]

theorem getD_append_left {m : List (List Nat)} {j : Nat} (h : j < m.length)
    (t : List (List Nat)) : (m ++ t).getD j [] = m.getD j [] := by
  simp [List.getD_eq_getElem?_getD, List.getElem?_append_left h]

theorem getD_append_length (m : List (List Nat)) (v : List Nat) :
    (m ++ [v]).getD m.length [] = v := by
  simp [List.getD_eq_getElem?_getD]

theorem Slice.bytes_length {s : Slice} {m : List (List Nat)} (h : s.Within m) :
    (s.bytes m).length = s.len := by
  obtain ⟨_, h1, h2⟩ := h
  simp only [Slice.bytes, List.length_take, List.length_drop]
  omega

/-- The elements before the index of a store are those of the array. -/
theorem take_drop_store (a : List Nat) (off len : Nat) (xs : List Nat)
    (h : off + len ≤ a.length) :
    ((store a (off + len) xs).drop off).take len = (a.drop off).take len := by
  unfold store
  rw [List.append_assoc, List.drop_append_of_le_length (by simp; omega),
    List.take_append_of_le_length (by simp; omega)]
  rw [List.drop_take, List.take_take]
  simp

/-- The elements up to the end of a store are those of the array followed by the bytes stored. -/
theorem take_drop_store_all (a : List Nat) (off len : Nat) (xs : List Nat)
    (h : off + len ≤ a.length) :
    ((store a (off + len) xs).drop off).take (len + xs.length) = (a.drop off).take len ++ xs := by
  unfold store
  rw [List.append_assoc, List.drop_append_of_le_length (by simp; omega), ← List.append_assoc,
    List.take_append_of_le_length (by simp; omega)]
  rw [List.take_of_length_le (by simp; omega), List.drop_take]
  simp

/-- The slice that `append` extends keeps its bytes. -/
theorem append_bytes_self {m : List (List Nat)} {k : Slice} (h : k.Within m) (xs : List Nat) :
    k.bytes (append m k xs).2 = k.bytes m := by
  obtain ⟨h0, h1, h2⟩ := h
  unfold append
  split
  · simp only [Slice.bytes]
    rw [getD_set_same h0, take_drop_store _ _ _ _ (by omega)]
  · simp only [Slice.bytes]
    rw [getD_append_left h0]

/-- A slice keeps its bytes over an `append` to a slice of another array, and over an `append`
that the capacity does not hold. -/
theorem append_bytes_other {m : List (List Nat)} {k s : Slice} {xs : List Nat}
    (hfree : s.array ≠ k.array ∨ k.cap < k.len + xs.length) (hs : s.array < m.length) :
    s.bytes (append m k xs).2 = s.bytes m := by
  unfold append
  split
  · rename_i hfit
    rcases hfree with hne | hcap
    · simp only [Slice.bytes]
      rw [getD_set_other (Ne.symm hne)]
    · omega
  · simp only [Slice.bytes]
    rw [getD_append_left hs]

/-- The slice `append` returns holds the bytes of the first slice followed by those added. -/
theorem append_bytes_result {m : List (List Nat)} {k : Slice} (h : k.Within m) (xs : List Nat) :
    (append m k xs).1.bytes (append m k xs).2 = k.bytes m ++ xs := by
  have hlen := Slice.bytes_length h
  obtain ⟨h0, h1, h2⟩ := h
  unfold append
  split
  · simp only [Slice.bytes]
    rw [getD_set_same h0, take_drop_store_all _ _ _ _ (by omega)]
  · simp only [Slice.bytes, getD_append_length, List.drop_zero]
    rw [List.take_of_length_le]
    simp only [List.length_append]
    simp only [Slice.bytes] at hlen
    omega

/-- On two slices of the memory that lie in different arrays, or when the capacity of `key` does
not hold the bytes of `val`, the record `New` returns has the checksum of the bytes of `key`
followed by those of `val`, their lengths, and both slices with their bytes. -/
theorem InMemory.New_loaded_of_apart {m : List (List Nat)} {key val : Slice} (now : Int)
    (hk : key.Within m) (hv : val.Within m)
    (hfree : val.array ≠ key.array ∨ key.cap < key.len + val.len) :
    loaded (InMemory.New m key val now) =
      ⟨ChecksumIEEE (key.bytes m ++ val.bytes m), now, RECORD_STATUS_DEFAULT, 0,
        (key.bytes m).length, (val.bytes m).length, key.bytes m, val.bytes m⟩ := by
  have hfree2 : val.array ≠ key.array ∨ key.cap < key.len + (val.bytes m).length := by
    rw [Slice.bytes_length hv]; exact hfree
  simp only [loaded, InMemory.New, SliceRecord.load, append_bytes_result hk,
    append_bytes_self hk, append_bytes_other hfree2 hv.1, Slice.bytes_length hk,
    Slice.bytes_length hv]

/-- The record of `New` on two byte strings that are held apart, field by field. -/
theorem New_eq (key val : List Nat) (now : Int) :
    New key val now =
      ⟨ChecksumIEEE (key ++ val), now, RECORD_STATUS_DEFAULT, 0, key.length, val.length,
        key, val⟩ := by
  have hk : (⟨0, 0, key.length, key.length⟩ : Slice).Within [key, val] := by
    simp [Slice.Within]
  have hv : (⟨1, 0, val.length, val.length⟩ : Slice).Within [key, val] := by
    simp [Slice.Within]
  have h := InMemory.New_loaded_of_apart now hk hv (Or.inl (show (1 : Nat) ≠ 0 by decide))
  have e1 : (⟨0, 0, key.length, key.length⟩ : Slice).bytes [key, val] = key := by
    simp [Slice.bytes]
  have e2 : (⟨1, 0, val.length, val.length⟩ : Slice).bytes [key, val] = val := by
    simp [Slice.bytes]
  rw [e1, e2] at h
  exact h

/-- On two slices that lie in different arrays, or when the capacity of `key` does not hold the
bytes of `val`, `New` returns the record of `New` on their bytes held apart. -/
theorem InMemory.New_loaded_eq_New {m : List (List Nat)} {key val : Slice} (now : Int)
    (hk : key.Within m) (hv : val.Within m)
    (hfree : val.array ≠ key.array ∨ key.cap < key.len + val.len) :
    loaded (InMemory.New m key val now) = Nakevaleng.New (key.bytes m) (val.bytes m) now := by
  rw [New_eq, InMemory.New_loaded_of_apart now hk hv hfree]

/-- On a record whose two slices lie in different arrays, or when the capacity of `Key` does not
hold the bytes of `Value`, `CalcCRC` sets `Crc` to the checksum of the bytes of `Key` followed
by those of `Value` and changes nothing else. -/
theorem InMemory.CalcCRC_loaded_of_apart {m : List (List Nat)} {this : SliceRecord}
    (hk : this.Key.Within m) (hv : this.Value.Within m)
    (hfree : this.Value.array ≠ this.Key.array ∨ this.Key.cap < this.Key.len + this.Value.len) :
    loaded (InMemory.CalcCRC m this) =
      { this.load m with Crc := ChecksumIEEE ((this.load m).Key ++ (this.load m).Value) } := by
  have hfree2 : this.Value.array ≠ this.Key.array ∨
      this.Key.cap < this.Key.len + (this.Value.bytes m).length := by
    rw [Slice.bytes_length hv]; exact hfree
  simp only [loaded, InMemory.CalcCRC, SliceRecord.load, append_bytes_result hk,
    append_bytes_self hk, append_bytes_other hfree2 hv.1]

/-! ## The record codec: claims -/

theorem isBytes_stringBytes (s : String) : IsBytes (stringBytes s) := by
  intro b hb
  unfold stringBytes at hb
  simp only [List.mem_flatMap, List.mem_map] at hb
  obtain ⟨c, -, u, -, rfl⟩ := hb
  exact UInt8.toNat_lt u

theorem isBytes_nil : IsBytes [] := by
  intro b hb
  cases hb

theorem New_typed_valid (key val : List Nat) (now : Int) (hk : IsBytes key) (hv : IsBytes val)
    (hkl : key.length ≤ maxAlloc) (hvl : val.length ≤ maxAlloc) (hn : IsInt64 now) :
    (New key val now).Typed ∧ (New key val now).Valid := by
  rw [New_eq]
  have h1 := Nat.lt_of_le_of_lt hkl maxAlloc_lt
  have h2 := Nat.lt_of_le_of_lt hvl maxAlloc_lt
  refine ⟨⟨ChecksumIEEE_lt (isBytes_append hk hv), hn, Nat.zero_lt_succ _, Nat.zero_lt_succ _, h1, h2,
    hk, hv,
    hkl, hvl⟩, rfl, rfl, rfl⟩

theorem Built.typed_valid {r : Record} (h : Built r) : r.Typed ∧ r.Valid := by
  induction h with
  | new key val now hk hv hkl hvl hn => exact New_typed_valid key val now hk hv hkl hvl hn
  | newTyped key val typeinfo now hk hv hkl hvl ht hn =>
    obtain ⟨⟨a1, a2, a3, -, a5, a6, a7, a8, a9, a10⟩, b⟩ :=
      New_typed_valid key val now hk hv hkl hvl hn
    exact ⟨⟨a1, a2, a3, ht, a5, a6, a7, a8, a9, a10⟩, b⟩
  | newFromString key val now hkl hvl hn =>
    exact New_typed_valid _ _ now (isBytes_stringBytes key) (isBytes_stringBytes val) hkl hvl hn
  | newEmpty now hn =>
    exact New_typed_valid [] [] now isBytes_nil isBytes_nil (Nat.zero_le _) (Nat.zero_le _) hn
  | setTypeInfo r typeinfo _ ht ih =>
    obtain ⟨⟨a1, a2, a3, -, a5, a6, a7, a8, a9, a10⟩, b⟩ := ih
    exact ⟨⟨a1, a2, a3, ht, a5, a6, a7, a8, a9, a10⟩, b⟩
  | setStatus r status _ hs ih =>
    obtain ⟨⟨a1, a2, -, a4, a5, a6, a7, a8, a9, a10⟩, b⟩ := ih
    exact ⟨⟨a1, a2, hs, a4, a5, a6, a7, a8, a9, a10⟩, b⟩

/-- Round trip for the records of `Built`: `Deserialize` on the bytes written by `serialize`
returns, consumes the whole stream, and leaves exactly that record (all eight fields), whatever
the target held before. -/
theorem roundtrip_serialize_Deserialize (r : Record) (hr : Built r) (target : Record) :
    target.Deserialize (r.serialize []) = .returned r [] := by
  have h := Deserialize_encode r target [] hr.typed_valid.1 hr.typed_valid.2
  rwa [List.append_nil] at h

set_option maxRecDepth 100000 in
/-- Claim C1, evaluated. After `line := []byte("Key01=Val01")` the call
`New(line[:5], line[6:])` copies the five bytes of the value into the array of `line` behind the
key: the record it returns has the key "Key01", the value "al011" and the checksum of
"Key01Val01", and `Deserialize` on the bytes `serialize` writes for that record ends in the
checksum panic instead of returning the record. -/
theorem round_trip_of_aliased_slices_panics :
    loaded (InMemory.New lineMemory (line.slice 0 5) (line.slice 6 11) 1700000000) =
      ⟨ChecksumIEEE (stringBytes "Key01Val01"), 1700000000, 0, 0, 5, 5, stringBytes "Key01",
        stringBytes "al011"⟩ ∧
    (NewEmpty 1700000001).Deserialize
        ((loaded (InMemory.New lineMemory (line.slice 0 5) (line.slice 6 11)
          1700000000)).serialize []) = .panicChecksum := by
  decide

/-- Claim C2. Corruption detection: for a record in the ranges of its types that satisfies the
record invariant, inverting any one bit of any byte of the key or value region of its encoding
(byte offset at least 30) makes `Deserialize` end in the checksum panic, for every target. -/
theorem flipped_bit_panics_checksum (r target : Record) (i bit : Nat) (ht : r.Typed)
    (hv : r.Valid) (hi : 30 ≤ i) (hlen : i < r.encode.length) (hbit : bit < 8) :
    target.Deserialize (flipBit r.encode i bit) = .panicChecksum :=
  Deserialize_flipBit r target i bit ht hv hi hlen hbit

set_option maxRecDepth 100000 in
theorem flipped_bit_panics_checksum_witness :
    (New [75] [86, 1] 7).Typed ∧ (New [75] [86, 1] 7).Valid ∧ 30 ≤ 31 ∧
    31 < (New [75] [86, 1] 7).encode.length ∧ 3 < 8 ∧
    (NewEmpty 9).Deserialize (flipBit (New [75] [86, 1] 7).encode 31 3) = .panicChecksum :=
  ⟨by decide, by decide, by decide, by decide, by decide,
    flipped_bit_panics_checksum _ _ 31 3 (by decide) (by decide) (by decide) (by decide)
      (by decide)⟩

set_option maxRecDepth 100000 in
/-- Claim C3, evaluated. A truncated stream is accepted in two runs: the empty stream read into
the record of `NewEmpty` returns normally, and so does the 30-byte header of the valid record
with key `[0]` and empty value (a strict prefix of its 31-byte encoding), which even yields
that record. -/
theorem truncated_stream_returns :
    (NewEmpty 5).Deserialize [] = .returned (NewEmpty 5) [] ∧
    (New [0] [] 7).Typed ∧ (New [0] [] 7).Valid ∧
    (New [0] [] 7).encode.length = 31 ∧
    (NewEmpty 5).Deserialize ((New [0] [] 7).encode.take 30) = .returned (New [0] [] 7) [] := by
  decide

theorem putUint32_eq_leBytes (v : Nat) : putUint32 v = leBytes 4 v := by
  simp [putUint32, leBytes, List.range, List.range.loop, Nat.shiftRight_eq_div_pow]

theorem putUint64_eq_leBytes (v : Nat) : putUint64 v = leBytes 8 v := by
  simp [putUint64, leBytes, List.range, List.range.loop, Nat.shiftRight_eq_div_pow]

theorem int64ToUint64_eq (v : Int) (h : IsInt64 v) : int64ToUint64 v = twosComplement64 v := by
  unfold IsInt64 at h
  unfold int64ToUint64 twosComplement64
  split <;> omega

theorem leBytes_length (n x : Nat) : (leBytes n x).length = n := by
  simp [leBytes]

/-- Claim C4. Wire layout and append-only encoding: on an output holding `w`, `serialize` leaves
`w` followed by exactly the layout of section 6 (4 little-endian bytes of `Crc`, 8 of the two's
complement of `Timestamp`, the `Status` byte, the `TypeInfo` byte, 8 bytes of `KeySize`, 8 of
`ValueSize`, the key bytes, the value bytes), and so does `Serialize` on a file holding `w`;
the prefix `w` is unchanged. -/
theorem serialize_appends_layout (r : Record) (w : List Nat) (hts : IsInt64 r.Timestamp)
    (hst : r.Status < 256) (hty : r.TypeInfo < 256) :
    r.serialize w = w ++ r.wireLayout ∧ r.Serialize w = w ++ r.wireLayout ∧
    (r.serialize w).take w.length = w ∧
    (r.serialize w).length = w.length + 30 + r.Key.length + r.Value.length := by
  have h : r.serialize w = w ++ r.wireLayout := by
    rw [Record.serialize_eq]
    simp only [Record.header, Record.wireLayout, putUint32_eq_leBytes, putUint64_eq_leBytes,
      int64ToUint64_eq _ hts, Nat.mod_eq_of_lt hst, Nat.mod_eq_of_lt hty]
  refine ⟨h, h, ?_, ?_⟩
  · rw [h, List.take_left']
    rfl
  · rw [Record.serialize_eq]
    simp [Record.header_length]
    omega

theorem serialize_appends_layout_witness :
    IsInt64 (-2) ∧ (1 : Nat) < 256 ∧ (5 : Nat) < 256 ∧
    Record.serialize ⟨0x01020304, -2, 1, 5, 2, 1, [75, 76], [86]⟩ [9, 9] =
      [9, 9] ++ [4, 3, 2, 1, 254, 255, 255, 255, 255, 255, 255, 255, 1, 5,
        2, 0, 0, 0, 0, 0, 0, 0, 1, 0, 0, 0, 0, 0, 0, 0, 75, 76, 86] :=
  ⟨by decide, by decide, by decide,
    (serialize_appends_layout ⟨0x01020304, -2, 1, 5, 2, 1, [75, 76], [86]⟩ [9, 9]
      (by decide) (by decide) (by decide)).1.trans (by decide)⟩

/-- Claim C5. Framing of consecutive records: on the stream holding the encodings of two valid
records followed by any bytes `t`, a first `Deserialize` returns the first record and consumes
exactly `30 + KeySize + ValueSize` bytes, and a second `Deserialize` on the same reader returns
the second record and leaves `t` unread. -/
theorem consecutive_records_framing (r1 r2 target1 target2 : Record) (t : List Nat)
    (ht1 : r1.Typed) (hv1 : r1.Valid) (ht2 : r2.Typed) (hv2 : r2.Valid) :
    ∃ reader, target1.Deserialize (r1.encode ++ r2.encode ++ t) = .returned r1 reader ∧
      (r1.encode ++ r2.encode ++ t).length = 30 + r1.KeySize + r1.ValueSize + reader.length ∧
      target2.Deserialize reader = .returned r2 t := by
  refine ⟨r2.encode ++ t, ?_, ?_, Deserialize_encode r2 target2 t ht2 hv2⟩
  · rw [List.append_assoc]
    exact Deserialize_encode r1 target1 _ ht1 hv1
  · rw [List.append_assoc, List.length_append, Record.encode_length, hv1.2.1, hv1.2.2]

set_option maxRecDepth 100000 in
theorem consecutive_records_framing_witness :
    (NewFromString "Key01" "Val01" 7).Typed ∧ (NewFromString "Key01" "Val01" 7).Valid ∧
    (NewFromString "Key02" "Val02" 8).Typed ∧ (NewFromString "Key02" "Val02" 8).Valid ∧
    ∃ reader, (NewEmpty 9).Deserialize ((NewFromString "Key01" "Val01" 7).encode ++
        (NewFromString "Key02" "Val02" 8).encode ++ [1, 2, 3]) =
        .returned (NewFromString "Key01" "Val01" 7) reader ∧
      ((NewFromString "Key01" "Val01" 7).encode ++
        (NewFromString "Key02" "Val02" 8).encode ++ [1, 2, 3]).length =
        30 + (NewFromString "Key01" "Val01" 7).KeySize +
          (NewFromString "Key01" "Val01" 7).ValueSize + reader.length ∧
      (NewEmpty 9).Deserialize reader = .returned (NewFromString "Key02" "Val02" 8) [1, 2, 3] :=
  ⟨by decide, by decide, by decide, by decide,
    consecutive_records_framing _ _ _ _ _ (by decide) (by decide) (by decide) (by decide)⟩

set_option maxRecDepth 100000 in
/-- Claim C10, evaluated. On the 30-byte stream that announces a key of one byte and an empty
value and then ends, the read of the key fails with `io.EOF` while the read of the value, of
length zero, succeeds; `err` is nil at the test and `Deserialize` ends in the checksum panic,
not in the read panic. When the announced checksum is that of the byte `0`, the same situation
makes `Deserialize` return normally. -/
theorem failed_read_not_reported :
    Record.readErrors (NewEmpty 5) (Record.header { New [] [] 7 with KeySize := 1 }) =
      [none, none, none, none, none, none, some IOError.EOF, none] ∧
    (NewEmpty 5).Deserialize (Record.header { New [] [] 7 with KeySize := 1 }) =
      .panicChecksum ∧
    Record.readErrors (NewEmpty 5) (New [0] [] 7).header =
      [none, none, none, none, none, none, some IOError.EOF, none] ∧
    (NewEmpty 5).Deserialize (New [0] [] 7).header = .returned (New [0] [] 7) [] := by
  decide

/-! ## Lemmas on the order of keys -/

theorem bytesLess_irrefl (a : List Nat) : bytesLess a a = false := by
  induction a with
  | nil => rfl
  | cons x a ih => simp [bytesLess, ih]

theorem bytesLess_trans {a b c : List Nat} (h1 : bytesLess a b = true)
    (h2 : bytesLess b c = true) : bytesLess a c = true := by
  induction a generalizing b c with
  | nil =>
    cases c with
    | nil => cases b <;> simp [bytesLess] at h1 h2
    | cons z c => rfl
  | cons x a ih =>
    cases b with
    | nil => simp [bytesLess] at h1
    | cons y b =>
      cases c with
      | nil => simp [bytesLess] at h2
      | cons z c =>
        simp only [bytesLess] at h1 h2 ⊢
        by_cases hxy : x < y
        · by_cases hyz : y < z
          · have : x < z := by omega
            simp [this]
          · by_cases hzy : z < y
            · simp [hyz, hzy] at h2
            · have : x < z := by omega
              simp [this]
        · by_cases hyx : y < x
          · simp [hxy, hyx] at h1
          · have hxy' : x = y := by omega
            subst hxy'
            by_cases hxz : x < z
            · simp [hxz]
            · by_cases hzx : z < x
              · simp [hxz, hzx] at h2
              · simp only [hxy, hxz, hzx, if_false] at h1 h2 ⊢
                exact ih h1 h2

theorem bytesLess_asymm {a b : List Nat} (h : bytesLess a b = true) : bytesLess b a = false := by
  cases hba : bytesLess b a with
  | false => rfl
  | true =>
    have := bytesLess_trans h hba
    rw [bytesLess_irrefl] at this
    cases this

theorem bytesLess_total {a b : List Nat} (h1 : bytesLess a b = false)
    (h2 : bytesLess b a = false) : a = b := by
  induction a generalizing b with
  | nil =>
    cases b with
    | nil => rfl
    | cons y b => simp [bytesLess] at h1
  | cons x a ih =>
    cases b with
    | nil => simp [bytesLess] at h2
    | cons y b =>
      simp only [bytesLess] at h1 h2
      by_cases hxy : x < y
      · simp [hxy] at h1
      · by_cases hyx : y < x
        · simp [hyx] at h2
        · have hxy' : x = y := by omega
          subst hxy'
          simp only [hxy, if_false] at h1 h2
          rw [ih h1 h2]

theorem bytesLess_ne {a b : List Nat} (h : bytesLess a b = true) : a ≠ b := by
  intro hab
  subst hab
  rw [bytesLess_irrefl] at h
  cases h

/-- The comparison of the model is the lexicographic order of lists of bytes. -/
theorem bytesLess_iff_lex (a b : List Nat) :
    bytesLess a b = true ↔ List.Lex (fun x y : Nat => x < y) a b := by
  induction a generalizing b with
  | nil =>
    cases b with
    | nil => simp [bytesLess]
    | cons y b => simp [bytesLess, List.Lex.nil]
  | cons x a ih =>
    cases b with
    | nil => simp [bytesLess]
    | cons y b =>
      simp only [bytesLess]
      constructor
      · intro h
        by_cases hxy : x < y
        · exact List.Lex.rel hxy
        · by_cases hyx : y < x
          · simp [hxy, hyx] at h
          · have hxy' : x = y := by omega
            subst hxy'
            simp only [hxy, if_false] at h
            exact List.Lex.cons ((ih b).mp h)
      · intro h
        cases h with
        | cons h' =>
          have : ¬ x < x := Nat.lt_irrefl x
          simp only [this, if_false]
          exact (ih b).mpr h'
        | rel h' => simp [h']

namespace Skiplist

/-! ## Lemmas on forward references -/

theorem height_lt_length {sl : Skiplist} {j : Nat} (h : 0 < sl.height j) :
    j < sl.Nodes.length := by
  unfold height at h
  by_contra hj
  rw [List.getElem?_eq_none (Nat.le_of_not_lt hj)] at h
  exact Nat.lt_irrefl 0 h

theorem getElem?_of_lt {sl : Skiplist} {j : Nat} (h : j < sl.Nodes.length) :
    ∃ n, sl.Nodes[j]? = some n := ⟨sl.Nodes[j], List.getElem?_eq_getElem h⟩

theorem join_getElem?_set {l : List (Option Nat)} {i k : Nat} {r : Option Nat}
    (h : i < l.length) : ((l.set i r)[k]?).join = if k = i then r else (l[k]?).join := by
  rw [List.getElem?_set]
  by_cases hk : i = k
  · subst hk
    simp [h]
  · have : ¬ k = i := fun h => hk h.symm
    simp [hk, this]

/-- Reading a forward reference after an assignment to a forward reference that exists. -/
theorem next_setNext (sl : Skiplist) (p q : Place) (lvl k : Nat) (r : Option Nat)
    (h : lvl < sl.placeHeight p) :
    (sl.setNext p lvl r).next q k = if q = p ∧ k = lvl then r else sl.next q k := by
  cases p with
  | header =>
    cases q with
    | header =>
      simp only [setNext, next, true_and]
      exact join_getElem?_set h
    | node i => simp [setNext, next]
  | node j =>
    have hj : j < sl.Nodes.length := height_lt_length (Nat.lt_of_le_of_lt (Nat.zero_le _) h)
    obtain ⟨n, hn⟩ := getElem?_of_lt hj
    have hlen : lvl < n.Next.length := by
      simpa [placeHeight, height, hn] using h
    cases q with
    | header => simp [setNext, next, hn]
    | node i =>
      simp only [setNext, next, hn, Place.node.injEq]
      rw [List.getElem?_set]
      by_cases hij : j = i
      · subst hij
        simp only [hj, if_true, hn, true_and]
        exact join_getElem?_set hlen
      · have : ¬ i = j := fun h => hij h.symm
        simp [hij, this]

theorem height_setNext (sl : Skiplist) (p : Place) (lvl : Nat) (r : Option Nat) (i : Nat) :
    (sl.setNext p lvl r).height i = sl.height i := by
  cases p with
  | header => rfl
  | node j =>
    simp only [setNext]
    cases hn : sl.Nodes[j]? with
    | none => rfl
    | some n =>
      simp only [height]
      rw [List.getElem?_set]
      by_cases hij : j = i
      · subst hij
        have hj : j < sl.Nodes.length := by
          by_contra hc
          rw [List.getElem?_eq_none (Nat.le_of_not_lt hc)] at hn
          cases hn
        simp [hj, hn]
      · simp [hij]

theorem data_setNext (sl : Skiplist) (p : Place) (lvl : Nat) (r : Option Nat) (i : Nat) :
    ((sl.setNext p lvl r).Nodes[i]?).map (·.Data) = (sl.Nodes[i]?).map (·.Data) := by
  cases p with
  | header => rfl
  | node j =>
    simp only [setNext]
    cases hn : sl.Nodes[j]? with
    | none => rfl
    | some n =>
      simp only []
      rw [List.getElem?_set]
      by_cases hij : j = i
      · subst hij
        have hj : j < sl.Nodes.length := by
          by_contra hc
          rw [List.getElem?_eq_none (Nat.le_of_not_lt hc)] at hn
          cases hn
        simp [hj, hn]
      · simp [hij]

theorem length_setNext (sl : Skiplist) (p : Place) (lvl : Nat) (r : Option Nat) :
    (sl.setNext p lvl r).Nodes.length = sl.Nodes.length := by
  cases p with
  | header => rfl
  | node j =>
    simp only [setNext]
    cases hn : sl.Nodes[j]? with
    | none => rfl
    | some n => simp

theorem header_length_setNext (sl : Skiplist) (p : Place) (lvl : Nat) (r : Option Nat) :
    (sl.setNext p lvl r).Header.length = sl.Header.length := by
  cases p with
  | header => simp [setNext]
  | node j =>
    simp only [setNext]
    cases hn : sl.Nodes[j]? <;> rfl

theorem level_setNext (sl : Skiplist) (p : Place) (lvl : Nat) (r : Option Nat) :
    (sl.setNext p lvl r).Level = sl.Level ∧ (sl.setNext p lvl r).LevelMax = sl.LevelMax := by
  cases p with
  | header => exact ⟨rfl, rfl⟩
  | node j =>
    simp only [setNext]
    cases hn : sl.Nodes[j]? <;> exact ⟨rfl, rfl⟩

theorem placeHeight_setNext (sl : Skiplist) (p : Place) (lvl : Nat) (r : Option Nat)
    (q : Place) : (sl.setNext p lvl r).placeHeight q = sl.placeHeight q := by
  cases q with
  | header => exact header_length_setNext sl p lvl r
  | node i => exact height_setNext sl p lvl r i

end Skiplist

namespace Skiplist

/-! ## Lemmas on the chains of references -/

theorem Chain.nil_iff {sl : Skiplist} {lvl : Nat} {cur : Place} {e : Option Nat} :
    Chain sl lvl cur [] e ↔ sl.next cur lvl = e := Iff.rfl

theorem Chain.cons_above {sl : Skiplist} {lvl : Nat} {cur : Place} {j : Nat} {post : List Nat}
    {e : Option Nat} (h : lvl < sl.height j) :
    Chain sl lvl cur (j :: post) e ↔ sl.next cur lvl = some j ∧ Chain sl lvl (.node j) post e := by
  simp [Chain, h]

theorem Chain.cons_below {sl : Skiplist} {lvl : Nat} {cur : Place} {j : Nat} {post : List Nat}
    {e : Option Nat} (h : ¬ lvl < sl.height j) :
    Chain sl lvl cur (j :: post) e ↔ Chain sl lvl cur post e := by
  simp [Chain, h]

/-- A chain only depends on the heights of its nodes and on the references at its level of
the places it visits. -/
theorem Chain.congr {sl sl' : Skiplist} {lvl : Nat} {post : List Nat} {e : Option Nat} :
    ∀ {cur cur' : Place}, Chain sl lvl cur post e → sl'.next cur' lvl = sl.next cur lvl →
      (∀ x ∈ post, sl'.height x = sl.height x) →
      (∀ x ∈ post, lvl < sl.height x → sl'.next (.node x) lvl = sl.next (.node x) lvl) →
      Chain sl' lvl cur' post e := by
  induction post with
  | nil =>
    intro cur cur' h hn _ _
    rw [Chain.nil_iff] at h ⊢
    rw [hn, h]
  | cons j post ih =>
    intro cur cur' h hn hh hx
    have hj := hh j (List.mem_cons_self _ _)
    have hh' : ∀ x ∈ post, sl'.height x = sl.height x :=
      fun x hx => hh x (List.mem_cons_of_mem _ hx)
    have hx' : ∀ x ∈ post, lvl < sl.height x → sl'.next (.node x) lvl = sl.next (.node x) lvl :=
      fun x hm => hx x (List.mem_cons_of_mem _ hm)
    by_cases hlt : lvl < sl.height j
    · rw [Chain.cons_above hlt] at h
      rw [Chain.cons_above (by rw [hj]; exact hlt)]
      exact ⟨by rw [hn, h.1], ih h.2 (hx j (List.mem_cons_self _ _) hlt) hh' hx'⟩
    · rw [Chain.cons_below hlt] at h
      rw [Chain.cons_below (by rw [hj]; exact hlt)]
      exact ih h hn hh' hx'

/-- The reference that starts a chain: the first node of the level, or the end reference. -/
theorem Chain.next_eq {sl : Skiplist} {lvl : Nat} {post : List Nat} {e : Option Nat} :
    ∀ {cur : Place}, Chain sl lvl cur post e →
      sl.next cur lvl = ((post.find? (fun j => lvl < sl.height j)).orElse fun _ => e) := by
  induction post with
  | nil =>
    intro cur h
    simpa using h
  | cons j post ih =>
    intro cur h
    by_cases hlt : lvl < sl.height j
    · rw [Chain.cons_above hlt] at h
      simp [List.find?, hlt, h.1]
    · rw [Chain.cons_below hlt] at h
      simp [List.find?, hlt, ih h]

/-- The chain that starts at a node of the level is the rest of the chain through it. -/
theorem Chain.suffix {sl : Skiplist} {lvl : Nat} {j : Nat} {post : List Nat} {e : Option Nat}
    (hj : lvl < sl.height j) :
    ∀ {pre : List Nat} {cur : Place}, Chain sl lvl cur (pre ++ j :: post) e →
      Chain sl lvl (.node j) post e := by
  intro pre
  induction pre with
  | nil =>
    intro cur h
    rw [List.nil_append, Chain.cons_above hj] at h
    exact h.2
  | cons x pre ih =>
    intro cur h
    rw [List.cons_append] at h
    by_cases hlt : lvl < sl.height x
    · rw [Chain.cons_above hlt] at h
      exact ih h.2
    · rw [Chain.cons_below hlt] at h
      exact ih h

/-- Nodes without the level can be dropped from the front of a chain. -/
theorem Chain.skip {sl : Skiplist} {lvl : Nat} {post : List Nat} {e : Option Nat}
    {cur : Place} :
    ∀ {pre : List Nat}, (∀ x ∈ pre, ¬ lvl < sl.height x) →
      (Chain sl lvl cur (pre ++ post) e ↔ Chain sl lvl cur post e) := by
  intro pre
  induction pre with
  | nil => intro _; rfl
  | cons x pre ih =>
    intro h
    rw [List.cons_append, Chain.cons_below (h x (List.mem_cons_self _ _))]
    exact ih (fun y hy => h y (List.mem_cons_of_mem _ hy))

theorem lastAbove_append (sl : Skiplist) (lvl : Nat) (a b : List Nat) :
    ∀ cur, sl.lastAbove lvl cur (a ++ b) = sl.lastAbove lvl (sl.lastAbove lvl cur a) b := by
  induction a with
  | nil => intro cur; rfl
  | cons x a ih => intro cur; exact ih _

theorem lastAbove_of_below {sl : Skiplist} {lvl : Nat} {l : List Nat} :
    ∀ {cur : Place}, (∀ x ∈ l, ¬ lvl < sl.height x) → sl.lastAbove lvl cur l = cur := by
  induction l with
  | nil => intro cur _; rfl
  | cons x l ih =>
    intro cur h
    simp only [lastAbove, h x (List.mem_cons_self _ _), if_false]
    exact ih (fun y hy => h y (List.mem_cons_of_mem _ hy))

/-- The last place of a level is the start, when no node has the level, or the last node of
the list that has it. -/
theorem lastAbove_cases (sl : Skiplist) (lvl : Nat) (l : List Nat) :
    ∀ cur, (sl.lastAbove lvl cur l = cur ∧ ∀ x ∈ l, ¬ lvl < sl.height x) ∨
      ∃ a j b, l = a ++ j :: b ∧ sl.lastAbove lvl cur l = .node j ∧ lvl < sl.height j ∧
        ∀ x ∈ b, ¬ lvl < sl.height x := by
  induction l with
  | nil => intro cur; exact Or.inl ⟨rfl, fun x hx => by cases hx⟩
  | cons x l ih =>
    intro cur
    by_cases hlt : lvl < sl.height x
    · right
      rcases ih (.node x) with ⟨h1, h2⟩ | ⟨a, j, b, h1, h2, h3, h4⟩
      · exact ⟨[], x, l, rfl, by simp [lastAbove, hlt, h1], hlt, h2⟩
      · exact ⟨x :: a, j, b, by simp [h1], by simp only [lastAbove, hlt, if_true]; exact h2,
          h3, h4⟩
    · rcases ih cur with ⟨h1, h2⟩ | ⟨a, j, b, h1, h2, h3, h4⟩
      · left
        refine ⟨by simp only [lastAbove, hlt, if_false]; exact h1, ?_⟩
        intro y hy
        rcases List.mem_cons.mp hy with rfl | hy
        · exact hlt
        · exact h2 y hy
      · right
        exact ⟨x :: a, j, b, by simp [h1], by simp only [lastAbove, hlt, if_false]; exact h2,
          h3, h4⟩

theorem placeHeight_lastAbove {sl : Skiplist} {lvl : Nat} {l : List Nat} {cur : Place}
    (h : lvl < sl.placeHeight cur) : lvl < sl.placeHeight (sl.lastAbove lvl cur l) := by
  rcases lastAbove_cases sl lvl l cur with ⟨h1, -⟩ | ⟨a, j, b, -, h2, h3, -⟩
  · rw [h1]; exact h
  · rw [h2]; exact h3

end Skiplist

namespace Skiplist

/-! ## Lemmas on the descent -/

theorem keyAt_eq {sl : Skiplist} {j : Nat} {n : SkiplistNode} (h : sl.Nodes[j]? = some n) :
    sl.keyAt j = n.Data.Key := by
  simp [keyAt, h]

/-- One level of the descent: from a place whose chain runs through nodes with smaller keys
(`rest`) and then nodes without (`hi`), the loop stops at the last node of `rest` that has the
level. -/
theorem advance_spec {sl : Skiplist} {key : List Nat} {lvl : Nat} {hi : List Nat}
    (hb : ∀ x ∈ hi, x < sl.Nodes.length)
    (hhi : ∀ x ∈ hi, bytesLess (sl.keyAt x) key = false) :
    ∀ {rest : List Nat} {cur : Place} {fuel : Nat}, Chain sl lvl cur (rest ++ hi) none →
      (∀ x ∈ rest, x < sl.Nodes.length ∧ bytesLess (sl.keyAt x) key = true) →
      rest.length < fuel → advance sl key lvl fuel cur = some (sl.lastAbove lvl cur rest) := by
  intro rest
  induction rest with
  | nil =>
    intro cur fuel hc _ hf
    obtain ⟨f, rfl⟩ : ∃ f, fuel = f + 1 := ⟨fuel - 1, by simp at hf; omega⟩
    rw [List.nil_append] at hc
    have hn := hc.next_eq
    simp only [advance, lastAbove]
    cases hfind : hi.find? (fun j => lvl < sl.height j) with
    | none =>
      rw [hfind] at hn
      simp only [Option.orElse] at hn
      rw [hn]
    | some j =>
      rw [hfind] at hn
      simp only [Option.orElse] at hn
      rw [hn]
      have hj : j ∈ hi := List.mem_of_find?_eq_some hfind
      obtain ⟨n, hnode⟩ := getElem?_of_lt (hb j hj)
      have hk := hhi j hj
      rw [keyAt_eq hnode] at hk
      simp [hnode, hk]
  | cons x r ih =>
    intro cur fuel hc hr hf
    obtain ⟨f, rfl⟩ : ∃ f, fuel = f + 1 := ⟨fuel - 1, by simp at hf; omega⟩
    have hr' : ∀ y ∈ r, y < sl.Nodes.length ∧ bytesLess (sl.keyAt y) key = true :=
      fun y hy => hr y (List.mem_cons_of_mem _ hy)
    rw [List.cons_append] at hc
    by_cases hlt : lvl < sl.height x
    · rw [Chain.cons_above hlt] at hc
      obtain ⟨hx1, hx2⟩ := hr x (List.mem_cons_self _ _)
      obtain ⟨n, hnode⟩ := getElem?_of_lt hx1
      rw [keyAt_eq hnode] at hx2
      have hf' : r.length < f := by simp at hf; omega
      simp only [advance, hc.1, hnode, hx2, if_true, lastAbove, hlt]
      exact ih hc.2 hr' hf'
    · rw [Chain.cons_below hlt] at hc
      have hf' : r.length < f + 1 := by simp at hf; omega
      simp only [lastAbove, hlt, if_false]
      exact ih hc hr' hf'

/-- A list with increasing keys splits into the nodes with a key below `key` and the rest. -/
theorem split_at_key (sl : Skiplist) (key : List Nat) :
    ∀ (l : List Nat), l.Pairwise (fun a b => bytesLess (sl.keyAt a) (sl.keyAt b) = true) →
      ∃ lo hi, l = lo ++ hi ∧ (∀ x ∈ lo, bytesLess (sl.keyAt x) key = true) ∧
        ∀ x ∈ hi, bytesLess (sl.keyAt x) key = false := by
  intro l
  induction l with
  | nil => intro _; exact ⟨[], [], rfl, (fun x hx => nomatch hx), (fun x hx => nomatch hx)⟩
  | cons x l ih =>
    intro hs
    rw [List.pairwise_cons] at hs
    cases hx : bytesLess (sl.keyAt x) key with
    | true =>
      obtain ⟨lo, hi, h1, h2, h3⟩ := ih hs.2
      refine ⟨x :: lo, hi, by simp [h1], ?_, h3⟩
      intro y hy
      rcases List.mem_cons.mp hy with rfl | hy
      · exact hx
      · exact h2 y hy
    | false =>
      refine ⟨[], x :: l, rfl, (fun y hy => nomatch hy), ?_⟩
      intro y hy
      rcases List.mem_cons.mp hy with rfl | hy
      · exact hx
      · cases hy' : bytesLess (sl.keyAt y) key with
        | false => rfl
        | true =>
          have := bytesLess_trans (hs.1 y hy) hy'
          rw [hx] at this
          cases this

theorem Repr.split {sl : Skiplist} {order : List Nat} (h : Repr sl order) (key : List Nat) :
    ∃ lo hi, order = lo ++ hi ∧ Split sl key lo hi := by
  obtain ⟨lo, hi, h1, h2, h3⟩ := split_at_key sl key order h.sorted
  subst h1
  exact ⟨lo, hi, rfl, h, h2, h3⟩

theorem Split.advance_eq {sl : Skiplist} {key : List Nat} {lo hi : List Nat}
    (h : Split sl key lo hi) (n : Nat) :
    advance sl key n (sl.Nodes.length + 1) (sl.lastAbove (n + 1) .header lo) =
      some (sl.lastAbove n .header lo) := by
  have hb : ∀ x ∈ hi, x < sl.Nodes.length :=
    fun x hx => h.repr.bound x (List.mem_append_right _ hx)
  have hlen : lo.length ≤ sl.Nodes.length := by
    have := h.repr.length_le
    rw [List.length_append] at this
    omega
  rcases lastAbove_cases sl (n + 1) lo .header with ⟨h1, -⟩ | ⟨a, j, b, h1, h2, h3, -⟩
  · rw [h1]
    refine advance_spec hb h.above (h.repr.chain n) ?_ (by omega)
    exact fun x hx => ⟨h.repr.bound x (List.mem_append_left _ hx), h.below x hx⟩
  · rw [h2]
    have hc := h.repr.chain n
    rw [h1, List.append_assoc, List.cons_append] at hc
    have hnj : n < sl.height j := by omega
    have hc' := Chain.suffix hnj hc
    have hmem : ∀ x ∈ b, x ∈ lo := fun x hx => by rw [h1]; simp [hx]
    have hlb : b.length < sl.Nodes.length + 1 := by
      rw [h1] at hlen
      simp at hlen
      omega
    rw [advance_spec hb h.above hc'
      (fun x hx => ⟨h.repr.bound x (List.mem_append_left _ (hmem x hx)), h.below x (hmem x hx)⟩)
      hlb]
    rw [h1, lastAbove_append]
    simp [lastAbove, hnj]

theorem Split.descendFrom_eq {sl : Skiplist} {key : List Nat} {lo hi : List Nat}
    (h : Split sl key lo hi) :
    ∀ (n : Nat) (acc : List Place),
      descendFrom sl key n (sl.lastAbove n .header lo) acc =
        some ((List.range n).map (fun i => sl.lastAbove i .header lo) ++ acc) := by
  intro n
  induction n with
  | zero => intro acc; rfl
  | succ n ih =>
    intro acc
    simp only [descendFrom, h.advance_eq n]
    rw [ih, List.range_succ, List.map_append]
    simp

theorem Split.lastAbove_header {sl : Skiplist} {key : List Nat} {lo hi : List Nat}
    (h : Split sl key lo hi) {lvl : Nat} (hl : sl.Level ≤ lvl) :
    sl.lastAbove lvl .header lo = .header := by
  apply lastAbove_of_below
  intro x hx
  have := (h.repr.height_le x (List.mem_append_left _ hx)).2
  omega

/-- The descent returns, for every level up to the effective level, the last node of the
level with a key below the target, or the header. -/
theorem Split.descend_eq {sl : Skiplist} {key : List Nat} {lo hi : List Nat}
    (h : Split sl key lo hi) :
    sl.descend key =
      some ((List.range (sl.Level + 1)).map (fun i => sl.lastAbove i .header lo)) := by
  unfold descend
  have := h.descendFrom_eq (sl.Level + 1) []
  rw [h.lastAbove_header (Nat.le_succ _)] at this
  rw [this, List.append_nil]

theorem Split.predAt_eq {sl : Skiplist} {key : List Nat} {lo hi : List Nat}
    (h : Split sl key lo hi) (lvl : Nat) :
    predAt ((List.range (sl.Level + 1)).map (fun i => sl.lastAbove i .header lo)) lvl =
      sl.lastAbove lvl .header lo := by
  unfold predAt
  by_cases hl : lvl < sl.Level + 1
  · rw [List.getD_eq_getElem?_getD, List.getElem?_map, List.getElem?_range hl]
    rfl
  · rw [List.getD_eq_getElem?_getD, List.getElem?_eq_none (by simp; omega)]
    simp only [Option.getD]
    exact (h.lastAbove_header (by omega)).symm

end Skiplist

namespace Skiplist

/-! ## Lemmas on the level-0 successor, the traversal and `Find` -/

/-- At every level, the chain from the predecessor the descent records runs through the nodes
whose key is not below the target. -/
theorem Split.chain_pred {sl : Skiplist} {key : List Nat} {lo hi : List Nat}
    (h : Split sl key lo hi) (lvl : Nat) :
    Chain sl lvl (sl.lastAbove lvl .header lo) hi none := by
  have hc := h.repr.chain lvl
  rcases lastAbove_cases sl lvl lo .header with ⟨h1, h2⟩ | ⟨a, j, b, h1, h2, h3, h4⟩
  · rw [h1]
    exact (Chain.skip h2).mp hc
  · rw [h2]
    rw [h1, List.append_assoc, List.cons_append] at hc
    exact (Chain.skip h4).mp (Chain.suffix h3 hc)

theorem Split.next_pred_zero {sl : Skiplist} {key : List Nat} {lo hi : List Nat}
    (h : Split sl key lo hi) : sl.next (sl.lastAbove 0 .header lo) 0 = hi.head? := by
  rw [(h.chain_pred 0).next_eq]
  cases hi with
  | nil => rfl
  | cons j hi =>
    have := h.repr.height_pos j (List.mem_append_right _ (List.mem_cons_self _ _))
    have h0 : 0 < sl.height j := by omega
    simp [List.find?, h0]

theorem Split.successor_nil {sl : Skiplist} {key : List Nat} {lo : List Nat}
    (h : Split sl key lo []) :
    successorWithKey sl ((List.range (sl.Level + 1)).map (fun i => sl.lastAbove i .header lo))
      key = none := by
  simp [successorWithKey, h.predAt_eq, h.next_pred_zero]

theorem Split.successor_cons {sl : Skiplist} {key : List Nat} {lo hi : List Nat} {j : Nat}
    {n : SkiplistNode} (h : Split sl key lo (j :: hi)) (hn : sl.Nodes[j]? = some n) :
    successorWithKey sl ((List.range (sl.Level + 1)).map (fun i => sl.lastAbove i .header lo))
      key = if n.Data.Key = key then some (j, n) else none := by
  simp [successorWithKey, h.predAt_eq, h.next_pred_zero, hn]

theorem traverseFrom_none (sl : Skiplist) (fuel : Nat) : traverseFrom sl fuel none = some [] := by
  cases fuel <;> rfl

theorem traverseFrom_chain {sl : Skiplist} :
    ∀ {post : List Nat} {cur : Place} {fuel : Nat}, Chain sl 0 cur post none →
      (∀ x ∈ post, x < sl.Nodes.length ∧ 1 ≤ sl.height x) → post.length ≤ fuel →
      traverseFrom sl fuel (sl.next cur 0) = some (sl.nodesOf post) := by
  intro post
  induction post with
  | nil =>
    intro cur fuel hc _ _
    rw [Chain.nil_iff] at hc
    rw [hc, traverseFrom_none]
    rfl
  | cons x r ih =>
    intro cur fuel hc hx hf
    obtain ⟨f, rfl⟩ : ∃ f, fuel = f + 1 := ⟨fuel - 1, by simp at hf; omega⟩
    obtain ⟨hx1, hx2⟩ := hx x (List.mem_cons_self _ _)
    obtain ⟨n, hn⟩ := getElem?_of_lt hx1
    rw [Chain.cons_above (by omega)] at hc
    have hnext : sl.next (.node x) 0 = (n.Next[0]?).join := by simp [next, hn]
    have := ih hc.2 (fun y hy => hx y (List.mem_cons_of_mem _ hy))
      (by simp at hf; omega : r.length ≤ f)
    rw [hc.1]
    simp only [traverseFrom, hn]
    rw [← hnext, this]
    simp [nodesOf, hn]

/-- The traversal visits the nodes of the list in the order of the invariant. -/
theorem Repr.traverse_eq {sl : Skiplist} {order : List Nat} (h : Repr sl order) :
    sl.traverse = some (sl.nodesOf order) :=
  traverseFrom_chain (h.chain 0) (fun x hx => ⟨h.bound x hx, h.height_pos x hx⟩) h.length_le

theorem nodesOf_append (sl : Skiplist) (a b : List Nat) :
    sl.nodesOf (a ++ b) = sl.nodesOf a ++ sl.nodesOf b := by
  simp [nodesOf]

theorem nodesOf_find_none {sl : Skiplist} {key : List Nat} {l : List Nat}
    (h : ∀ x ∈ l, sl.keyAt x ≠ key) :
    (sl.nodesOf l).find? (fun n => decide (n.Data.Key = key)) = none := by
  rw [List.find?_eq_none]
  intro n hn
  simp only [nodesOf, List.mem_filterMap] at hn
  obtain ⟨x, hx, hxn⟩ := hn
  have := h x hx
  rw [keyAt_eq hxn] at this
  simpa using this

theorem Split.key_ne_lo {sl : Skiplist} {key : List Nat} {lo hi : List Nat}
    (h : Split sl key lo hi) : ∀ x ∈ lo, sl.keyAt x ≠ key :=
  fun x hx => bytesLess_ne (h.below x hx)

/-- Beyond a first node with a key other than the target, no node has the target key. -/
theorem Split.key_ne_hi {sl : Skiplist} {key : List Nat} {lo hi : List Nat} {j : Nat}
    (h : Split sl key lo (j :: hi)) (hj : sl.keyAt j ≠ key) :
    ∀ x ∈ j :: hi, sl.keyAt x ≠ key := by
  have hlt : bytesLess key (sl.keyAt j) = true := by
    cases hc : bytesLess key (sl.keyAt j) with
    | true => rfl
    | false => exact absurd (bytesLess_total (h.above j (List.mem_cons_self _ _)) hc) hj
  have hs := (List.pairwise_append.mp h.repr.sorted).2.1
  rw [List.pairwise_cons] at hs
  intro x hx
  rcases List.mem_cons.mp hx with rfl | hx
  · exact hj
  · exact fun he => bytesLess_ne (bytesLess_trans hlt (hs.1 x hx)) he.symm

theorem Split.key_ne_tail {sl : Skiplist} {key : List Nat} {lo hi : List Nat} {j : Nat}
    (h : Split sl key lo (j :: hi)) (hj : sl.keyAt j = key) :
    ∀ x ∈ hi, sl.keyAt x ≠ key := by
  have hs := (List.pairwise_append.mp h.repr.sorted).2.1
  rw [List.pairwise_cons] at hs
  intro x hx he
  have := hs.1 x hx
  rw [hj, he, bytesLess_irrefl] at this
  cases this

/-- The call of `Find` returns the node of the list that bears the key, if there is one. -/
theorem Repr.Find_eq {sl : Skiplist} {order : List Nat} (h : Repr sl order) (key : List Nat)
    (exactOnly : Bool) :
    sl.Find key exactOnly =
      some ((sl.nodesOf order).find? (fun n => decide (n.Data.Key = key))) := by
  obtain ⟨lo, hi, rfl, hs⟩ := h.split key
  unfold Find
  rw [hs.descend_eq]
  simp only [Option.some.injEq]
  rw [nodesOf_append, List.find?_append, nodesOf_find_none hs.key_ne_lo, Option.none_or]
  cases hi with
  | nil =>
    rw [hs.successor_nil]
    rfl
  | cons j hi =>
    obtain ⟨n, hn⟩ := getElem?_of_lt (h.bound j (List.mem_append_right _ (List.mem_cons_self _ _)))
    rw [hs.successor_cons hn]
    by_cases hk : n.Data.Key = key
    · simp [nodesOf, hn, hk]
    · have hj : sl.keyAt j ≠ key := by rw [keyAt_eq hn]; exact hk
      rw [nodesOf_find_none (hs.key_ne_hi hj)]
      simp [hk]

end Skiplist

namespace Skiplist

/-! ## The invariant under `New`, `Clear` and a change of record -/

theorem next_header_replicate (m lvl : Nat) (nodes : List SkiplistNode) (l k : Nat) :
    Skiplist.next { LevelMax := k, Level := l, Header := List.replicate m none, Nodes := nodes }
      .header lvl = none := by
  simp only [next]
  by_cases h : lvl < m
  · simp [List.getElem?_replicate, h]
  · simp [List.getElem?_replicate, h]

theorem Repr.New (maxLevel : Nat) (h : 1 ≤ maxLevel) : Repr (Skiplist.New maxLevel) [] where
  header_length := by simp [Skiplist.New]
  bound := fun j hj => nomatch hj
  length_le := Nat.zero_le _
  sorted := List.Pairwise.nil
  height_pos := fun j hj => nomatch hj
  height_le := fun j hj => nomatch hj
  levelMax_pos := h
  chain := fun lvl => next_header_replicate _ _ _ _ _

theorem Repr.Clear {sl : Skiplist} {order : List Nat} (h : Repr sl order) : Repr sl.Clear [] where
  header_length := by simp [Skiplist.Clear, h.header_length]
  bound := fun j hj => nomatch hj
  length_le := Nat.zero_le _
  sorted := List.Pairwise.nil
  height_pos := fun j hj => nomatch hj
  height_le := fun j hj => nomatch hj
  levelMax_pos := h.levelMax_pos
  chain := fun lvl => next_header_replicate _ _ _ _ _

theorem Repr.nodup {sl : Skiplist} {order : List Nat} (h : Repr sl order) : order.Nodup := by
  unfold List.Nodup
  refine h.sorted.imp ?_
  intro a b hab he
  subst he
  rw [bytesLess_irrefl] at hab
  cases hab

theorem getElem?_setData {sl : Skiplist} {j : Nat} {n : SkiplistNode} (rec : Record)
    (hn : sl.Nodes[j]? = some n) (i : Nat) :
    (sl.setData j n rec).Nodes[i]? =
      if i = j then some { n with Data := rec } else sl.Nodes[i]? := by
  have hj : j < sl.Nodes.length := by
    by_contra hc
    rw [List.getElem?_eq_none (Nat.le_of_not_lt hc)] at hn
    cases hn
  simp only [setData]
  rw [List.getElem?_set]
  by_cases hij : j = i
  · subst hij
    simp [hj]
  · have : ¬ i = j := fun h => hij h.symm
    simp [hij, this]

theorem next_setData {sl : Skiplist} {j : Nat} {n : SkiplistNode} (rec : Record)
    (hn : sl.Nodes[j]? = some n) (q : Place) (lvl : Nat) :
    (sl.setData j n rec).next q lvl = sl.next q lvl := by
  cases q with
  | header => rfl
  | node i =>
    simp only [next, getElem?_setData rec hn]
    by_cases hij : i = j
    · subst hij
      simp [hn]
    · simp [hij]

theorem height_setData {sl : Skiplist} {j : Nat} {n : SkiplistNode} (rec : Record)
    (hn : sl.Nodes[j]? = some n) (i : Nat) : (sl.setData j n rec).height i = sl.height i := by
  simp only [height, getElem?_setData rec hn]
  by_cases hij : i = j
  · subst hij
    simp [hn]
  · simp [hij]

theorem keyAt_setData {sl : Skiplist} {j : Nat} {n : SkiplistNode} (rec : Record)
    (hn : sl.Nodes[j]? = some n) (hk : rec.Key = n.Data.Key) (i : Nat) :
    (sl.setData j n rec).keyAt i = sl.keyAt i := by
  simp only [keyAt, getElem?_setData rec hn]
  by_cases hij : i = j
  · subst hij
    simp [hn, hk]
  · simp [hij]

/-- Replacing the record of a node by a record with the same key keeps the invariant. -/
theorem Repr.setData {sl : Skiplist} {order : List Nat} (h : Repr sl order) {j : Nat}
    {n : SkiplistNode} (rec : Record) (hn : sl.Nodes[j]? = some n)
    (hk : rec.Key = n.Data.Key) : Repr (sl.setData j n rec) order where
  header_length := h.header_length
  bound := fun x hx => by simpa [Skiplist.setData] using h.bound x hx
  length_le := by simpa [Skiplist.setData] using h.length_le
  sorted := by
    refine h.sorted.imp ?_
    intro a b hab
    rw [keyAt_setData rec hn hk, keyAt_setData rec hn hk]
    exact hab
  height_pos := fun x hx => by rw [height_setData rec hn]; exact h.height_pos x hx
  height_le := fun x hx => by rw [height_setData rec hn]; exact h.height_le x hx
  levelMax_pos := h.levelMax_pos
  chain := fun lvl =>
    (h.chain lvl).congr (next_setData rec hn _ _) (fun x _ => height_setData rec hn x)
      (fun x _ _ => next_setData rec hn _ _)

theorem recordsOf_append (sl : Skiplist) (a b : List Nat) :
    sl.recordsOf (a ++ b) = sl.recordsOf a ++ sl.recordsOf b := by
  simp [recordsOf, nodesOf_append]

theorem recordsOf_cons {sl : Skiplist} {j : Nat} {n : SkiplistNode} (hn : sl.Nodes[j]? = some n)
    (l : List Nat) : sl.recordsOf (j :: l) = n.Data :: sl.recordsOf l := by
  simp [recordsOf, nodesOf, hn]

/-- The records of nodes that two lists store alike. -/
theorem recordsOf_congr {sl sl' : Skiplist} {l : List Nat}
    (h : ∀ x ∈ l, sl'.Nodes[x]?.map (fun n => n.Data) = sl.Nodes[x]?.map (fun n => n.Data)) :
    sl'.recordsOf l = sl.recordsOf l := by
  induction l with
  | nil => rfl
  | cons x l ih =>
    have hx := h x (List.mem_cons_self _ _)
    have ih' := ih (fun y hy => h y (List.mem_cons_of_mem _ hy))
    simp only [recordsOf, nodesOf] at ih' ⊢
    cases h1 : sl.Nodes[x]? with
    | none =>
      cases h2 : sl'.Nodes[x]? with
      | none => simp [List.filterMap_cons, h1, h2, ih']
      | some n' => simp [h1, h2] at hx
    | some n =>
      cases h2 : sl'.Nodes[x]? with
      | none => simp [h1, h2] at hx
      | some n' =>
        simp only [h1, h2, Option.map_some', Option.some.injEq] at hx
        simp [List.filterMap_cons, h1, h2, ih', hx]

theorem recordsOf_setData_of_not_mem {sl : Skiplist} {j : Nat} {n : SkiplistNode}
    (rec : Record) (hn : sl.Nodes[j]? = some n) {l : List Nat} (hj : j ∉ l) :
    (sl.setData j n rec).recordsOf l = sl.recordsOf l := by
  apply recordsOf_congr
  intro x hx
  have : x ≠ j := fun h => hj (h ▸ hx)
  rw [getElem?_setData rec hn, if_neg this]

/-- The records of the list after the record of one node was replaced. -/
theorem Repr.recordsOf_setData {sl : Skiplist} {lo hi : List Nat} {j : Nat}
    (h : Repr sl (lo ++ j :: hi)) {n : SkiplistNode} (rec : Record)
    (hn : sl.Nodes[j]? = some n) :
    (sl.setData j n rec).recordsOf (lo ++ j :: hi) =
      sl.recordsOf lo ++ rec :: sl.recordsOf hi := by
  have hnd := h.nodup
  rw [List.nodup_append] at hnd
  have hjlo : j ∉ lo := fun hm => hnd.2.2 hm (List.mem_cons_self _ _)
  have hjhi : j ∉ hi := (List.nodup_cons.mp hnd.2.1).1
  have hj' : (sl.setData j n rec).Nodes[j]? = some { n with Data := rec } := by
    rw [getElem?_setData rec hn, if_pos rfl]
  rw [recordsOf_append, recordsOf_cons hj', recordsOf_setData_of_not_mem rec hn hjlo,
    recordsOf_setData_of_not_mem rec hn hjhi]

end Skiplist

namespace Skiplist

/-! ## Lemmas on the insertion of a node -/

theorem getElem?_withNode_old {sl : Skiplist} (rec : Record) (L : Nat) {x : Nat}
    (h : x < sl.Nodes.length) : (sl.withNode rec L).Nodes[x]? = sl.Nodes[x]? := by
  simp only [withNode]
  exact List.getElem?_append_left h

theorem getElem?_withNode_new (sl : Skiplist) (rec : Record) (L : Nat) :
    (sl.withNode rec L).Nodes[sl.Nodes.length]? =
      some { Data := rec, Next := List.replicate L none } := by
  simp [withNode]

theorem next_withNode_header (sl : Skiplist) (rec : Record) (L lvl : Nat) :
    (sl.withNode rec L).next .header lvl = sl.next .header lvl := rfl

theorem next_withNode_old {sl : Skiplist} (rec : Record) (L lvl : Nat) {x : Nat}
    (h : x < sl.Nodes.length) : (sl.withNode rec L).next (.node x) lvl = sl.next (.node x) lvl := by
  simp only [next, getElem?_withNode_old rec L h]

theorem next_withNode_new (sl : Skiplist) (rec : Record) (L lvl : Nat) :
    (sl.withNode rec L).next (.node sl.Nodes.length) lvl = none := by
  simp only [next, getElem?_withNode_new]
  by_cases h : lvl < L
  · simp [List.getElem?_replicate, h]
  · simp [List.getElem?_replicate, h]

theorem height_withNode_old {sl : Skiplist} (rec : Record) (L : Nat) {x : Nat}
    (h : x < sl.Nodes.length) : (sl.withNode rec L).height x = sl.height x := by
  simp only [height, getElem?_withNode_old rec L h]

theorem height_withNode_new (sl : Skiplist) (rec : Record) (L : Nat) :
    (sl.withNode rec L).height sl.Nodes.length = L := by
  simp [height, getElem?_withNode_new]

/-- The state after the splice of the levels below `k`: at these levels the predecessor refers
to the new node and the new node to the old successor; nothing else changes. -/
theorem splice_fold (update : List Place) (j : Nat) (s : Skiplist) (L : Nat)
    (hj : L ≤ s.height j) (hp : ∀ lvl < L, lvl < s.placeHeight (predAt update lvl)) :
    ∀ k ≤ L,
      (∀ q, ((List.range k).foldl (spliceLevel update j) s).placeHeight q = s.placeHeight q) ∧
      (∀ i : Nat, (((List.range k).foldl (spliceLevel update j) s).Nodes[i]?).map (·.Data) =
        (s.Nodes[i]?).map (·.Data)) ∧
      ((List.range k).foldl (spliceLevel update j) s).Nodes.length = s.Nodes.length ∧
      ((List.range k).foldl (spliceLevel update j) s).Level = s.Level ∧
      ((List.range k).foldl (spliceLevel update j) s).LevelMax = s.LevelMax ∧
      ∀ q lvl, ((List.range k).foldl (spliceLevel update j) s).next q lvl =
        if lvl < k then
          (if q = predAt update lvl then some j
           else if q = .node j then s.next (predAt update lvl) lvl else s.next q lvl)
        else s.next q lvl := by
  intro k
  induction k with
  | zero =>
    intro _
    exact ⟨fun _ => rfl, fun _ => rfl, rfl, rfl, rfl, fun q lvl => by simp⟩
  | succ k ih =>
    intro hk
    obtain ⟨h1, h2, h3, h4, h5, h6⟩ := ih (by omega)
    rw [List.range_succ, List.foldl_append]
    simp only [List.foldl_cons, List.foldl_nil]
    generalize (List.range k).foldl (spliceLevel update j) s = sk at h1 h2 h3 h4 h5 h6
    simp only [spliceLevel]
    have hv1 : k < sk.placeHeight (.node j) := by
      rw [h1]
      exact Nat.lt_of_lt_of_le (by omega) hj
    have hv2 : k < (sk.setNext (.node j) k (sk.next (predAt update k) k)).placeHeight
        (predAt update k) := by
      rw [placeHeight_setNext, h1]
      exact hp k (by omega)
    refine ⟨?_, ?_, ?_, ?_, ?_, ?_⟩
    · intro q
      rw [placeHeight_setNext, placeHeight_setNext, h1]
    · intro i
      rw [data_setNext, data_setNext, h2]
    · rw [length_setNext, length_setNext, h3]
    · rw [(level_setNext _ _ _ _).1, (level_setNext _ _ _ _).1, h4]
    · rw [(level_setNext _ _ _ _).2, (level_setNext _ _ _ _).2, h5]
    · intro q lvl
      rw [next_setNext _ _ _ _ _ _ hv2, next_setNext _ _ _ _ _ _ hv1, h6, h6]
      by_cases hlk : lvl = k
      · subst hlk
        simp
      · by_cases hlt : lvl < k
        · have : lvl < k + 1 := by omega
          simp [hlk, hlt, this]
        · have : ¬ lvl < k + 1 := by omega
          simp [hlk, hlt, this]

theorem lastAbove_mem (sl : Skiplist) (lvl : Nat) (l : List Nat) (cur : Place) :
    sl.lastAbove lvl cur l = cur ∨ ∃ y ∈ l, sl.lastAbove lvl cur l = .node y := by
  rcases lastAbove_cases sl lvl l cur with ⟨h1, -⟩ | ⟨a, j, b, h1, h2, -, -⟩
  · exact Or.inl h1
  · exact Or.inr ⟨j, by rw [h1]; simp, h2⟩

/-- A node without the level can be added anywhere in a chain. -/
theorem Chain.insert_below {sl : Skiplist} {lvl : Nat} {j : Nat} {b : List Nat}
    {e : Option Nat} (hj : ¬ lvl < sl.height j) :
    ∀ {a : List Nat} {cur : Place},
      (Chain sl lvl cur (a ++ j :: b) e ↔ Chain sl lvl cur (a ++ b) e) := by
  intro a
  induction a with
  | nil =>
    intro cur
    rw [List.nil_append, List.nil_append, Chain.cons_below hj]
  | cons x a ih =>
    intro cur
    rw [List.cons_append, List.cons_append]
    by_cases hlt : lvl < sl.height x
    · rw [Chain.cons_above hlt, Chain.cons_above hlt, ih]
    · rw [Chain.cons_below hlt, Chain.cons_below hlt, ih]

/-- The splice of a node with the level: when the last place of the level before the node now
refers to the node, the node refers to what that place referred to, and no other reference of
the level changed, the chain runs through the node. -/
theorem Chain.insert_above {sl sl' : Skiplist} {lvl : Nat} {new : Nat} {hi : List Nat}
    {e : Option Nat} (hnew : lvl < sl'.height new)
    (hh : ∀ x, x ≠ new → sl'.height x = sl.height x) :
    ∀ {a : List Nat} {cur : Place}, Chain sl lvl cur (a ++ hi) e → (a ++ hi).Nodup →
      (∀ x ∈ a ++ hi, cur ≠ .node x) → new ∉ a ++ hi → cur ≠ .node new →
      sl'.next (sl.lastAbove lvl cur a) lvl = some new →
      sl'.next (.node new) lvl = sl.next (sl.lastAbove lvl cur a) lvl →
      (∀ q, q ≠ sl.lastAbove lvl cur a → q ≠ .node new → sl'.next q lvl = sl.next q lvl) →
      Chain sl' lvl cur (a ++ new :: hi) e := by
  intro a
  induction a with
  | nil =>
    intro cur hc _ hcur hnm _ h1 h2 h3
    simp only [lastAbove] at h1 h2 h3
    rw [List.nil_append] at hc hcur hnm ⊢
    rw [Chain.cons_above hnew]
    refine ⟨h1, hc.congr h2 (fun x hx => hh x (fun he => hnm (he ▸ hx))) ?_⟩
    intro x hx _
    exact h3 _ (fun he => hcur x hx he.symm) (fun he => hnm (Place.node.inj he ▸ hx))
  | cons x r ih =>
    intro cur hc hnd hcur hnm hcn h1 h2 h3
    rw [List.cons_append] at hc hnd hcur hnm ⊢
    have hxnew : x ≠ new := fun he => hnm (he ▸ List.mem_cons_self _ _)
    have hnm' : new ∉ r ++ hi := fun hm => hnm (List.mem_cons_of_mem _ hm)
    rw [List.nodup_cons] at hnd
    by_cases hlt : lvl < sl.height x
    · rw [Chain.cons_above hlt] at hc
      rw [Chain.cons_above (by rw [hh x hxnew]; exact hlt)]
      simp only [lastAbove, hlt, if_true] at h1 h2 h3
      have hcp : cur ≠ sl.lastAbove lvl (.node x) r := by
        rcases lastAbove_mem sl lvl r (.node x) with h | ⟨y, hy, h⟩
        · rw [h]
          exact hcur x (List.mem_cons_self _ _)
        · rw [h]
          exact hcur y (List.mem_cons_of_mem _ (List.mem_append_left _ hy))
      refine ⟨by rw [h3 cur hcp hcn]; exact hc.1, ?_⟩
      refine ih hc.2 hnd.2 ?_ hnm' (fun he => hxnew (Place.node.inj he)) h1 h2 h3
      intro y hy he
      exact hnd.1 (Place.node.inj he ▸ hy)
    · rw [Chain.cons_below hlt] at hc
      rw [Chain.cons_below (by rw [hh x hxnew]; exact hlt)]
      simp only [lastAbove, hlt, if_false] at h1 h2 h3
      exact ih hc hnd.2 (fun y hy => hcur y (List.mem_cons_of_mem _ hy)) hnm' hcn h1 h2 h3

end Skiplist

namespace Skiplist

/-! ## The invariant under `Write` and `Remove` -/

theorem getElem?_withNode_ne {sl : Skiplist} (rec : Record) (L : Nat) {x : Nat}
    (h : x ≠ sl.Nodes.length) : (sl.withNode rec L).Nodes[x]? = sl.Nodes[x]? := by
  by_cases hx : x < sl.Nodes.length
  · exact getElem?_withNode_old rec L hx
  · rw [List.getElem?_eq_none (by simp [withNode]; omega), List.getElem?_eq_none (by omega)]

theorem height_withNode_ne {sl : Skiplist} (rec : Record) (L : Nat) {x : Nat}
    (h : x ≠ sl.Nodes.length) : (sl.withNode rec L).height x = sl.height x := by
  simp only [height, getElem?_withNode_ne rec L h]

theorem next_withNode_ne {sl : Skiplist} (rec : Record) (L lvl : Nat) {q : Place}
    (h : q ≠ .node sl.Nodes.length) : (sl.withNode rec L).next q lvl = sl.next q lvl := by
  cases q with
  | header => rfl
  | node x =>
    have hx : x ≠ sl.Nodes.length := fun he => h (by rw [he])
    simp only [next, getElem?_withNode_ne rec L hx]

theorem placeHeight_withNode_ne {sl : Skiplist} (rec : Record) (L : Nat) {q : Place}
    (h : q ≠ .node sl.Nodes.length) : (sl.withNode rec L).placeHeight q = sl.placeHeight q := by
  cases q with
  | header => rfl
  | node x => exact height_withNode_ne rec L (fun he => h (by rw [he]))

theorem keyAt_of_data {sl sl' : Skiplist} {x : Nat}
    (h : (sl'.Nodes[x]?).map (·.Data) = (sl.Nodes[x]?).map (·.Data)) :
    sl'.keyAt x = sl.keyAt x := by
  simp only [keyAt]
  cases h1 : sl.Nodes[x]? with
  | none =>
    cases h2 : sl'.Nodes[x]? with
    | none => rfl
    | some n' => simp [h1, h2] at h
  | some n =>
    cases h2 : sl'.Nodes[x]? with
    | none => simp [h1, h2] at h
    | some n' =>
      simp only [h1, h2, Option.map_some', Option.some.injEq] at h
      simp [h]

theorem randomLevel_le (m : Nat) (coins : List Bool) : randomLevel m coins ≤ m :=
  Nat.min_le_left _ _

theorem randomLevel_pos {m : Nat} (h : 1 ≤ m) (coins : List Bool) : 1 ≤ randomLevel m coins := by
  unfold randomLevel
  omega

theorem Split.pred_ne_new {sl : Skiplist} {key : List Nat} {lo hi : List Nat}
    (h : Split sl key lo hi) (lvl : Nat) :
    sl.lastAbove lvl .header lo ≠ .node sl.Nodes.length := by
  rcases lastAbove_mem sl lvl lo .header with h1 | ⟨y, hy, h1⟩
  · rw [h1]
    exact fun he => nomatch he
  · rw [h1]
    intro he
    have := h.repr.bound y (List.mem_append_left _ hy)
    rw [Place.node.inj he] at this
    exact Nat.lt_irrefl _ this

/-- Inserting a node for a key the list does not hold keeps the invariant, with the new node
between the nodes with smaller keys and the others, and adds the record at that place. -/
theorem Split.insert_node {sl : Skiplist} {rec : Record} {lo hi : List Nat}
    (h : Split sl rec.Key lo hi) (hne : ∀ x ∈ hi, sl.keyAt x ≠ rec.Key) (coins : List Bool) :
    Repr ((List.range (randomLevel sl.LevelMax coins)).foldl
        (spliceLevel ((List.range (sl.Level + 1)).map (fun i => sl.lastAbove i .header lo))
          sl.Nodes.length)
        (sl.withNode rec (randomLevel sl.LevelMax coins)))
      (lo ++ sl.Nodes.length :: hi) ∧
    recordsOf ((List.range (randomLevel sl.LevelMax coins)).foldl
        (spliceLevel ((List.range (sl.Level + 1)).map (fun i => sl.lastAbove i .header lo))
          sl.Nodes.length)
        (sl.withNode rec (randomLevel sl.LevelMax coins)))
      (lo ++ sl.Nodes.length :: hi) = sl.recordsOf lo ++ rec :: sl.recordsOf hi := by
  have hL1 := randomLevel_pos h.repr.levelMax_pos coins
  have hL2 := randomLevel_le sl.LevelMax coins
  generalize randomLevel sl.LevelMax coins = L at hL1 hL2 ⊢
  have hpred := h.predAt_eq
  generalize (List.range (sl.Level + 1)).map (fun i => sl.lastAbove i .header lo) = update
    at hpred ⊢
  have hp : ∀ lvl < L, lvl < (sl.withNode rec L).placeHeight (predAt update lvl) := by
    intro lvl hl
    rw [hpred, placeHeight_withNode_ne rec L (h.pred_ne_new lvl)]
    apply placeHeight_lastAbove
    show lvl < sl.Header.length
    rw [h.repr.header_length]
    omega
  obtain ⟨g1, g2, g3, g4, g5, g6⟩ := splice_fold update sl.Nodes.length (sl.withNode rec L) L
    (by rw [height_withNode_new]) hp L (Nat.le_refl _)
  generalize (List.range L).foldl (spliceLevel update sl.Nodes.length) (sl.withNode rec L) = sl'
    at g1 g2 g3 g4 g5 g6 ⊢
  have hbound : ∀ x ∈ lo ++ hi, x < sl.Nodes.length := h.repr.bound
  have hnew : sl.Nodes.length ∉ lo ++ hi := fun hm => Nat.lt_irrefl _ (hbound _ hm)
  have hheight : ∀ x, x ≠ sl.Nodes.length → sl'.height x = sl.height x := by
    intro x hx
    have := g1 (.node x)
    simp only [placeHeight] at this
    rw [this, height_withNode_ne rec L hx]
  have hheightNew : sl'.height sl.Nodes.length = L := by
    have := g1 (.node sl.Nodes.length)
    simp only [placeHeight] at this
    rw [this, height_withNode_new]
  have hdata : ∀ x, x ≠ sl.Nodes.length →
      (sl'.Nodes[x]?).map (·.Data) = (sl.Nodes[x]?).map (·.Data) := by
    intro x hx
    rw [g2, getElem?_withNode_ne rec L hx]
  have hdataNew : (sl'.Nodes[sl.Nodes.length]?).map (·.Data) = some rec := by
    rw [g2, getElem?_withNode_new]
    rfl
  have hkey : ∀ x ∈ lo ++ hi, sl'.keyAt x = sl.keyAt x :=
    fun x hx => keyAt_of_data (hdata x (fun he => hnew (he ▸ hx)))
  have hkeyNew : sl'.keyAt sl.Nodes.length = rec.Key := by
    simp only [keyAt]
    cases hn : sl'.Nodes[sl.Nodes.length]? with
    | none => simp [hn] at hdataNew
    | some n =>
      simp only [hn, Option.map_some', Option.some.injEq] at hdataNew
      simp [hdataNew]
  have hsorted := List.pairwise_append.mp h.repr.sorted
  constructor
  · refine
      { header_length := ?_, bound := ?_, length_le := ?_, sorted := ?_, height_pos := ?_,
        height_le := ?_, levelMax_pos := ?_, chain := ?_ }
    · have := g1 .header
      simp only [placeHeight] at this
      rw [this, g5]
      exact h.repr.header_length
    · intro x hx
      rw [g3]
      simp only [withNode, List.length_append, List.length_singleton]
      rcases List.mem_append.mp hx with hx | hx
      · have := hbound x (List.mem_append_left _ hx)
        omega
      · rcases List.mem_cons.mp hx with rfl | hx
        · omega
        · have := hbound x (List.mem_append_right _ hx)
          omega
    · rw [g3]
      have := h.repr.length_le
      simp only [withNode, List.length_append, List.length_singleton, List.length_cons] at this ⊢
      omega
    · rw [List.pairwise_append]
      refine ⟨?_, ?_, ?_⟩
      · refine (hsorted.1.imp_of_mem ?_)
        intro a b ha hb hab
        rw [hkey a (List.mem_append_left _ ha), hkey b (List.mem_append_left _ hb)]
        exact hab
      · rw [List.pairwise_cons]
        constructor
        · intro b hb
          rw [hkeyNew, hkey b (List.mem_append_right _ hb)]
          cases hc : bytesLess rec.Key (sl.keyAt b) with
          | true => rfl
          | false => exact absurd (bytesLess_total (h.above b hb) hc) (hne b hb)
        · refine (hsorted.2.1.imp_of_mem ?_)
          intro a b ha hb hab
          rw [hkey a (List.mem_append_right _ ha), hkey b (List.mem_append_right _ hb)]
          exact hab
      · intro a ha b hb
        rw [hkey a (List.mem_append_left _ ha)]
        rcases List.mem_cons.mp hb with rfl | hb
        · rw [hkeyNew]
          exact h.below a ha
        · rw [hkey b (List.mem_append_right _ hb)]
          exact hsorted.2.2 a ha b hb
    · intro x hx
      rcases List.mem_append.mp hx with hx | hx
      · rw [hheight x (fun he => hnew (he ▸ List.mem_append_left _ hx))]
        exact h.repr.height_pos x (List.mem_append_left _ hx)
      · rcases List.mem_cons.mp hx with rfl | hx
        · rw [hheightNew]; exact hL1
        · rw [hheight x (fun he => hnew (he ▸ List.mem_append_right _ hx))]
          exact h.repr.height_pos x (List.mem_append_right _ hx)
    · have hlev : sl.Level ≤ sl'.Level ∧ L ≤ sl'.Level := by
        rw [g4]
        simp only [withNode]
        split <;> omega
      intro x hx
      rw [g5]
      have hold : ∀ y ∈ lo ++ hi, sl'.height y ≤ sl.LevelMax ∧ sl'.height y ≤ sl'.Level := by
        intro y hy
        rw [hheight y (fun he => hnew (he ▸ hy))]
        have := h.repr.height_le y hy
        exact ⟨this.1, by omega⟩
      rcases List.mem_append.mp hx with hx | hx
      · exact hold x (List.mem_append_left _ hx)
      · rcases List.mem_cons.mp hx with rfl | hx
        · rw [hheightNew]
          exact ⟨hL2, hlev.2⟩
        · exact hold x (List.mem_append_right _ hx)
    · rw [g5]
      exact h.repr.levelMax_pos
    · intro lvl
      by_cases hl : lvl < L
      · have hc : Chain sl lvl .header (lo ++ hi) none := h.repr.chain lvl
        refine Chain.insert_above (by rw [hheightNew]; exact hl) hheight hc
          h.repr.nodup (fun x _ he => nomatch he) hnew (fun he => nomatch he) ?_ ?_ ?_
        · rw [g6, if_pos hl, if_pos (hpred lvl).symm]
        · rw [g6, if_pos hl, if_neg (by rw [hpred]; exact (h.pred_ne_new lvl).symm), if_pos rfl,
            hpred, next_withNode_ne rec L lvl (h.pred_ne_new lvl)]
        · intro q hq1 hq2
          rw [g6, if_pos hl, if_neg (by rw [hpred]; exact hq1), if_neg hq2,
            next_withNode_ne rec L lvl hq2]
      · rw [Chain.insert_below (by rw [hheightNew]; exact hl)]
        refine (h.repr.chain lvl).congr ?_ (fun x hx => hheight x (fun he => hnew (he ▸ hx))) ?_
        · rw [g6, if_neg hl]
          rfl
        · intro x hx _
          rw [g6, if_neg hl]
          exact next_withNode_ne rec L lvl (fun he => hnew (Place.node.inj he ▸ hx))
  · obtain ⟨n, hn⟩ : ∃ n, sl'.Nodes[sl.Nodes.length]? = some n := by
      cases hn : sl'.Nodes[sl.Nodes.length]? with
      | none => simp [hn] at hdataNew
      | some n => exact ⟨n, rfl⟩
    have hnd : n.Data = rec := by
      simpa [hn] using hdataNew
    rw [recordsOf_append, recordsOf_cons hn, hnd,
      recordsOf_congr (fun x hx => hdata x (fun he => hnew (he ▸ List.mem_append_left _ hx))),
      recordsOf_congr (fun x hx => hdata x (fun he => hnew (he ▸ List.mem_append_right _ hx)))]

end Skiplist

namespace Skiplist

/-! ## The calls refine operations on the sorted list of records -/

theorem key_of_mem_recordsOf {sl : Skiplist} {l : List Nat} {r : Record}
    (h : r ∈ sl.recordsOf l) : ∃ x ∈ l, sl.keyAt x = r.Key := by
  simp only [recordsOf, nodesOf, List.mem_map, List.mem_filterMap] at h
  obtain ⟨n, ⟨x, hx, hn⟩, rfl⟩ := h
  exact ⟨x, hx, keyAt_eq hn⟩

theorem writeRecord_append {rec : Record} {A : List Record} (B : List Record)
    (h : ∀ r ∈ A, bytesLess r.Key rec.Key = true) :
    writeRecord rec (A ++ B) = A ++ writeRecord rec B := by
  induction A with
  | nil => rfl
  | cons r A ih =>
    have ih' := ih (fun x hx => h x (List.mem_cons_of_mem _ hx))
    show writeRecord rec (r :: (A ++ B)) = r :: (A ++ writeRecord rec B)
    rw [← ih']
    simp only [writeRecord, h r (List.mem_cons_self _ _), if_true]

theorem removeRecord_of_ne {key : List Nat} {l : List Record} (h : ∀ r ∈ l, r.Key ≠ key) :
    removeRecord key l = l := by
  unfold removeRecord
  induction l with
  | nil => rfl
  | cons r l ih =>
    simp only [List.map_cons, h r (List.mem_cons_self _ _), if_false]
    rw [ih (fun x hx => h x (List.mem_cons_of_mem _ hx))]

theorem removeRecord_append (key : List Nat) (A B : List Record) :
    removeRecord key (A ++ B) = removeRecord key A ++ removeRecord key B := by
  simp [removeRecord]

theorem Split.records_below {sl : Skiplist} {key : List Nat} {lo hi : List Nat}
    (h : Split sl key lo hi) : ∀ r ∈ sl.recordsOf lo, bytesLess r.Key key = true := by
  intro r hr
  obtain ⟨x, hx, hk⟩ := key_of_mem_recordsOf hr
  rw [← hk]
  exact h.below x hx

theorem records_ne {sl : Skiplist} {key : List Nat} {l : List Nat}
    (h : ∀ x ∈ l, sl.keyAt x ≠ key) : ∀ r ∈ sl.recordsOf l, r.Key ≠ key := by
  intro r hr
  obtain ⟨x, hx, hk⟩ := key_of_mem_recordsOf hr
  rw [← hk]
  exact h x hx

/-- The call of `Write` returns, keeps the invariant and acts on the records as `writeRecord`. -/
theorem Repr.Write {sl : Skiplist} {order : List Nat} (h : Repr sl order) (rec : Record)
    (coins : List Bool) :
    ∃ sl' order', sl.Write rec coins = some sl' ∧ Repr sl' order' ∧
      sl'.recordsOf order' = writeRecord rec (sl.recordsOf order) := by
  obtain ⟨lo, hi, rfl, hs⟩ := h.split rec.Key
  unfold Skiplist.Write
  rw [hs.descend_eq]
  simp only []
  rw [recordsOf_append, writeRecord_append _ hs.records_below]
  cases hi with
  | nil =>
    rw [hs.successor_nil]
    obtain ⟨h1, h2⟩ := hs.insert_node (fun x hx => nomatch hx) coins
    exact ⟨_, _, rfl, h1, h2⟩
  | cons j hi =>
    obtain ⟨n, hn⟩ := getElem?_of_lt (h.bound j (List.mem_append_right _ (List.mem_cons_self _ _)))
    rw [hs.successor_cons hn, recordsOf_cons hn]
    by_cases hk : n.Data.Key = rec.Key
    · rw [if_pos hk]
      refine ⟨_, _, rfl, h.setData rec hn hk.symm, ?_⟩
      rw [h.recordsOf_setData rec hn]
      simp [writeRecord, hk, bytesLess_irrefl]
    · rw [if_neg hk]
      have hj : sl.keyAt j ≠ rec.Key := by rw [keyAt_eq hn]; exact hk
      obtain ⟨h1, h2⟩ := hs.insert_node (hs.key_ne_hi hj) coins
      refine ⟨_, _, rfl, h1, ?_⟩
      rw [h2, recordsOf_cons hn]
      have hnl : bytesLess n.Data.Key rec.Key = false := by
        have := hs.above j (List.mem_cons_self _ _)
        rwa [keyAt_eq hn] at this
      simp [writeRecord, hk, hnl]

/-- The call of `Remove` returns, keeps the invariant and the order, and acts on the records as
`removeRecord`. -/
theorem Repr.Remove {sl : Skiplist} {order : List Nat} (h : Repr sl order) (key : List Nat) :
    ∃ sl', sl.Remove key = some sl' ∧ Repr sl' order ∧
      sl'.recordsOf order = removeRecord key (sl.recordsOf order) := by
  obtain ⟨lo, hi, rfl, hs⟩ := h.split key
  unfold Skiplist.Remove
  rw [hs.descend_eq]
  simp only []
  rw [recordsOf_append, removeRecord_append, removeRecord_of_ne (records_ne hs.key_ne_lo)]
  cases hi with
  | nil =>
    rw [hs.successor_nil]
    exact ⟨sl, rfl, h, by simp [recordsOf_append, recordsOf, nodesOf, removeRecord]⟩
  | cons j hi =>
    obtain ⟨n, hn⟩ := getElem?_of_lt (h.bound j (List.mem_append_right _ (List.mem_cons_self _ _)))
    rw [hs.successor_cons hn]
    by_cases hk : n.Data.Key = key
    · rw [if_pos hk]
      refine ⟨_, rfl, h.setData _ hn rfl, ?_⟩
      have hj : sl.keyAt j = key := by rw [keyAt_eq hn]; exact hk
      rw [h.recordsOf_setData _ hn, recordsOf_cons hn]
      simp only [removeRecord, List.map_cons, hk, if_true]
      have := removeRecord_of_ne (records_ne (hs.key_ne_tail hj))
      unfold removeRecord at this
      rw [this]
    · rw [if_neg hk]
      have hj : sl.keyAt j ≠ key := by rw [keyAt_eq hn]; exact hk
      refine ⟨sl, rfl, h, ?_⟩
      rw [recordsOf_append, removeRecord_of_ne (records_ne (hs.key_ne_hi hj))]

/-- The absent key: `Remove` returns the list it was given. -/
theorem Repr.Remove_absent {sl : Skiplist} {order : List Nat} (h : Repr sl order)
    {key : List Nat} (hk : ∀ r ∈ sl.recordsOf order, r.Key ≠ key) :
    sl.Remove key = some sl := by
  obtain ⟨lo, hi, rfl, hs⟩ := h.split key
  unfold Skiplist.Remove
  rw [hs.descend_eq]
  simp only []
  cases hi with
  | nil => rw [hs.successor_nil]
  | cons j hi =>
    obtain ⟨n, hn⟩ := getElem?_of_lt (h.bound j (List.mem_append_right _ (List.mem_cons_self _ _)))
    rw [hs.successor_cons hn]
    have : n.Data.Key ≠ key := by
      apply hk
      rw [recordsOf_append, recordsOf_cons hn]
      simp
    rw [if_neg this]

theorem recordsOf_nil (sl : Skiplist) : sl.recordsOf [] = [] := rfl

/-- Every sequence of calls returns, keeps the invariant, and leaves the records that the
operations on sorted lists of records give. -/
theorem Repr.run {ops : List Op} :
    ∀ {sl : Skiplist} {order : List Nat}, Repr sl order →
      ∃ sl' order', sl.run ops = some sl' ∧ Repr sl' order' ∧
        sl'.recordsOf order' = recordsAfter (sl.recordsOf order) ops := by
  induction ops with
  | nil => intro sl order h; exact ⟨sl, order, rfl, h, rfl⟩
  | cons op ops ih =>
    intro sl order h
    cases op with
    | write rec coins =>
      obtain ⟨sl1, order1, h1, h2, h3⟩ := h.Write rec coins
      obtain ⟨sl2, order2, k1, k2, k3⟩ := ih h2
      refine ⟨sl2, order2, ?_, k2, ?_⟩
      · simp only [Skiplist.run, Skiplist.step, h1]
        exact k1
      · rw [k3, h3]
        rfl
    | remove key =>
      obtain ⟨sl1, h1, h2, h3⟩ := h.Remove key
      obtain ⟨sl2, order2, k1, k2, k3⟩ := ih h2
      refine ⟨sl2, order2, ?_, k2, ?_⟩
      · simp only [Skiplist.run, Skiplist.step, h1]
        exact k1
      · rw [k3, h3]
        rfl
    | clear =>
      obtain ⟨sl2, order2, k1, k2, k3⟩ := ih h.Clear
      refine ⟨sl2, order2, ?_, k2, ?_⟩
      · simp only [Skiplist.run, Skiplist.step]
        exact k1
      · rw [k3]
        rfl

/-- From `New`: every sequence of calls returns a list that satisfies the invariant and holds
the records of the sequence. -/
theorem run_New {maxLevel : Nat} (hm : 1 ≤ maxLevel) (ops : List Op) :
    ∃ sl order, (Skiplist.New maxLevel).run ops = some sl ∧ Repr sl order ∧
      sl.recordsOf order = recordsAfter [] ops :=
  (Repr.New maxLevel hm).run

end Skiplist

/-! ## Lemmas on the history of calls -/

theorem mem_keys_writeRecord (rec : Record) (k : List Nat) (l : List Record) :
    k ∈ (writeRecord rec l).map (·.Key) ↔ k = rec.Key ∨ k ∈ l.map (·.Key) := by
  induction l with
  | nil => simp [writeRecord]
  | cons r l ih =>
    simp only [writeRecord]
    by_cases h1 : bytesLess r.Key rec.Key = true
    · rw [if_pos h1]
      simp only [List.map_cons, List.mem_cons, ih]
      tauto
    · rw [if_neg h1]
      by_cases h2 : r.Key = rec.Key
      · rw [if_pos h2]
        simp only [List.map_cons, List.mem_cons, h2]
        tauto
      · rw [if_neg h2]
        simp only [List.map_cons, List.mem_cons]

theorem keys_removeRecord (key : List Nat) (l : List Record) :
    (removeRecord key l).map (·.Key) = l.map (·.Key) := by
  unfold removeRecord
  rw [List.map_map]
  apply List.map_congr_left
  intro r _
  simp only [Function.comp]
  split <;> rfl

/-- A key among the records after a sequence of calls was there before or was written. -/
theorem mem_keys_recordsAfter {k : List Nat} {ops : List Op} :
    ∀ {l : List Record}, k ∈ (recordsAfter l ops).map (·.Key) →
      k ∈ l.map (·.Key) ∨ k ∈ writtenKeys ops := by
  induction ops with
  | nil => intro l h; exact Or.inl h
  | cons op ops ih =>
    intro l h
    cases op with
    | write rec coins =>
      rcases ih (l := writeRecord rec l) h with h | h
      · rcases (mem_keys_writeRecord rec k l).mp h with h | h
        · exact Or.inr (by simp [writtenKeys, h])
        · exact Or.inl h
      · exact Or.inr (by simp [writtenKeys, h])
    | remove key =>
      rcases ih (l := removeRecord key l) h with h | h
      · rw [keys_removeRecord] at h
        exact Or.inl h
      · exact Or.inr h
    | clear =>
      rcases ih (l := []) h with h | h
      · cases h
      · exact Or.inr h

/-- Without `Clear`, a key that was there before or was written is among the records. -/
theorem mem_keys_recordsAfter_of_noClear {k : List Nat} {ops : List Op} (hops : noClear ops) :
    ∀ {l : List Record}, k ∈ l.map (·.Key) ∨ k ∈ writtenKeys ops →
      k ∈ (recordsAfter l ops).map (·.Key) := by
  induction ops with
  | nil =>
    intro l h
    rcases h with h | h
    · exact h
    · cases h
  | cons op ops ih =>
    intro l h
    have hops' : noClear ops := fun o ho => hops o (List.mem_cons_of_mem _ ho)
    cases op with
    | write rec coins =>
      apply ih hops' (l := writeRecord rec l)
      rcases h with h | h
      · exact Or.inl ((mem_keys_writeRecord rec k l).mpr (Or.inr h))
      · simp only [writtenKeys, List.mem_cons] at h
        rcases h with h | h
        · exact Or.inl ((mem_keys_writeRecord rec k l).mpr (Or.inl h))
        · exact Or.inr h
    | remove key =>
      apply ih hops' (l := removeRecord key l)
      rw [keys_removeRecord]
      exact h
    | clear => exact absurd rfl (hops Op.clear (List.mem_cons_self _ _))

theorem find_writeRecord (rec : Record) (k : List Nat) (l : List Record) :
    (writeRecord rec l).find? (fun r => decide (r.Key = k)) =
      if rec.Key = k then some rec else l.find? (fun r => decide (r.Key = k)) := by
  induction l with
  | nil =>
    by_cases h : rec.Key = k <;> simp [writeRecord, List.find?, h]
  | cons r l ih =>
    simp only [writeRecord]
    by_cases h1 : bytesLess r.Key rec.Key = true
    · rw [if_pos h1, List.find?_cons, ih, List.find?_cons]
      by_cases h2 : r.Key = k
      · have : rec.Key ≠ k := fun h => bytesLess_ne h1 (h2.trans h.symm)
        simp [h2, this]
      · simp [h2]
    · rw [if_neg h1]
      by_cases h2 : r.Key = rec.Key
      · rw [if_pos h2, List.find?_cons, List.find?_cons]
        by_cases h3 : rec.Key = k
        · simp [h3]
        · have : r.Key ≠ k := fun h => h3 (h2.symm.trans h)
          simp [h3, this]
      · rw [if_neg h2, List.find?_cons]
        by_cases h3 : rec.Key = k
        · simp [h3]
        · simp [h3]

theorem find_removeRecord (key k : List Nat) (l : List Record) :
    (removeRecord key l).find? (fun r => decide (r.Key = k)) =
      if key = k then (l.find? (fun r => decide (r.Key = k))).map Skiplist.tombstoned
      else l.find? (fun r => decide (r.Key = k)) := by
  induction l with
  | nil => simp [removeRecord]
  | cons r l ih =>
    unfold removeRecord at ih ⊢
    simp only [List.map_cons, List.find?_cons]
    by_cases h1 : r.Key = key
    · by_cases h2 : key = k
      · subst h2
        simp [h1, Skiplist.tombstoned]
      · have h3 : r.Key ≠ k := fun h => h2 (h1.symm.trans h)
        simp only [h1, if_true, h2, if_false] at ih ⊢
        simp only [Skiplist.tombstoned, h1, h2, decide_False]
        exact ih
    · simp only [h1, if_false]
      by_cases h3 : r.Key = k
      · simp only [h3, decide_True]
        have : ¬ key = k := fun h => h1 (h3.trans h.symm)
        simp [this]
      · simp only [h3, decide_False]
        exact ih

theorem recordsAfter_append (l : List Record) (ops ops' : List Op) :
    recordsAfter l (ops ++ ops') = recordsAfter (recordsAfter l ops) ops' := by
  induction ops generalizing l with
  | nil => rfl
  | cons op ops ih =>
    cases op <;> exact ih _

/-- The record found by key among the records after the calls is what the history says. -/
theorem find_recordsAfter (k : List Nat) (past : List Op) :
    (recordsAfter [] past.reverse).find? (fun r => decide (r.Key = k)) = lastWritten k past := by
  induction past with
  | nil => rfl
  | cons op past ih =>
    rw [List.reverse_cons, recordsAfter_append]
    cases op with
    | write rec coins =>
      show (writeRecord rec _).find? _ = _
      rw [find_writeRecord, ih]
      rfl
    | remove key =>
      show (removeRecord key _).find? _ = _
      rw [find_removeRecord, ih]
      rfl
    | clear => rfl

theorem lastWritten_eq_find (k : List Nat) (ops : List Op) :
    lastWritten k ops.reverse = (recordsAfter [] ops).find? (fun r => decide (r.Key = k)) := by
  have := find_recordsAfter k ops.reverse
  rw [List.reverse_reverse] at this
  exact this.symm

theorem Skiplist.run_append (sl : Skiplist) (ops ops' : List Op) :
    sl.run (ops ++ ops') = (sl.run ops).bind (fun s => s.run ops') := by
  induction ops generalizing sl with
  | nil => rfl
  | cons op ops ih =>
    simp only [List.cons_append, Skiplist.run]
    cases sl.step op with
    | none => rfl
    | some s => exact ih s

theorem isDeleted_tombstoned (r : Record) : (Skiplist.tombstoned r).IsDeleted = true := by
  simp [Record.IsDeleted, Skiplist.tombstoned, RECORD_TOMBSTONE_REMOVED]

theorem tombstoned_tombstoned (r : Record) :
    Skiplist.tombstoned (Skiplist.tombstoned r) = Skiplist.tombstoned r := by
  simp [Skiplist.tombstoned, Nat.or_assoc]

namespace Skiplist

/-! ## Lists constructed with no level -/

theorem Flat.next_header {sl : Skiplist} (h : Flat sl) (lvl : Nat) :
    sl.next .header lvl = none := by
  simp [next, h.1]

theorem Flat.descendFrom_header {sl : Skiplist} (h : Flat sl) (key : List Nat) :
    ∀ (n : Nat) (acc : List Place),
      descendFrom sl key n .header acc = some (List.replicate n .header ++ acc) := by
  intro n
  induction n with
  | zero => intro acc; rfl
  | succ n ih =>
    intro acc
    simp only [descendFrom, advance, h.next_header]
    rw [ih, List.replicate_succ']
    simp

theorem Flat.successor {sl : Skiplist} (h : Flat sl) (key : List Nat) (n : Nat) :
    successorWithKey sl (List.replicate n .header ++ []) key = none := by
  have : predAt (List.replicate n Place.header ++ []) 0 = .header := by
    unfold predAt
    cases n <;> rfl
  unfold successorWithKey
  rw [this, h.next_header]

theorem Flat.Find {sl : Skiplist} (h : Flat sl) (key : List Nat) (exactOnly : Bool) :
    sl.Find key exactOnly = some none := by
  unfold Skiplist.Find descend
  rw [h.descendFrom_header]
  simp only []
  rw [h.successor]
  rfl

theorem Flat.Remove_same {sl : Skiplist} (h : Flat sl) (key : List Nat) : sl.Remove key = some sl := by
  unfold Skiplist.Remove descend
  rw [h.descendFrom_header]
  simp only []
  rw [h.successor]

theorem Flat.Write_flat {sl : Skiplist} (h : Flat sl) (rec : Record) (coins : List Bool) :
    ∃ sl', sl.Write rec coins = some sl' ∧ Flat sl' := by
  unfold Skiplist.Write descend
  rw [h.descendFrom_header]
  simp only []
  rw [h.successor]
  have hL : randomLevel sl.LevelMax coins = 0 := by
    rw [h.2]
    exact Nat.zero_min _
  simp only [hL, List.range_zero, List.foldl_nil]
  exact ⟨_, rfl, h.1, h.2⟩

theorem Flat.run_flat {ops : List Op} :
    ∀ {sl : Skiplist}, Flat sl → ∃ sl', sl.run ops = some sl' ∧ Flat sl' := by
  induction ops with
  | nil => intro sl h; exact ⟨sl, rfl, h⟩
  | cons op ops ih =>
    intro sl h
    cases op with
    | write rec coins =>
      obtain ⟨sl1, h1, h2⟩ := h.Write_flat rec coins
      obtain ⟨sl2, k1, k2⟩ := ih h2
      exact ⟨sl2, by simp only [Skiplist.run, Skiplist.step, h1]; exact k1, k2⟩
    | remove key =>
      obtain ⟨sl2, k1, k2⟩ := ih h
      exact ⟨sl2, by simp only [Skiplist.run, Skiplist.step, h.Remove_same key]; exact k1, k2⟩
    | clear =>
      have hc : Flat sl.Clear := ⟨by simp [Skiplist.Clear, h.1], h.2⟩
      obtain ⟨sl2, k1, k2⟩ := ih hc
      exact ⟨sl2, by simp only [Skiplist.run, Skiplist.step]; exact k1, k2⟩

theorem Flat.New_zero : Flat (Skiplist.New 0) := ⟨rfl, rfl⟩

end Skiplist

/-! ## The skip list: claims -/

theorem Skiplist.keys_nodesOf {sl : Skiplist} {l : List Nat} (h : ∀ x ∈ l, x < sl.Nodes.length) :
    (sl.nodesOf l).map (fun n => n.Data.Key) = l.map sl.keyAt := by
  induction l with
  | nil => rfl
  | cons x l ih =>
    obtain ⟨n, hn⟩ := Skiplist.getElem?_of_lt (h x (List.mem_cons_self _ _))
    have ih' := ih (fun y hy => h y (List.mem_cons_of_mem _ hy))
    simp only [Skiplist.nodesOf] at ih' ⊢
    simp [List.filterMap_cons, hn, ih', Skiplist.keyAt_eq hn]

theorem Skiplist.Repr.keys_sorted {sl : Skiplist} {order : List Nat} (h : Skiplist.Repr sl order) :
    ((sl.nodesOf order).map (fun n => n.Data.Key)).Pairwise
      (fun a b => bytesLess a b = true) := by
  rw [Skiplist.keys_nodesOf h.bound, List.pairwise_map]
  exact h.sorted

theorem Skiplist.Repr.Find_data {sl : Skiplist} {order : List Nat} (h : Skiplist.Repr sl order)
    (key : List Nat) (exactOnly : Bool) :
    ∃ found, sl.Find key exactOnly = some found ∧
      found.map (fun n => n.Data) =
        (sl.recordsOf order).find? (fun r => decide (r.Key = key)) := by
  refine ⟨_, h.Find_eq key exactOnly, ?_⟩
  simp only [Skiplist.recordsOf, List.find?_map]
  rfl

/-- After any sequence of calls on a new list: the list, the invariant, its records and what
`Find` returns for a key. -/
theorem Skiplist.run_find {maxLevel : Nat} (hm : 1 ≤ maxLevel) (ops : List Op) (key : List Nat) :
    ∃ sl order found, (Skiplist.New maxLevel).run ops = some sl ∧ Skiplist.Repr sl order ∧
      sl.recordsOf order = recordsAfter [] ops ∧ sl.Find key true = some found ∧
      found.map (fun n => n.Data) = lastWritten key ops.reverse := by
  obtain ⟨sl, order, h1, h2, h3⟩ := Skiplist.run_New hm ops
  obtain ⟨found, h4, h5⟩ := h2.Find_data key true
  exact ⟨sl, order, found, h1, h2, h3, h4, by rw [h5, h3, lastWritten_eq_find]⟩

/-- Claim C6. Sorted invariant: for every `maxLevel ≥ 1` and every sequence of `Write` and
`Remove` calls on `New(maxLevel)`, whatever the random levels, the calls return and the level-0
traversal ends and visits keys in strictly increasing lexicographic byte order, the keys
visited being exactly the keys ever written, each once (tombstoned nodes included). -/
theorem traversal_sorted_one_node_per_key (maxLevel : Nat) (hm : 1 ≤ maxLevel) (ops : List Op)
    (hops : noClear ops) :
    ∃ sl nodes, (Skiplist.New maxLevel).run ops = some sl ∧ sl.traverse = some nodes ∧
      (nodes.map (fun n => n.Data.Key)).Pairwise (List.Lex (fun x y : Nat => x < y)) ∧
      (∀ k, k ∈ nodes.map (fun n => n.Data.Key) ↔ k ∈ writtenKeys ops) ∧
      nodes.length = (writtenKeys ops).dedup.length := by
  obtain ⟨sl, order, h1, h2, h3⟩ := Skiplist.run_New hm ops
  have hkeys : (sl.nodesOf order).map (fun n => n.Data.Key) =
      (recordsAfter [] ops).map (fun r => r.Key) := by
    rw [← h3, Skiplist.recordsOf, List.map_map]
    rfl
  have hmem : ∀ k, k ∈ (sl.nodesOf order).map (fun n => n.Data.Key) ↔ k ∈ writtenKeys ops := by
    intro k
    rw [hkeys]
    constructor
    · intro h
      rcases mem_keys_recordsAfter h with h | h
      · cases h
      · exact h
    · intro h
      exact mem_keys_recordsAfter_of_noClear hops (Or.inr h)
  refine ⟨sl, sl.nodesOf order, h1, h2.traverse_eq, ?_, hmem, ?_⟩
  · exact h2.keys_sorted.imp (fun h => (bytesLess_iff_lex _ _).mp h)
  · have hnd : ((sl.nodesOf order).map (fun n => n.Data.Key)).Nodup :=
      h2.keys_sorted.imp (fun h => bytesLess_ne h)
    have hperm : ((sl.nodesOf order).map (fun n => n.Data.Key)).Perm (writtenKeys ops).dedup :=
      (List.perm_ext_iff_of_nodup hnd (List.nodup_dedup _)).mpr
        (fun k => by rw [hmem, List.mem_dedup])
    rw [← hperm.length_eq, List.length_map]

/-- Claim C7. Last write wins: after any sequence of calls on `New(maxLevel)`, `Find(k, true)`
returns; the node it returns holds the record of the most recent `Write` with key `k`, with the
tombstone bit set when a `Remove(k)` came later, and it returns not-found when there was no
`Write` with key `k` since construction or the last `Clear`. -/
theorem find_returns_last_written (maxLevel : Nat) (hm : 1 ≤ maxLevel) (ops : List Op)
    (key : List Nat) :
    ∃ sl found, (Skiplist.New maxLevel).run ops = some sl ∧ sl.Find key true = some found ∧
      found.map (fun n => n.Data) = lastWritten key ops.reverse := by
  obtain ⟨sl, order, found, h1, -, -, h4, h5⟩ := Skiplist.run_find hm ops key
  exact ⟨sl, found, h1, h4, h5⟩

/-- Removing a key a second time changes nothing. -/
theorem Skiplist.Repr.Remove_twice {sl : Skiplist} {order : List Nat} (h : Skiplist.Repr sl order)
    (key : List Nat) : ∃ sl', sl.Remove key = some sl' ∧ sl'.Remove key = some sl' := by
  obtain ⟨sl', h1, h2, h3⟩ := h.Remove key
  refine ⟨sl', h1, ?_⟩
  obtain ⟨found, h4, h5⟩ := h.Find_data key true
  cases hf : (sl.recordsOf order).find? (fun r => decide (r.Key = key)) with
  | none =>
    have hne : ∀ r ∈ sl.recordsOf order, r.Key ≠ key := by
      intro r hr
      have := List.find?_eq_none.mp hf r hr
      simpa using this
    have := h.Remove_absent hne
    rw [h1] at this
    rw [Option.some.inj this]
    exact h.Remove_absent hne
  | some r =>
    obtain ⟨lo, hi, rfl, hs⟩ := h.split key
    cases hi with
    | nil =>
      exfalso
      rw [List.append_nil] at hf
      have := List.find?_eq_none.mpr
        (fun x hx => by simpa using Skiplist.records_ne hs.key_ne_lo x hx :
          ∀ x ∈ sl.recordsOf lo, ¬ (decide (x.Key = key)) = true)
      rw [this] at hf
      cases hf
    | cons j hi =>
      obtain ⟨n, hn⟩ :=
        Skiplist.getElem?_of_lt (h.bound j (List.mem_append_right _ (List.mem_cons_self _ _)))
      by_cases hk : n.Data.Key = key
      · have e1 : sl.Remove key = some (sl.setData j n (Skiplist.tombstoned n.Data)) := by
          unfold Skiplist.Remove
          rw [hs.descend_eq]
          simp only []
          rw [hs.successor_cons hn, if_pos hk]
        rw [h1] at e1
        have e2 := Option.some.inj e1
        have hn' : sl'.Nodes[j]? = some { n with Data := Skiplist.tombstoned n.Data } := by
          rw [e2, Skiplist.getElem?_setData _ hn, if_pos rfl]
        have hs' : Skiplist.Split sl' key lo (j :: hi) := by
          refine ⟨h2, ?_, ?_⟩
          · intro x hx
            rw [e2, Skiplist.keyAt_setData (Skiplist.tombstoned n.Data) hn rfl]
            exact hs.below x hx
          · intro x hx
            rw [e2, Skiplist.keyAt_setData (Skiplist.tombstoned n.Data) hn rfl]
            exact hs.above x hx
        unfold Skiplist.Remove
        rw [hs'.descend_eq]
        simp only []
        rw [hs'.successor_cons hn', if_pos (by exact hk)]
        simp only [tombstoned_tombstoned]
        rw [e2]
        simp [Skiplist.setData, List.set_set]
      · exfalso
        have hj : sl.keyAt j ≠ key := by rw [Skiplist.keyAt_eq hn]; exact hk
        have h6 : ∀ x ∈ sl.recordsOf (lo ++ j :: hi), ¬ (decide (x.Key = key)) = true := by
          intro x hx
          rw [Skiplist.recordsOf_append] at hx
          rcases List.mem_append.mp hx with hx | hx
          · simpa using Skiplist.records_ne hs.key_ne_lo x hx
          · simpa using Skiplist.records_ne (hs.key_ne_hi hj) x hx
        rw [List.find?_eq_none.mpr h6] at hf
        cases hf

set_option maxRecDepth 100000 in
/-- Claim C8, as stated, fails: after `Write`, `Remove` and a `Write` of the record that `Find`
returned (with a new type tag, as `main` does), `Find` returns a node whose record is still
deleted. -/
theorem rewrite_of_found_record_stays_deleted :
    (((Skiplist.New 3).run
        [Op.write (NewFromString "Key04" "Val04" 7) [],
          Op.remove (stringBytes "Key04"),
          Op.write { Skiplist.tombstoned (NewFromString "Key04" "Val04" 7) with TypeInfo := 3 }
            [true]]).bind
      (fun sl => sl.Find (stringBytes "Key04") true)).map
        (Option.map (fun n => n.Data.IsDeleted)) = some (some true) := by
  decide

/-- Claim C8, amended. For a list that holds key `k` (in node `n0`): after `Remove(k)`,
`Find(k, true)` returns a node whose record is deleted and has the key and value bytes of
before; after a subsequent `Write` of a record with key `k`, `Find(k, true)` returns a node
holding exactly the written record, so that `IsDeleted()` is the tombstone bit of the written
record (false for a record whose own bit is clear). -/
theorem tombstone_set_by_Remove_and_replaced_by_Write (maxLevel : Nat)
    (ops : List Op) (key : List Nat) (n0 : SkiplistNode) (rec : Record) (coins : List Bool)
    (hfind : ((Skiplist.New maxLevel).run ops).bind (fun sl => sl.Find key true) =
      some (some n0))
    (hrec : rec.Key = key) :
    ∃ sl sl1 sl2 n1 n2, (Skiplist.New maxLevel).run ops = some sl ∧
      sl.Remove key = some sl1 ∧ sl1.Find key true = some (some n1) ∧
      n1.Data.IsDeleted = true ∧ n1.Data.Key = n0.Data.Key ∧ n1.Data.Value = n0.Data.Value ∧
      sl1.Write rec coins = some sl2 ∧ sl2.Find key true = some (some n2) ∧
      n2.Data = rec ∧ n2.Data.IsDeleted = rec.IsDeleted := by
  have hm : 1 ≤ maxLevel := by
    rcases Nat.eq_zero_or_pos maxLevel with h0 | h0
    · subst h0
      obtain ⟨sl, h1, h2⟩ : ∃ sl, (Skiplist.New 0).run ops = some sl ∧ Skiplist.Flat sl :=
        Skiplist.Flat.run_flat Skiplist.Flat.New_zero
      rw [h1] at hfind
      simp only [Option.bind] at hfind
      rw [h2.Find key true] at hfind
      cases hfind
    · exact h0
  obtain ⟨sl, order, h1, h2, -⟩ := Skiplist.run_New hm ops
  rw [h1] at hfind
  simp only [Option.bind] at hfind
  obtain ⟨f0, a1, a2⟩ := h2.Find_data key true
  rw [hfind] at a1
  have a3 : (sl.recordsOf order).find? (fun r => decide (r.Key = key)) = some n0.Data := by
    rw [← a2, ← Option.some.inj a1]
    rfl
  obtain ⟨sl1, b1, b2, b3⟩ := h2.Remove key
  obtain ⟨f1, c1, c2⟩ := b2.Find_data key true
  rw [b3, find_removeRecord, if_pos rfl, a3] at c2
  obtain ⟨n1, rfl, hn1⟩ : ∃ n1, f1 = some n1 ∧ n1.Data = Skiplist.tombstoned n0.Data := by
    cases f1 with
    | none => cases c2
    | some n1 => exact ⟨n1, rfl, Option.some.inj c2⟩
  obtain ⟨sl2, order2, d1, d2, d3⟩ := b2.Write rec coins
  obtain ⟨f2, e1, e2⟩ := d2.Find_data key true
  rw [d3, find_writeRecord, if_pos hrec] at e2
  obtain ⟨n2, rfl, hn2⟩ : ∃ n2, f2 = some n2 ∧ n2.Data = rec := by
    cases f2 with
    | none => cases e2
    | some n2 => exact ⟨n2, rfl, Option.some.inj e2⟩
  refine ⟨sl, sl1, sl2, n1, n2, h1, b1, c1, ?_, ?_, ?_, d1, e1, hn2, by rw [hn2]⟩
  · rw [hn1]; exact isDeleted_tombstoned _
  · rw [hn1]; rfl
  · rw [hn1]; rfl

/-- Claim C9. No-op delete: after any sequence of calls on a new list and for a key never
written, `Remove` returns the list it was given (same nodes, same order, same records, status
bits included) and `Find` still returns not-found; and for every key, a second `Remove`
changes nothing. -/
theorem remove_of_unwritten_key_changes_nothing (maxLevel : Nat)
    (ops : List Op) (key : List Nat) (hkey : key ∉ writtenKeys ops) :
    ∃ sl, (Skiplist.New maxLevel).run ops = some sl ∧ sl.Remove key = some sl ∧
      sl.Find key true = some none ∧
      ∀ k, ∃ sl', sl.Remove k = some sl' ∧ sl'.Remove k = some sl' := by
  rcases Nat.eq_zero_or_pos maxLevel with h0 | hm
  · subst h0
    obtain ⟨sl, h1, h2⟩ : ∃ sl, (Skiplist.New 0).run ops = some sl ∧ Skiplist.Flat sl :=
      Skiplist.Flat.run_flat Skiplist.Flat.New_zero
    exact ⟨sl, h1, h2.Remove_same key, h2.Find key true, fun k => ⟨sl, h2.Remove_same k, h2.Remove_same k⟩⟩
  obtain ⟨sl, order, found, h1, h2, h3, h4, h5⟩ := Skiplist.run_find hm ops key
  have hne : ∀ r ∈ sl.recordsOf order, r.Key ≠ key := by
    intro r hr he
    rw [h3] at hr
    have : key ∈ (recordsAfter [] ops).map (fun r => r.Key) :=
      List.mem_map.mpr ⟨r, hr, he⟩
    rcases mem_keys_recordsAfter this with h | h
    · cases h
    · exact hkey h
  refine ⟨sl, h1, h2.Remove_absent hne, ?_, fun k => h2.Remove_twice k⟩
  obtain ⟨f, a1, a2⟩ := h2.Find_data key true
  have : (sl.recordsOf order).find? (fun r => decide (r.Key = key)) = none :=
    List.find?_eq_none.mpr (fun r hr => by simpa using hne r hr)
  rw [this] at a2
  cases f with
  | none => exact a1
  | some n => cases a2

theorem traversal_sorted_one_node_per_key_witness :
    1 ≤ 3 ∧ noClear mainCalls ∧
    ∃ sl nodes, (Skiplist.New 3).run mainCalls = some sl ∧ sl.traverse = some nodes ∧
      (nodes.map (fun n => n.Data.Key)).Pairwise (List.Lex (fun x y : Nat => x < y)) ∧
      (∀ k, k ∈ nodes.map (fun n => n.Data.Key) ↔ k ∈ writtenKeys mainCalls) ∧
      nodes.length = (writtenKeys mainCalls).dedup.length :=
  ⟨by decide, by decide, traversal_sorted_one_node_per_key 3 (by decide) mainCalls (by decide)⟩

theorem find_returns_last_written_witness :
    1 ≤ 3 ∧
    ∃ sl found, (Skiplist.New 3).run mainCalls = some sl ∧
      sl.Find (stringBytes "Key04") true = some found ∧
      found.map (fun n => n.Data) = lastWritten (stringBytes "Key04") mainCalls.reverse :=
  ⟨by decide, find_returns_last_written 3 (by decide) mainCalls (stringBytes "Key04")⟩

set_option maxRecDepth 100000 in
theorem tombstone_set_by_Remove_and_replaced_by_Write_witness :
    ((Skiplist.New 3).run mainCalls).bind (fun sl => sl.Find (stringBytes "Key04") true) =
      some (some ⟨{ NewFromString "Key04" "Val04" 7 with TypeInfo := 3 }, [none, none]⟩) ∧
    (NewFromString "Key04" "Val09" 9).Key = stringBytes "Key04" ∧
    ∃ sl sl1 sl2 n1 n2, (Skiplist.New 3).run mainCalls = some sl ∧
      sl.Remove (stringBytes "Key04") = some sl1 ∧
      sl1.Find (stringBytes "Key04") true = some (some n1) ∧
      n1.Data.IsDeleted = true ∧
      n1.Data.Key = (NewFromString "Key04" "Val04" 7).Key ∧
      n1.Data.Value = (NewFromString "Key04" "Val04" 7).Value ∧
      sl1.Write (NewFromString "Key04" "Val09" 9) [true] = some sl2 ∧
      sl2.Find (stringBytes "Key04") true = some (some n2) ∧
      n2.Data = NewFromString "Key04" "Val09" 9 ∧
      n2.Data.IsDeleted = (NewFromString "Key04" "Val09" 9).IsDeleted :=
  ⟨by decide, by decide,
    tombstone_set_by_Remove_and_replaced_by_Write 3 mainCalls (stringBytes "Key04")
      ⟨{ NewFromString "Key04" "Val04" 7 with TypeInfo := 3 }, [none, none]⟩
      (NewFromString "Key04" "Val09" 9) [true] (by decide) (by decide)⟩

set_option maxRecDepth 100000 in
theorem remove_of_unwritten_key_changes_nothing_witness :
    stringBytes "Key07" ∉ writtenKeys mainCalls ∧
    ∃ sl, (Skiplist.New 3).run mainCalls = some sl ∧
      sl.Remove (stringBytes "Key07") = some sl ∧
      sl.Find (stringBytes "Key07") true = some none ∧
      ∀ k, ∃ sl', sl.Remove k = some sl' ∧ sl'.Remove k = some sl' :=
  ⟨by decide,
    remove_of_unwritten_key_changes_nothing 3 mainCalls (stringBytes "Key07") (by decide)⟩

/-! ## Lemmas on `Deserialize` over arbitrary streams -/

theorem readFull_ok_length {r : List Nat} {n : Nat} {bs r' : List Nat}
    (h : readFull r n = (.ok bs, r')) : bs.length = n ∧ r = bs ++ r' := by
  unfold readFull at h
  by_cases h0 : n = 0
  · rw [if_pos h0] at h
    simp only [Prod.mk.injEq, ReadResult.ok.injEq] at h
    obtain ⟨rfl, rfl⟩ := h
    exact ⟨by simp [h0], rfl⟩
  · rw [if_neg h0] at h
    by_cases h1 : n ≤ r.length
    · rw [if_pos h1] at h
      simp only [Prod.mk.injEq, ReadResult.ok.injEq] at h
      obtain ⟨rfl, rfl⟩ := h
      exact ⟨by simp [h1], (List.take_append_drop n r).symm⟩
    · rw [if_neg h1] at h
      split at h <;> simp at h

theorem readBytes_length {r data k r' : List Nat} {e : Option IOError}
    (h : readBytes r data = (e, k, r')) : k.length = data.length := by
  unfold readBytes at h
  rcases hr : readFull r data.length with ⟨res, r2⟩
  rw [hr] at h
  cases res with
  | ok bs =>
    simp only [Prod.mk.injEq] at h
    obtain ⟨-, rfl, -⟩ := h
    exact (readFull_ok_length hr).1
  | err e' =>
    simp only [Prod.mk.injEq] at h
    obtain ⟨-, rfl, -⟩ := h
    rfl

seal readUint32 readInt64 readUint8 readUint64 readBytes in
/-- The outcome of `Deserialize` when one of the decoded sizes is beyond what `make` accepts. -/
theorem Deserialize_makeslice {this : Record} {reader r1 r2 r3 r4 r5 r6 : List Nat}
    {e1 e2 e3 e4 e5 e6 : Option IOError} {c st ty ks vs : Nat} {ts : Int}
    (h1 : readUint32 reader this.Crc = (e1, c, r1))
    (h2 : readInt64 r1 this.Timestamp = (e2, ts, r2))
    (h3 : readUint8 r2 this.Status = (e3, st, r3))
    (h4 : readUint8 r3 this.TypeInfo = (e4, ty, r4))
    (h5 : readUint64 r4 this.KeySize = (e5, ks, r5))
    (h6 : readUint64 r5 this.ValueSize = (e6, vs, r6))
    (hm : maxAlloc < ks ∨ maxAlloc < vs) :
    this.Deserialize reader = .panicMakeslice := by
  unfold Record.Deserialize
  simp only [h1, h2, h3, h4, h5, h6, hm, if_true]

/-- Every record that `Deserialize` leaves when it returns satisfies the record invariant. -/
theorem Deserialize_returned_valid {target r : Record} {reader rest : List Nat}
    (h : target.Deserialize reader = .returned r rest) : r.Valid := by
  rcases h1 : readUint32 reader target.Crc with ⟨e1, c, r1⟩
  rcases h2 : readInt64 r1 target.Timestamp with ⟨e2, ts, r2⟩
  rcases h3 : readUint8 r2 target.Status with ⟨e3, st, r3⟩
  rcases h4 : readUint8 r3 target.TypeInfo with ⟨e4, ty, r4⟩
  rcases h5 : readUint64 r4 target.KeySize with ⟨e5, ks, r5⟩
  rcases h6 : readUint64 r5 target.ValueSize with ⟨e6, vs, r6⟩
  by_cases hm : maxAlloc < ks ∨ maxAlloc < vs
  · rw [Deserialize_makeslice h1 h2 h3 h4 h5 h6 hm] at h
    cases h
  · rw [not_or, Nat.not_lt, Nat.not_lt] at hm
    rcases h7 : readBytes r6 (List.replicate ks 0) with ⟨e7, k, r7⟩
    rcases h8 : readBytes r7 (List.replicate vs 0) with ⟨e8, v, r8⟩
    rw [Deserialize_of_reads h1 h2 h3 h4 h5 h6 hm.1 hm.2 h7 h8] at h
    cases e8 with
    | some err => cases h
    | none =>
      simp only [] at h
      by_cases hc : ChecksumIEEE (k ++ v) ≠ c
      · rw [if_pos hc] at h
        cases h
      · rw [if_neg hc] at h
        simp only [Outcome.returned.injEq] at h
        obtain ⟨rfl, -⟩ := h
        have hk := readBytes_length h7
        have hv := readBytes_length h8
        rw [List.length_replicate] at hk hv
        exact ⟨(not_not.mp hc).symm, hk.symm, hv.symm⟩

/-! ## The record codec: further claims -/

set_option maxRecDepth 100000 in
/-- Claim C11, evaluated. On the empty stream the outcome depends on the target: read into the
record of `NewEmpty` the call returns and leaves the target as it was, timestamp included, so
two such targets made at different times give different records; read into a record with a
key and a value of one byte the call ends in the read panic. -/
theorem outcome_depends_on_target :
    (NewEmpty 5).Deserialize [] = .returned (NewEmpty 5) [] ∧
    (NewEmpty 6).Deserialize [] = .returned (NewEmpty 6) [] ∧
    (NewEmpty 5).Timestamp ≠ (NewEmpty 6).Timestamp ∧
    (New [1] [2] 7).Deserialize [] = .panicRead IOError.EOF := by
  decide

theorem Clone_valid {rec : Record} (now : Int) (h : rec.Valid) : (Clone rec now).Valid := h

/-- The invariant holds for the record of `New` on two byte strings that are held apart. -/
theorem New_valid (key val : List Nat) (now : Int) : (New key val now).Valid := by
  rw [New_eq]
  exact ⟨rfl, rfl, rfl⟩

set_option maxRecDepth 100000 in
/-- Claim C12, evaluated. After `buf := []byte{1, 2, 3, 4}` the call `New(buf[0:2], buf[1:3])`
copies the two bytes of the value into the array of `buf` behind the key: the record it returns
has the key `[1, 2]`, the value `[2, 2]` and the checksum 826498863, that of `[1, 2, 2, 3]`,
while the checksum of its key followed by its value is 1178890169, so the invariant fails for
it. The record with the key `buf[0:2]`, the value `buf[1:3]` and the checksum 826498863
satisfies the invariant, and `CalcCRC` leaves a record that does not. -/
theorem invariant_broken_by_aliased_slices :
    loaded (InMemory.New bufMemory (buf.slice 0 2) (buf.slice 1 3) 7) =
      ⟨826498863, 7, 0, 0, 2, 2, [1, 2], [2, 2]⟩ ∧
    ChecksumIEEE [1, 2, 2, 3] = 826498863 ∧ ChecksumIEEE ([1, 2] ++ [2, 2]) = 1178890169 ∧
    ¬ (loaded (InMemory.New bufMemory (buf.slice 0 2) (buf.slice 1 3) 7)).Valid ∧
    (SliceRecord.load ⟨826498863, 7, 0, 0, 2, 2, buf.slice 0 2, buf.slice 1 3⟩
      bufMemory).Valid ∧
    ¬ (loaded (InMemory.CalcCRC bufMemory
      ⟨826498863, 7, 0, 0, 2, 2, buf.slice 0 2, buf.slice 1 3⟩)).Valid := by
  decide

theorem IsDeleted_eq (r : Record) : r.IsDeleted = decide (r.Status % 2 = 1) := by
  unfold Record.IsDeleted RECORD_TOMBSTONE_REMOVED
  rw [show (1 <<< 0 : Nat) = 1 from rfl, Nat.and_one_is_mod]
  rcases Nat.mod_two_eq_zero_or_one r.Status with h | h <;> simp [h]

set_option maxRecDepth 100000 in
/-- Claim C13, evaluated. After `line := []byte("Key01=Val01")` the slices `line[:5]` and
`line[6:]` hold "Key01" and "Val01"; the record `New(line[:5], line[6:])` returns has the
checksum of "Key01Val01" and the key "Key01", but its value is "al011", not the value passed,
and so is the value of the record of `NewTyped(line[:5], line[6:], 3)`. -/
theorem New_overwrites_aliased_value :
    (line.slice 0 5).bytes lineMemory = stringBytes "Key01" ∧
    (line.slice 6 11).bytes lineMemory = stringBytes "Val01" ∧
    (loaded (InMemory.New lineMemory (line.slice 0 5) (line.slice 6 11) 7)).Crc =
      ChecksumIEEE (stringBytes "Key01" ++ stringBytes "Val01") ∧
    (loaded (InMemory.New lineMemory (line.slice 0 5) (line.slice 6 11) 7)).Key =
      stringBytes "Key01" ∧
    (loaded (InMemory.New lineMemory (line.slice 0 5) (line.slice 6 11) 7)).Value =
      stringBytes "al011" ∧
    (loaded (InMemory.NewTyped lineMemory (line.slice 0 5) (line.slice 6 11) 3 7)).Value =
      stringBytes "al011" := by
  decide

/-- Claim C14. The method `IsDeleted` reads only bit 0 of `Status`: it is true exactly when the
status is odd, it is the value of bit 0, and it is the same for two records whose statuses
agree in bit 0, whatever their other status bits and their other fields. -/
theorem IsDeleted_reads_bit_zero (r : Record) :
    (r.IsDeleted = true ↔ r.Status % 2 = 1) ∧ r.IsDeleted = r.Status.testBit 0 ∧
    ∀ (c : Nat) (ts : Int) (hi ty ks vs : Nat) (k v : List Nat),
      Record.IsDeleted ⟨c, ts, r.Status % 2 + 2 * hi, ty, ks, vs, k, v⟩ = r.IsDeleted := by
  refine ⟨?_, ?_, ?_⟩
  · rw [IsDeleted_eq]
    simp
  · rw [IsDeleted_eq, Nat.testBit_zero]
  · intro c ts hi ty ks vs k v
    rw [IsDeleted_eq, IsDeleted_eq]
    have : (r.Status % 2 + 2 * hi) % 2 = r.Status % 2 := by omega
    simp only [this]

/-- Claim C15. The function `Clone` copies everything but the timestamp: the clone has the
checksum, status, type, sizes, key and value of the record and the current time as
timestamp. -/
theorem Clone_copies_all_but_timestamp (rec : Record) (now : Int) :
    (Clone rec now).Crc = rec.Crc ∧ (Clone rec now).Status = rec.Status ∧
    (Clone rec now).IsDeleted = rec.IsDeleted ∧ (Clone rec now).TypeInfo = rec.TypeInfo ∧
    (Clone rec now).KeySize = rec.KeySize ∧ (Clone rec now).ValueSize = rec.ValueSize ∧
    (Clone rec now).Key = rec.Key ∧ (Clone rec now).Value = rec.Value ∧
    (Clone rec now).Timestamp = now ∧ Clone rec now = { rec with Timestamp := now } :=
  ⟨rfl, rfl, rfl, rfl, rfl, rfl, rfl, rfl, rfl, rfl⟩

set_option maxRecDepth 100000 in
/-- Claim C16, evaluated. After `line := []byte("Key01=Val01")` the record with the key
`line[:5]`, the value `line[6:]` and the checksum 0 holds "Key01" and "Val01". The call of
`CalcCRC` sets `Crc` to the checksum of "Key01Val01" and changes the value to "al011", so `Crc`
is not the checksum of key and value afterwards; a second call changes the record again, to the
checksum of "Key01al011" and the value "l0111". -/
theorem CalcCRC_overwrites_aliased_value :
    SliceRecord.load ⟨0, 7, 0, 0, 5, 5, line.slice 0 5, line.slice 6 11⟩ lineMemory =
      ⟨0, 7, 0, 0, 5, 5, stringBytes "Key01", stringBytes "Val01"⟩ ∧
    loaded (InMemory.CalcCRC lineMemory ⟨0, 7, 0, 0, 5, 5, line.slice 0 5, line.slice 6 11⟩) =
      ⟨ChecksumIEEE (stringBytes "Key01Val01"), 7, 0, 0, 5, 5, stringBytes "Key01",
        stringBytes "al011"⟩ ∧
    ChecksumIEEE (stringBytes "Key01Val01") ≠
      ChecksumIEEE (stringBytes "Key01" ++ stringBytes "al011") ∧
    loaded (InMemory.CalcCRC
        (InMemory.CalcCRC lineMemory
          ⟨0, 7, 0, 0, 5, 5, line.slice 0 5, line.slice 6 11⟩).2
        (InMemory.CalcCRC lineMemory
          ⟨0, 7, 0, 0, 5, 5, line.slice 0 5, line.slice 6 11⟩).1) =
      ⟨ChecksumIEEE (stringBytes "Key01al011"), 7, 0, 0, 5, 5, stringBytes "Key01",
        stringBytes "l0111"⟩ := by
  decide

theorem take_append3 (a b c : List Nat) : (a ++ b ++ c).take a.length = a := by
  rw [List.append_assoc, List.take_left']
  rfl

theorem drop_append3 (a b c : List Nat) : (a ++ b ++ c).drop (a.length + b.length) = c := by
  rw [← List.length_append, List.drop_left']
  rfl

theorem header_split (r : Record) :
    r.encode = putUint32 r.Crc ++
      (putUint64 (int64ToUint64 r.Timestamp) ++ [r.Status % 256] ++ [r.TypeInfo % 256]) ++
      (putUint64 r.KeySize ++ putUint64 r.ValueSize ++ r.Key ++ r.Value) := by
  simp [Record.encode_eq, Record.header, List.append_assoc]

theorem overwriteMetadata_encode (r : Record) (ts : Int) (st ty : Nat) (hts : IsInt64 ts)
    (hst : st < 256) (hty : ty < 256) :
    overwriteMetadata r.encode ts st ty =
      Record.encode { r with Timestamp := ts, Status := st, TypeInfo := ty } := by
  have h4 : r.encode.take 4 = putUint32 r.Crc := by
    rw [header_split]
    exact take_append3 (putUint32 r.Crc) _ _
  have h14 : r.encode.drop 14 = putUint64 r.KeySize ++ putUint64 r.ValueSize ++ r.Key ++ r.Value := by
    rw [header_split]
    exact drop_append3 (putUint32 r.Crc)
      (putUint64 (int64ToUint64 r.Timestamp) ++ [r.Status % 256] ++ [r.TypeInfo % 256]) _
  unfold overwriteMetadata
  rw [h4, h14, ← int64ToUint64_eq ts hts, ← putUint64_eq_leBytes]
  simp [Record.encode_eq, Record.header, List.append_assoc, Nat.mod_eq_of_lt hst,
    Nat.mod_eq_of_lt hty]

/-- Claim C17. The checksum does not protect the metadata: the encoding of a valid record with
the bytes 4..13 overwritten by the encodings of another timestamp, status and type tag is
accepted by `Deserialize`, which returns the record with these three fields replaced and the
other five as they were. -/
theorem overwritten_metadata_accepted (r target : Record) (ts : Int) (st ty : Nat)
    (ht : r.Typed) (hv : r.Valid) (hts : IsInt64 ts) (hst : st < 256) (hty : ty < 256) :
    target.Deserialize (overwriteMetadata r.encode ts st ty) =
      .returned { r with Timestamp := ts, Status := st, TypeInfo := ty } [] := by
  rw [overwriteMetadata_encode r ts st ty hts hst hty]
  obtain ⟨h1, -, -, -, h5, h6, h7, h8, h9, h10⟩ := ht
  have := Deserialize_encode { r with Timestamp := ts, Status := st, TypeInfo := ty } target []
    ⟨h1, hts, hst, hty, h5, h6, h7, h8, h9, h10⟩ hv
  rwa [List.append_nil] at this

set_option maxRecDepth 100000 in
theorem overwritten_metadata_accepted_witness :
    (New [75] [86] 7).Typed ∧ (New [75] [86] 7).Valid ∧ IsInt64 (-3) ∧ 1 < 256 ∧ 9 < 256 ∧
    (NewEmpty 5).Deserialize (overwriteMetadata (New [75] [86] 7).encode (-3) 1 9) =
      .returned { New [75] [86] 7 with Timestamp := -3, Status := 1, TypeInfo := 9 } [] :=
  ⟨by decide, by decide, by decide, by decide, by decide,
    overwritten_metadata_accepted _ _ (-3) 1 9 (by decide) (by decide) (by decide) (by decide)
      (by decide)⟩

theorem header_split_sizes (r : Record) :
    r.encode = (putUint32 r.Crc ++ putUint64 (int64ToUint64 r.Timestamp) ++ [r.Status % 256] ++
        [r.TypeInfo % 256]) ++
      (putUint64 r.KeySize ++ putUint64 r.ValueSize) ++ (r.Key ++ r.Value) := by
  simp [Record.encode_eq, Record.header, List.append_assoc]

theorem rewriteSizes_encode (r : Record) (ks vs : Nat) :
    rewriteSizes r.encode ks vs =
      Record.header { r with KeySize := ks, ValueSize := vs } ++ (r.Key ++ r.Value) := by
  have h14 : r.encode.take 14 = putUint32 r.Crc ++ putUint64 (int64ToUint64 r.Timestamp) ++
      [r.Status % 256] ++ [r.TypeInfo % 256] := by
    rw [header_split_sizes]
    exact take_append3 (putUint32 r.Crc ++ putUint64 (int64ToUint64 r.Timestamp) ++
      [r.Status % 256] ++ [r.TypeInfo % 256]) _ _
  have h30 : r.encode.drop 30 = r.Key ++ r.Value := by
    rw [header_split_sizes]
    exact drop_append3 (putUint32 r.Crc ++ putUint64 (int64ToUint64 r.Timestamp) ++
      [r.Status % 256] ++ [r.TypeInfo % 256]) (putUint64 r.KeySize ++ putUint64 r.ValueSize) _
  unfold rewriteSizes
  rw [h14, h30, ← putUint64_eq_leBytes, ← putUint64_eq_leBytes]
  simp [Record.header, List.append_assoc]

/-- Claim C18. The checksum does not bind the boundary between key and value: two records
built from the same concatenation have the same checksum; and the encoding of a valid record
with the two size fields rewritten to `k'` and `KeySize + ValueSize - k'` is accepted by
`Deserialize`, which returns the first `k'` bytes of `Key ++ Value` as key and the rest as
value (key and value together having a length that `make` accepts). -/
theorem boundary_not_bound_by_checksum (k1 v1 k2 v2 : List Nat) (now1 now2 : Int)
    (r target : Record) (kp : Nat) (hcat : k1 ++ v1 = k2 ++ v2) (ht : r.Typed) (hv : r.Valid)
    (hkp : kp ≤ r.KeySize + r.ValueSize) (hfit : r.KeySize + r.ValueSize ≤ maxAlloc) :
    (New k1 v1 now1).Crc = (New k2 v2 now2).Crc ∧
    target.Deserialize (rewriteSizes r.encode kp (r.KeySize + r.ValueSize - kp)) =
      .returned
        { r with
          KeySize := kp
          ValueSize := r.KeySize + r.ValueSize - kp
          Key := (r.Key ++ r.Value).take kp
          Value := (r.Key ++ r.Value).drop kp } [] := by
  constructor
  · rw [New_eq, New_eq]
    show ChecksumIEEE (k1 ++ v1) = ChecksumIEEE (k2 ++ v2)
    rw [hcat]
  · obtain ⟨h1, h2, h3, h4, -, -, -, -, -, -⟩ := ht
    have hk : kp ≤ maxAlloc := Nat.le_trans hkp hfit
    have hvl : r.KeySize + r.ValueSize - kp ≤ maxAlloc := Nat.le_trans (Nat.sub_le _ _) hfit
    obtain ⟨v1', v2', v3'⟩ := hv
    have hlen : (r.Key ++ r.Value).length = r.KeySize + r.ValueSize := by
      rw [List.length_append, v2', v3']
    have hsplit : Record.header { r with KeySize := kp, ValueSize := r.KeySize + r.ValueSize - kp }
        ++ (r.Key ++ r.Value) =
        Record.header { r with KeySize := kp, ValueSize := r.KeySize + r.ValueSize - kp } ++
          (r.Key ++ r.Value).take kp ++ (r.Key ++ r.Value).drop kp ++ [] := by
      rw [List.append_nil, List.append_assoc, List.take_append_drop]
    rw [rewriteSizes_encode, hsplit,
      Deserialize_frame { r with KeySize := kp, ValueSize := r.KeySize + r.ValueSize - kp }
        target _ _ [] h1 h2 h3 h4 hk hvl
        (by rw [List.length_take, hlen]; exact Nat.min_eq_left hkp)
        (by rw [List.length_drop, hlen])]
    rw [List.take_append_drop, if_neg (not_not.mpr v1'.symm)]

set_option maxRecDepth 100000 in
theorem boundary_not_bound_by_checksum_witness :
    [75, 76] ++ [86] = [75] ++ [76, 86] ∧ (New [75, 76] [86] 7).Typed ∧
    (New [75, 76] [86] 7).Valid ∧
    1 ≤ (New [75, 76] [86] 7).KeySize + (New [75, 76] [86] 7).ValueSize ∧
    (New [75, 76] [86] 7).KeySize + (New [75, 76] [86] 7).ValueSize ≤ maxAlloc ∧
    (New [75, 76] [86] 7).Crc = (New [75] [76, 86] 8).Crc ∧
    (NewEmpty 5).Deserialize (rewriteSizes (New [75, 76] [86] 7).encode 1 2) =
      .returned { New [75] [76, 86] 7 with Crc := (New [75, 76] [86] 7).Crc } [] :=
  have h := boundary_not_bound_by_checksum [75, 76] [86] [75] [76, 86] 7 8 (New [75, 76] [86] 7)
    (NewEmpty 5) 1 (by decide) (by decide) (by decide) (by decide) (by decide)
  ⟨by decide, by decide, by decide, by decide, by decide, h.1, h.2⟩

set_option maxRecDepth 100000 in
/-- Claim C19, evaluated. Two runs in which `Deserialize` returns and the bytes `serialize`
writes for the record left are not the bytes consumed: on the empty stream, read into the
record of `NewEmpty`, nothing is consumed and the record encodes to 30 bytes; on the 30-byte
header of the record with key `[0]` and empty value, the record left encodes to 31 bytes. -/
theorem reencoding_longer_than_stream :
    (NewEmpty 5).Deserialize [] = .returned (NewEmpty 5) [] ∧
    ((NewEmpty 5).serialize []).length = 30 ∧
    (New [0] [] 7).header.length = 30 ∧
    (NewEmpty 5).Deserialize (New [0] [] 7).header = .returned (New [0] [] 7) [] ∧
    ((New [0] [] 7).serialize []).length = 31 := by
  decide

end Nakevaleng
